import Mathlib

/-!
# Minimal-surface miniapp: relaxation solver, surface factory and mesh builders

A shallow embedding of `miniapps/meshing/mesh-minimal-surface.cpp`.

Conventions of the embedding.

* `double` values are exact rationals (`ℚ`); the transcendental parametrizations are stated
  over `ℝ`.
* A `Vector` / `GridFunction` is the list of its entries.
* A function that can hit `MFEM_VERIFY` / `mfem_error` returns `Except Err α × σ`: the outcome
  together with the state that is in place when the function returns or aborts.
* Calls into the finite-element library that do not touch the data a definition is about
  (visualisation, device reads, geometric-factor invalidation, printing) are left out; the
  linear solve is a parameter.
-/

namespace MinimalSurface

/-! ## Constants and options -/

/-- The constant `constexpr double NRM = 1.e-4;`. -/
def NRM : ℚ := 1 / 10000

/-- The constant `constexpr double EPS = 1.e-14;`: the value of the `double` that the literal
`1.e-14` denotes, `6338253001141147 / 2^99`.  It lies below the real number `10^-14` (by
about `1.18e-32`), so an entry equal to it fails the strict test `abs(x) < EPS`. -/
def EPS : ℚ := 6338253001141147 / 2 ^ 99

/-- The constant `constexpr int DIM = 2;`. -/
def DIM : Nat := 2

/-- The constant `constexpr int SDIM = 3;`. -/
def SDIM : Nat := 3

/-- Options of the solver, `struct Opt`, with the defaults of the source.
`refine` is spelled `refine_levels` (it is the `--ref-levels` option). -/
structure Opt where
  bc : List Nat := []
  order : Int := 3
  nx : Int := 6
  ny : Int := 6
  refine_levels : Int := 2
  iter_max : Int := 32
  surface : Int := -1
  vdim : Int := 3
  pa : Bool := true
  vis : Bool := true
  amr : Bool := false
  wait : Bool := false
  radial : Bool := false
  lambda : ℚ := 0
  solve_by_components : Bool := false

/-- The two ways the program aborts: a failed `MFEM_VERIFY` (a precondition failure) and a
direct call of `mfem_error`. -/
inductive Err where
  | verify (msg : String)
  | error (msg : String)
  deriving DecidableEq, Repr

/-! ## Vectors -/

/-- Modelled from the spec: `mfem::Vector` / `GridFunction` data, the list of entries. -/
abbrev Vector := List ℚ

/-- Modelled from the spec: `add(a, x, b, y, z)` of the vector library, `z = a x + b y`
("`new = λ·old + (1−λ)·solution`"). -/
def add (a : ℚ) (x : Vector) (b : ℚ) (y : Vector) : Vector :=
  List.zipWith (fun xi yi => a * xi + b * yi) x y

/-- Modelled from the spec: `subtract(x, y, z)` of the vector library, `z = x - y`. -/
def subtract (x y : Vector) : Vector :=
  List.zipWith (fun xi yi => xi - yi) x y

/-- Modelled from the spec: the square of `Vector::Norml2()`, the sum of the squared
entries.  A norm is carried by its square so that it stays a rational. -/
def Norml2Sq (v : Vector) : ℚ :=
  (v.map (fun a => a * a)).sum

/-- Modelled from the spec: the square of `Vector::DistanceTo`, `‖u - v‖²`. -/
def DistanceToSq (u v : Vector) : ℚ :=
  Norml2Sq (subtract u v)

/-- The quotient `nodes->DistanceTo(x) / nodes->Norml2()` of `ParAXeqB`, carried by its
square.  `none` stands for the non-finite quotient that a zero denominator gives in
floating point (`0/0` or `d/0`), which compares false with every threshold. -/
def rnormSq (nodes x : Vector) : Option ℚ :=
  if Norml2Sq nodes = 0 then none
  else some (DistanceToSq nodes x / Norml2Sq nodes)

/-- Read of entry `i` of a vector. -/
def Vector.entry (v : Vector) (i : Nat) : ℚ := v.getD i 0

/-! ## The relaxation solver -/

/-- The data members of `SurfaceSolver` that the iteration reads and writes.

* `nodes` : the node coordinates of the mesh, `*pfes->GetMesh()->GetNodes()`; `pmesh` is the
  same mesh (`main` takes both from one `Surface`), so `pmesh->SetNodes` writes this array;
* `x`, `x0` : the grid functions of the solver;
* `a` : the geometry the bilinear form was last assembled on;
* `ndof` : `pfes->GetNDofs()`. -/
structure SurfaceSolver where
  nodes : Vector
  x : Vector
  x0 : Vector
  a : Vector
  ndof : Nat

/-- The linear solve of `ParAXeqB` (`FormLinearSystem`, `CGSolver::Mult`,
`RecoverFEMSolution`): from the geometry the form was assembled on and the current `x`
(which carries the essential boundary values) to the recovered solution. -/
abbrev LinearSolve := Vector → Vector → Vector

/-- The function `SurfaceSolver::Converged`: `rnorm < NRM`, on the squares. -/
def Converged (rnorm : Option ℚ) : Bool :=
  match rnorm with
  | none => false
  | some r2 => decide (r2 < NRM * NRM)

/-- One pass of the body of the radial loop of `ParAXeqB` for the point `i`: the local
position `ni` and displacement `di` are read, `di` is replaced by `ndotd * ni` with
`ndotd = (ni*di) / (ni*ni)`, and written back to `delta`. -/
def radialProject (ndof : Nat) (nodes delta : Vector) (i : Nat) : Vector :=
  let ni : List ℚ := (List.range 3).map (fun d => Vector.entry nodes (d * ndof + i))
  let di : List ℚ := (List.range 3).map (fun d => Vector.entry delta (d * ndof + i))
  let dot : List ℚ → List ℚ → ℚ := fun u v => (List.zipWith (fun a b => a * b) u v).sum
  let ndotd : ℚ := dot ni di / dot ni ni
  let di : List ℚ := ni.map (fun a => ndotd * a)
  (List.range 3).foldl (fun dl d => dl.set (d * ndof + i) (di.getD d 0)) delta

/-- The function `SurfaceSolver::ParAXeqB(by_component)`. -/
def ParAXeqB (solve : LinearSolve) (opt : Opt) (by_component : Bool) (s : SurfaceSolver) :
    Except Err Bool × SurfaceSolver :=
  -- b = 0; FormLinearSystem; cg.Mult(B, X); RecoverFEMSolution(X, b, x)
  let s : SurfaceSolver := { s with x := solve s.a s.x }
  -- nodes = by_component ? &x0 : pfes->GetMesh()->GetNodes()
  let rnorm := rnormSq (if by_component then s.x0 else s.nodes) s.x
  if by_component then
    if opt.lambda ≠ 0 then
      (.error (.verify "'By component' assumes lambda == 0.0"), s)
    else if opt.radial then
      (.error (.verify "'By component' solver can't use 'radial option"), s)
    else (.ok (Converged rnorm), s)
  else
    if !opt.radial then
      let s : SurfaceSolver :=
        { s with nodes := add opt.lambda s.nodes (1 - opt.lambda) s.x }
      (.ok (Converged rnorm), s)
    else
      let delta := subtract s.x s.nodes
      let delta := (List.range (delta.length / 3)).foldl
        (fun dl i => radialProject s.ndof s.nodes dl i) delta
      let s : SurfaceSolver :=
        { s with nodes := add opt.lambda delta (1 - opt.lambda) s.nodes }
      (.ok (Converged rnorm), s)

/-- The function `SurfaceSolver::Update`: visualisation and the invalidation of cached
geometric factors; neither touches the modelled data. -/
def Update (s : SurfaceSolver) : SurfaceSolver := s

/-- The call `a.Assemble()`: the form is assembled on the geometry now in the mesh. -/
def Assemble (s : SurfaceSolver) : SurfaceSolver := { s with a := s.nodes }

/-- The function `ByVector::Loop`. -/
def ByVector.Loop (solve : LinearSolve) (opt : Opt) (s : SurfaceSolver) :
    Except Err Bool × SurfaceSolver :=
  -- x = *pfes->GetMesh()->GetNodes()
  let s : SurfaceSolver := { s with x := s.nodes }
  match ParAXeqB solve opt false s with
  | (.error e, s) => (.error e, s)
  | (.ok converge, s) =>
    -- pmesh->SetNodes(x)
    let s : SurfaceSolver := { s with nodes := s.x }
    (.ok (if converge then true else false), s)

/-- The function `ByComponent::GetNodes(Xi, c)` with `Xi = x`: `x[i] = nodes[c*ndof + i]`
for `i < ndof`. -/
def ByComponent.GetNodes (c : Nat) (s : SurfaceSolver) : SurfaceSolver :=
  let d_Xi := (List.range s.ndof).foldl
    (fun xi i => xi.set i (Vector.entry s.nodes (c * s.ndof + i))) s.x
  { s with x := d_Xi }

/-- The function `ByComponent::SetNodes(Xi, c)` with `Xi = x`: `nodes[c*ndof + i] = x[i]`
for `i < ndof`. -/
def ByComponent.SetNodes (c : Nat) (s : SurfaceSolver) : SurfaceSolver :=
  let d_nodes := (List.range s.ndof).foldl
    (fun nd i => nd.set (c * s.ndof + i) (Vector.entry s.x i)) s.nodes
  { s with nodes := d_nodes }

/-- The body of the `for (int c=0; c < 3; ++c)` loop of `ByComponent::Loop`. -/
def ByComponent.component (solve : LinearSolve) (opt : Opt) (c : Nat) (s : SurfaceSolver) :
    Except Err Bool × SurfaceSolver :=
  let s := ByComponent.GetNodes c s
  -- x0 = x
  let s : SurfaceSolver := { s with x0 := s.x }
  match ParAXeqB solve opt true s with
  | (.error e, s) => (.error e, s)
  | (.ok cvg, s) => (.ok cvg, ByComponent.SetNodes c s)

/-- The function `ByComponent::Loop`. -/
def ByComponent.Loop (solve : LinearSolve) (opt : Opt) (s : SurfaceSolver) :
    Except Err Bool × SurfaceSolver :=
  match ByComponent.component solve opt 0 s with
  | (.error e, s) => (.error e, s)
  | (.ok cvg0, s) =>
    match ByComponent.component solve opt 1 s with
    | (.error e, s) => (.error e, s)
    | (.ok cvg1, s) =>
      match ByComponent.component solve opt 2 s with
      | (.error e, s) => (.error e, s)
      | (.ok cvg2, s) =>
        let converged := cvg0 && cvg1 && cvg2
        (.ok (if converged then true else false), s)

/-- The `for (int i=0; i < opt.iter_max; ++i)` loop of `SurfaceSolver::Solve` with `n`
iterations left before `i` reaches `opt.iter_max`.  Beside the outcome and the state it
returns the number of iterations that were started. -/
def Solve.loop (Loop : SurfaceSolver → Except Err Bool × SurfaceSolver) :
    Nat → SurfaceSolver → (Except Err Unit × SurfaceSolver) × Nat
  | 0, s => ((.ok (), s), 0)
  | n + 1, s =>
    match Loop (Assemble (Update s)) with
    | (.error e, s) => ((.error e, s), 1)
    | (.ok true, s) => ((.ok (), s), 1)
    | (.ok false, s) =>
      let r := Solve.loop Loop n s
      (r.1, r.2 + 1)

/-- The function `SurfaceSolver::Solve`, for the solver type whose `Loop` is given:
outcome and final state. -/
def Solve (Loop : SurfaceSolver → Except Err Bool × SurfaceSolver) (opt : Opt)
    (s : SurfaceSolver) : Except Err Unit × SurfaceSolver :=
  (Solve.loop Loop opt.iter_max.toNat s).1

/-- Number of iterations `SurfaceSolver::Solve` starts. -/
def Solve.iterations (Loop : SurfaceSolver → Except Err Bool × SurfaceSolver) (opt : Opt)
    (s : SurfaceSolver) : Nat :=
  (Solve.loop Loop opt.iter_max.toNat s).2

/-- Lines 1063-1064 of `main`: the solver launched for the options, `ByComponent` when
`opt.solve_by_components` is set and `ByVector` otherwise. -/
def main.launch (solve : LinearSolve) (opt : Opt) (s : SurfaceSolver) :
    Except Err Unit × SurfaceSolver :=
  if opt.solve_by_components then MinimalSurface.Solve (ByComponent.Loop solve opt) opt s
  else MinimalSurface.Solve (ByVector.Loop solve opt) opt s

/-- The state in which iteration `n` (counted from 0) of the loop of `Solve` starts when no
earlier iteration has left the loop, for a `Loop` that always returns: `f` gives its result
and the state it leaves. -/
def Solve.stateAt (f : SurfaceSolver → Bool × SurfaceSolver) :
    Nat → SurfaceSolver → SurfaceSolver
  | 0, s => s
  | n + 1, s => Solve.stateAt f n (f (Assemble (Update s))).2

/-- The convergence result that `Loop` reports in iteration `n` (counted from 0). -/
def Solve.cvgAt (f : SurfaceSolver → Bool × SurfaceSolver) (n : Nat) (s : SurfaceSolver) :
    Bool :=
  (f (Assemble (Update (Solve.stateAt f n s)))).1

/-- The point `i` of a coordinate array of `ndof` points stored component after component
(the layout `ParAXeqB` reads: entry `d*ndof + i` is coordinate `d` of point `i`). -/
def point (ndof : Nat) (v : Vector) (i : Nat) : ℚ × ℚ × ℚ :=
  (Vector.entry v i, Vector.entry v (ndof + i), Vector.entry v (2 * ndof + i))

/-- Cross product of two vectors of space. -/
def cross (u v : ℚ × ℚ × ℚ) : ℚ × ℚ × ℚ :=
  (u.2.1 * v.2.2 - u.2.2 * v.2.1, u.2.2 * v.1 - u.1 * v.2.2, u.1 * v.2.1 - u.2.1 * v.1)

/-! ## The surface factory -/

/-- The surface structs of the file, each a `Surface<T>`. -/
inductive SurfaceKind where
  | Catenoid | Helicoid | Enneper | Scherk | Hold
  | QuarterPeach | FullPeach | SlottedSphere | Costa | Shell
  deriving DecidableEq, Repr

/-- The function `NewMeshFromSurface(opt)`: the struct whose constructor the `switch`
calls, or the `mfem_error` that follows the `switch`. -/
def NewMeshFromSurface (opt : Opt) : Except Err SurfaceKind :=
  match opt.surface with
  | 0 => .ok .Catenoid
  | 1 => .ok .Helicoid
  | 2 => .ok .Enneper
  | 3 => .ok .Scherk
  | 4 => .ok .Hold
  | 5 => .ok .QuarterPeach
  | 6 => .ok .FullPeach
  | 7 => .ok .SlottedSphere
  | 8 => .ok .Costa
  | 9 => .ok .Shell
  | _ => .error (.error "Unknown surface (0 <= surface <= 9)!")

/-- The table of the file header (lines 17-26), `s=0: Catenoid` to `s=9: Shell`, read as a
list of code and surface; `QPeach` and `FPeach` are the structs `QuarterPeach` and
`FullPeach`. -/
def headerTable : List (Int × SurfaceKind) :=
  [(0, .Catenoid), (1, .Helicoid), (2, .Enneper), (3, .Scherk), (4, .Hold),
   (5, .QuarterPeach), (6, .FullPeach), (7, .SlottedSphere), (8, .Costa), (9, .Shell)]

/-! ## Meshes and the topology passes -/

/-- An element of a mesh, a quadrilateral cell or a boundary segment: its vertex indices
(`GetVertices()`) and its attribute (`GetAttribute()`). -/
structure Element where
  v : List Nat
  attr : Int := 1
  deriving DecidableEq, Repr

/-- The part of `Mesh` the topology passes read and write: the sizes declared to
`InitMesh`, the vertices added so far (their coordinates), the cells and the boundary
elements. -/
structure Mesh where
  NVert : Int := 0
  NElem : Int := 0
  NBdrElem : Int := 0
  vertices : List (List ℚ) := []
  elements : List Element := []
  boundary : List Element := []
  deriving DecidableEq

/-- The call `GetNV()`. -/
def Mesh.GetNV (m : Mesh) : Nat := m.vertices.length

/-- Modelled from the spec: `InitMesh(Dim, spaceDim, NVert, NElem, NBdrElem)` of the mesh
library, which starts the construction of a mesh of the declared sizes with nothing in
it. -/
def Mesh.InitMesh (NVert NElem NBdrElem : Int) : Mesh :=
  { NVert := NVert, NElem := NElem, NBdrElem := NBdrElem }

/-- Modelled from the spec: `AddVertex(coords)` of the mesh library appends a vertex. -/
def Mesh.AddVertex (coords : List ℚ) (m : Mesh) : Mesh :=
  { m with vertices := m.vertices ++ [coords] }

/-- Modelled from the spec: `AddQuad(ind, attr)` of the mesh library appends a cell; the
attribute is 1 when the call gives none. -/
def Mesh.AddQuad (ind : List Nat) (attr : Int) (m : Mesh) : Mesh :=
  { m with elements := m.elements ++ [{ v := ind, attr := attr }] }

/-- Modelled from the spec: the "structured 2D quad grid" on the unit square that the
constructor `Mesh(opt.nx, opt.ny, QUAD, true, 1.0, 1.0, false)` of the mesh library builds
(`nx` by `ny` cells, no space-filling-curve ordering).  Vertex `(i,j)` has index
`i + j*(nx+1)`; the cells come row after row with the corners `(i,j)`, `(i+1,j)`,
`(i+1,j+1)`, `(i,j+1)`, the order `Costa::Prefix` writes out for the same grid; the boundary
segments are the edges of the bottom (attribute 1), top (3), left (4) and right (2)
sides. -/
def Mesh.Make2D (nx ny : Nat) : Mesh :=
  { NVert := (nx + 1) * (ny + 1)
    NElem := nx * ny
    NBdrElem := 2 * nx + 2 * ny
    vertices := (List.range (ny + 1)).flatMap (fun (j : Nat) =>
      (List.range (nx + 1)).map (fun (i : Nat) => [(i : ℚ) / nx, (j : ℚ) / ny]))
    elements := (List.range ny).flatMap (fun (j : Nat) =>
      (List.range nx).map (fun (i : Nat) =>
        { v := [i + j * (nx + 1), i + 1 + j * (nx + 1),
                i + 1 + (j + 1) * (nx + 1), i + (j + 1) * (nx + 1)] }))
    boundary :=
      (List.range nx).map (fun i => { v := [i, i + 1], attr := 1 }) ++
      (List.range nx).map (fun i =>
        { v := [(nx + 1) * ny + i + 1, (nx + 1) * ny + i], attr := 3 }) ++
      (List.range ny).map (fun j =>
        { v := [(j + 1) * (nx + 1), j * (nx + 1)], attr := 4 }) ++
      (List.range ny).map (fun j =>
        { v := [j * (nx + 1) + nx, (j + 1) * (nx + 1) + nx], attr := 2 }) }

/-- The array `v2v` of `Catenoid::Prefix` and `Hold::Prefix`: the identity on `GetNV()`
entries, then `v2v[nx + j*(nx+1)] = j*(nx+1)` for `j = 0, …, ny`. -/
def v2v (nx ny NV : Nat) : List Nat :=
  (List.range (ny + 1)).foldl (fun v2v j => v2v.set (nx + j * (nx + 1)) (j * (nx + 1)))
    (List.range NV)

/-- The inner loop `v[j] = v2v[v[j]]` over the vertices of one element. -/
def renumber (v2v : List Nat) (el : Element) : Element :=
  { el with v := el.v.map (fun r => v2v.getD r 0) }

/-- The function `Catenoid::Prefix`, the renumbering pass: `v2v` is built and the cells and
the boundary elements are renumbered.  `nx`, `ny` are `opt.nx`, `opt.ny`, the sizes the
grid was built with.  The calls of the mesh library around it (`SetCurvature` before,
`RemoveUnusedVertices` and `RemoveInternalBoundaries` after) are not part of it. -/
def Catenoid.Prefix (nx ny : Nat) (m : Mesh) : Mesh :=
  let v2v := v2v nx ny m.GetNV
  { m with
    elements := m.elements.map (renumber v2v)
    boundary := m.boundary.map (renumber v2v) }

/-- The function `Hold::Prefix`, the renumbering pass; the text of the source is that of
`Catenoid::Prefix`. -/
def Hold.Prefix (nx ny : Nat) (m : Mesh) : Mesh :=
  let v2v := v2v nx ny m.GetNV
  { m with
    elements := m.elements.map (renumber v2v)
    boundary := m.boundary.map (renumber v2v) }

/-- The test of the element loop of `Costa::Prefix` that makes it `continue` at cell
`(i,j)`: the four corner cells, and the cells of the first and last row (column) whose
index is next to the middle. -/
def Costa.skip (nx ny i j : Nat) : Bool :=
  (i == 0 && j == 0) ||
  (i + 1 == nx && j == 0) ||
  (i == 0 && j + 1 == ny) ||
  (i + 1 == nx && j + 1 == ny) ||
  ((j == 0 || j + 1 == ny) && decide (((nx : Int) - (2 * i : Nat) - 1).natAbs ≤ 1)) ||
  ((i == 0 || i + 1 == nx) && decide (((ny : Int) - (2 * j : Nat) - 1).natAbs ≤ 1))

/-- The function `Costa::Prefix`, up to the last `AddQuad`: the check of the resolution,
`InitMesh`, the vertex loop and the element loop.  The result holds the outcome and the
mesh in place when the function returns or aborts; the calls that finalize the mesh follow
in the source. -/
def Costa.Prefix (opt : Opt) (m : Mesh) : Except Err Unit × Mesh :=
  let nx := opt.nx
  let ny := opt.ny
  if ¬ (nx > 2 ∧ ny > 2) then (.error (.verify ""), m)
  else
    let nXhalf : Int := if nx % 2 = 0 then 4 else 2
    let nYhalf : Int := if ny % 2 = 0 then 4 else 2
    let nxh := nXhalf + nYhalf
    let NVert := (nx + 1) * (ny + 1)
    let NElem := nx * ny - 4 - nxh
    let NBdrElem : Int := 0
    let m := Mesh.InitMesh NVert NElem NBdrElem
    -- Sets vertices and the corresponding coordinates
    let m := (List.range (ny + 1).toNat).foldl (fun (m : Mesh) (j : Nat) =>
      let cy : ℚ := (j : ℚ) / ny
      (List.range (nx + 1).toNat).foldl (fun (m : Mesh) (i : Nat) =>
        let cx : ℚ := (i : ℚ) / nx
        Mesh.AddVertex [cx, cy, 0] m) m) m
    -- Sets elements and the corresponding indices of vertices
    let m := (List.range ny.toNat).foldl (fun (m : Mesh) (j : Nat) =>
      (List.range nx.toNat).foldl (fun (m : Mesh) (i : Nat) =>
        if Costa.skip nx.toNat ny.toNat i j then m
        else
          let i0 := i + j * (nx.toNat + 1)
          let i1 := i + 1 + j * (nx.toNat + 1)
          let i2 := i + 1 + (j + 1) * (nx.toNat + 1)
          let i3 := i + (j + 1) * (nx.toNat + 1)
          Mesh.AddQuad [i0, i1, i2, i3] 1 m) m) m
    (.ok (), m)

/-- The quadrilateral that the element loop of `Costa::Prefix` adds for the cell `(i,j)`:
`ind = {i0, i1, i2, i3}` with the default attribute 1. -/
def Costa.cell (nx i j : Nat) : Element :=
  { v := [i + j * (nx + 1), i + 1 + j * (nx + 1),
          i + 1 + (j + 1) * (nx + 1), i + (j + 1) * (nx + 1)]
    attr := 1 }

/-- The edges of a cell: the pairs of consecutive corners, the last corner followed by
the first. -/
def Element.edges (el : Element) : List (Nat × Nat) :=
  el.v.zip (el.v.rotate 1)

/-- Two pairs of vertices are the same edge: the same end points, in this order or in the
other. -/
def sameEdge (e f : Nat × Nat) : Bool :=
  (e.1 == f.1 && e.2 == f.2) || (e.1 == f.2 && e.2 == f.1)

/-- The cell has the edge `e` among its edges. -/
def Element.hasEdge (el : Element) (e : Nat × Nat) : Bool :=
  el.edges.any (fun f => sameEdge e f)

/-- The number of cells of the list that have the edge `e`. -/
def cellsWithEdge (cells : List Element) (e : Nat × Nat) : Nat :=
  cells.countP (fun el => el.hasEdge e)

/-- The edge lies on the bottom row `j = 0` of the `nx` by `ny` grid: both end points are
among the vertices `0, …, nx` of that row. -/
def onBottomRow (nx : Nat) (e : Nat × Nat) : Bool :=
  decide (e.1 < nx + 1) && decide (e.2 < nx + 1)

/-- The edge lies on the top row `j = ny` of the grid: both end points are among the
vertices `ny*(nx+1), …` of that row. -/
def onTopRow (nx ny : Nat) (e : Nat × Nat) : Bool :=
  decide (ny * (nx + 1) ≤ e.1) && decide (ny * (nx + 1) ≤ e.2)

/-- The cell `(i,j)` of the grid once its last-column vertices are replaced by the
first-column ones: the corners `(i,j)`, `(i',j)`, `(i',j+1)`, `(i,j+1)` with `i'` the
column after `i`, which is column 0 after the last cell of a row. -/
def weldedCell (nx i j : Nat) : Element :=
  { v := [i + j * (nx + 1), (if i + 1 = nx then 0 else i + 1) + j * (nx + 1),
          (if i + 1 = nx then 0 else i + 1) + (j + 1) * (nx + 1), i + (j + 1) * (nx + 1)] }

/-! ## Parametrizations -/

/-- The constant `constexpr double PI = M_PI;`, in exact arithmetic. -/
noncomputable def PI : ℝ := Real.pi

/-- The function `Catenoid::Parametrization(x, p)`, from `x = (x[0], x[1])` to
`p = (p[0], p[1], p[2])`. -/
noncomputable def Catenoid.Parametrization (x : ℝ × ℝ) : ℝ × ℝ × ℝ :=
  let u := 2 * PI * x.1
  let v := 2 * PI * (2 * x.2 - 1) / 3
  (3.2 * Real.cos u, 3.2 * Real.sin u, v)

/-- The function `Hold::Parametrization(x, p)`. -/
noncomputable def Hold.Parametrization (x : ℝ × ℝ) : ℝ × ℝ × ℝ :=
  let u := 2 * PI * x.1
  let v := x.2
  (Real.cos u * (1 + 0.3 * Real.sin (3 * u + PI * v)),
   Real.sin u * (1 + 0.3 * Real.sin (3 * u + PI * v)),
   v)

/-! ## Options from the command line -/

/-- What the command line gives for the options that `main` registers with `AddOption`
and that live in `Opt`: a value for each option that is present. -/
structure CommandLine where
  wait : Option Bool := none
  radial : Option Bool := none
  nx : Option Int := none
  ny : Option Int := none
  order : Option Int := none
  refine_levels : Option Int := none
  iter_max : Option Int := none
  surface : Option Int := none
  pa : Option Bool := none
  lambda : Option ℚ := none
  amr : Option Bool := none
  vis : Option Bool := none
  solve_by_components : Option Bool := none

/-- Modelled from the spec: `OptionsParser::Parse` of the library writes the value of every
option present on the command line into the variable registered for it, and leaves the
other variables as they are. -/
def Parse (args : CommandLine) (opt : Opt) : Opt :=
  { opt with
    wait := args.wait.getD opt.wait
    radial := args.radial.getD opt.radial
    nx := args.nx.getD opt.nx
    ny := args.ny.getD opt.ny
    order := args.order.getD opt.order
    refine_levels := args.refine_levels.getD opt.refine_levels
    iter_max := args.iter_max.getD opt.iter_max
    surface := args.surface.getD opt.surface
    pa := args.pa.getD opt.pa
    lambda := args.lambda.getD opt.lambda
    amr := args.amr.getD opt.amr
    vis := args.vis.getD opt.vis
    solve_by_components := args.solve_by_components.getD opt.solve_by_components }

/-- Lines 1002-1035 of `main`: the options are default-constructed, the `AddOption` calls
register them, `opt.vdim` is assigned from `opt.solve_by_components`, and only then the
command line is parsed. -/
def main.options (args : CommandLine) : Opt :=
  -- Opt opt;
  let opt : Opt := {}
  -- opt.vdim = opt.solve_by_components ? 1 : 3;
  let opt : Opt := { opt with vdim := if opt.solve_by_components then 1 else 3 }
  -- args.Parse();
  Parse args opt

/-- The value `pfes->GetVDim()` of the space that `Surface::GenFESpace` builds,
`new FiniteElementSpace(msh, fec, opt.vdim)`. -/
def GenFESpace.GetVDim (opt : Opt) : Int := opt.vdim

/-- The constructor of `SurfaceSolver`: `vdim` is initialised with `pfes->GetVDim()` and
`MFEM_VERIFY(vdim == opt.vdim, "")` is checked. -/
def SurfaceSolver.construct (opt : Opt) (pfes_GetVDim : Int) : Except Err Unit :=
  let vdim := pfes_GetVDim
  if vdim = opt.vdim then .ok () else .error (.verify "")

/-! ## Snapping the nodes -/

/-- Modelled from the spec: the layout change `SetCurvature(…, Ordering::byVDIM)` of a node
array of `ndof` points stored component after component ("by component", `byNODES`) into
the array stored point after point ("by node", `byVDIM`); the conversion is "lossless and
order-preserving": entry `i*SDIM + d` of the result is coordinate `d` of point `i`. -/
def toByVDIM (ndof : Nat) (v : Vector) : Vector :=
  (List.range v.length).map (fun k => Vector.entry v ((k % SDIM) * ndof + k / SDIM))

/-- Modelled from the spec: the layout change `SetCurvature(…, Ordering::byNODES)` back:
entry `d*ndof + i` of the result is coordinate `d` of point `i`. -/
def toByNODES (ndof : Nat) (v : Vector) : Vector :=
  (List.range v.length).map (fun k => Vector.entry v ((k % ndof) * SDIM + k / ndof))

/-- The function `Surface::Snap` on the node array of `ndof` points: the layout is changed,
every entry of absolute value below `EPS` is set to zero, the layout is changed back. -/
def Surface.Snap (ndof : Nat) (nodes : Vector) : Vector :=
  let nodes := toByVDIM ndof nodes
  let nodes := (List.range nodes.length).foldl
    (fun (nodes : Vector) (i : Nat) =>
      if |Vector.entry nodes i| < EPS then nodes.set i 0 else nodes) nodes
  toByNODES ndof nodes

/-- The function `Surface::SnapToUnitSphere` on the node array of `ndof` points, in exact
real arithmetic; `DofToVDof(i, d)` is `d*ndof + i`, the layout `Postfix` has set. -/
noncomputable def Surface.SnapToUnitSphere (ndof : Nat) (nodes : List ℝ) : List ℝ :=
  (List.range ndof).foldl
    (fun (nodes : List ℝ) (i : Nat) =>
      let node : List ℝ := (List.range SDIM).map (fun d => nodes.getD (d * ndof + i) 0)
      -- node /= node.Norml2()
      let nrm := Real.sqrt ((node.map (fun a => a * a)).sum)
      let node := node.map (fun a => a / nrm)
      (List.range SDIM).foldl
        (fun (nodes : List ℝ) (d : Nat) => nodes.set (d * ndof + i) (node.getD d 0)) nodes)
    nodes

/-- The Euclidean norm of point `i` of an array of `ndof` points stored component after
component. -/
noncomputable def pointNorm (ndof : Nat) (v : List ℝ) (i : Nat) : ℝ :=
  Real.sqrt (v.getD i 0 * v.getD i 0
    + (v.getD (ndof + i) 0 * v.getD (ndof + i) 0
      + v.getD (2 * ndof + i) 0 * v.getD (2 * ndof + i) 0))

/-! ## The surfaces with an explicit topology -/

/-- Modelled from the spec: `AddBdrQuad(ind, attr)` of the mesh library appends a boundary
element. -/
def Mesh.AddBdrQuad (ind : List Nat) (attr : Int) (m : Mesh) : Mesh :=
  { m with boundary := m.boundary ++ [{ v := ind, attr := attr }] }

/-- The constant `FullPeach::NV`. -/
def FullPeach.NV : Nat := 8

/-- The constant `FullPeach::NE`. -/
def FullPeach.NE : Nat := 6

/-- The constant `FullPeach::NBE`. -/
def FullPeach.NBE : Nat := 6

/-- The array `quad_v` of `FullPeach::Prefix`. -/
def FullPeach.quad_v : List (List ℚ) :=
  [[-1, -1, -1], [1, -1, -1], [1, 1, -1], [-1, 1, -1],
   [-1, -1, 1], [1, -1, 1], [1, 1, 1], [-1, 1, 1]]

/-- The array `quad_e` of `FullPeach::Prefix`. -/
def FullPeach.quad_e : List (List Nat) :=
  [[3, 2, 1, 0], [0, 1, 5, 4], [1, 2, 6, 5],
   [2, 3, 7, 6], [3, 0, 4, 7], [4, 5, 6, 7]]

/-- The function `FullPeach::Prefix`, up to the last `AddBdrQuad`, on the mesh that the
constructor `Mesh(DIM, NV, NE, NBE, SDIM)` started; the calls that finalize and refine the
mesh follow in the source. -/
def FullPeach.Prefix : Mesh :=
  let m := Mesh.InitMesh FullPeach.NV FullPeach.NE FullPeach.NBE
  let m := (List.range FullPeach.NV).foldl
    (fun (m : Mesh) (j : Nat) => Mesh.AddVertex (FullPeach.quad_v.getD j []) m) m
  let m := (List.range FullPeach.NE).foldl
    (fun (m : Mesh) (j : Nat) => Mesh.AddQuad (FullPeach.quad_e.getD j []) (j + 1) m) m
  let m := (List.range FullPeach.NBE).foldl
    (fun (m : Mesh) (j : Nat) => Mesh.AddBdrQuad (FullPeach.quad_e.getD j []) (j + 1) m) m
  m

/-- The array `quad_e` of `SlottedSphere::Prefix` after the double loop that fills it and
the assignments of `-1` that mark the deleted panels. -/
def SlottedSphere.quad_e : List (List Int) :=
  let nv1d : Nat := 4
  let nel_per_face : Nat := (nv1d - 1) * (nv1d - 1)
  let nel_total : Nat := nel_per_face * 6
  let quad_e : List (List Int) := List.replicate nel_total [0, 0, 0, 0]
  let quad_e := (List.range (nv1d - 1)).foldl (fun (quad_e : List (List Int)) (ix : Nat) =>
    (List.range (nv1d - 1)).foldl (fun (quad_e : List (List Int)) (iy : Nat) =>
      let el_offset := ix + iy * (nv1d - 1)
      -- x = 0
      let quad_e := quad_e.set (0 * nel_per_face + el_offset)
        [(nv1d * ix + nv1d * nv1d * iy : Nat), (nv1d * (ix + 1) + nv1d * nv1d * iy : Nat),
         (nv1d * (ix + 1) + nv1d * nv1d * (iy + 1) : Nat),
         (nv1d * ix + nv1d * nv1d * (iy + 1) : Nat)]
      -- x = 1
      let x_off := nv1d - 1
      let quad_e := quad_e.set (1 * nel_per_face + el_offset)
        [(x_off + nv1d * ix + nv1d * nv1d * (iy + 1) : Nat),
         (x_off + nv1d * (ix + 1) + nv1d * nv1d * (iy + 1) : Nat),
         (x_off + nv1d * (ix + 1) + nv1d * nv1d * iy : Nat),
         (x_off + nv1d * ix + nv1d * nv1d * iy : Nat)]
      -- y = 0
      let quad_e := quad_e.set (2 * nel_per_face + el_offset)
        [(nv1d * nv1d * iy + ix : Nat), (nv1d * nv1d * iy + ix + 1 : Nat),
         (nv1d * nv1d * (iy + 1) + ix + 1 : Nat), (nv1d * nv1d * (iy + 1) + ix : Nat)]
      -- y = 1
      let y_off := nv1d * (nv1d - 1)
      let quad_e := quad_e.set (3 * nel_per_face + el_offset)
        [(y_off + nv1d * nv1d * iy + ix : Nat), (y_off + nv1d * nv1d * iy + ix + 1 : Nat),
         (y_off + nv1d * nv1d * (iy + 1) + ix + 1 : Nat),
         (y_off + nv1d * nv1d * (iy + 1) + ix : Nat)]
      -- z = 0
      let quad_e := quad_e.set (4 * nel_per_face + el_offset)
        [(nv1d * iy + ix : Nat), (nv1d * iy + ix + 1 : Nat),
         (nv1d * (iy + 1) + ix + 1 : Nat), (nv1d * (iy + 1) + ix : Nat)]
      -- z = 1
      let z_off := nv1d * nv1d * (nv1d - 1)
      let quad_e := quad_e.set (5 * nel_per_face + el_offset)
        [(z_off + nv1d * iy + ix : Nat), (z_off + nv1d * iy + ix + 1 : Nat),
         (z_off + nv1d * (iy + 1) + ix + 1 : Nat), (z_off + nv1d * (iy + 1) + ix : Nat)]
      quad_e) quad_e) quad_e
  -- quad_e[j][0] = -1 for the deleted panels, in the order of the source
  [0 * nel_per_face + 1 + 2 * (nv1d - 1), 0 * nel_per_face + 1 + 1 * (nv1d - 1),
   1 * nel_per_face + 1 + 2 * (nv1d - 1), 1 * nel_per_face + 1 + 1 * (nv1d - 1),
   3 * nel_per_face + 1 + 0 * (nv1d - 1), 3 * nel_per_face + 1 + 1 * (nv1d - 1),
   5 * nel_per_face + 0 + 1 * (nv1d - 1), 5 * nel_per_face + 1 + 1 * (nv1d - 1),
   5 * nel_per_face + 2 + 1 * (nv1d - 1),
   4 * nel_per_face + 1 + 0 * (nv1d - 1), 4 * nel_per_face + 1 + 1 * (nv1d - 1),
   4 * nel_per_face + 1 + 2 * (nv1d - 1),
   2 * nel_per_face + 1 + 0 * (nv1d - 1), 2 * nel_per_face + 1 + 1 * (nv1d - 1)].foldl
    (fun (quad_e : List (List Int)) (j : Nat) =>
      quad_e.set j ((quad_e.getD j []).set 0 (-1))) quad_e

/-- The array `quad_v` of `SlottedSphere::Prefix`, with `delta = 0.15`. -/
def SlottedSphere.quad_v : List (List ℚ) :=
  let delta : ℚ := 15 / 100
  let nv1d : Nat := 4
  let nv : Nat := nv1d * nv1d * nv1d
  let vert1d : List ℚ := [-1, -delta, delta, 1]
  (List.range nv).map (fun (iv : Nat) =>
    let ix := iv % nv1d
    let iy := (iv / nv1d) % nv1d
    let iz := (iv / nv1d) / nv1d
    [vert1d.getD ix 0, vert1d.getD iy 0, vert1d.getD iz 0])

/-- The function `SlottedSphere::Prefix`, up to the last `AddQuad`, on the mesh that the
constructor `Mesh(DIM, 64, 40, 0, SDIM)` started; the calls that finalize the mesh follow
in the source. -/
def SlottedSphere.Prefix : Mesh :=
  let m := Mesh.InitMesh 64 40 0
  let m := (List.range SlottedSphere.quad_v.length).foldl
    (fun (m : Mesh) (j : Nat) => Mesh.AddVertex (SlottedSphere.quad_v.getD j []) m) m
  let m := (List.range SlottedSphere.quad_e.length).foldl
    (fun (m : Mesh) (j : Nat) =>
      if (SlottedSphere.quad_e.getD j []).getD 0 0 < 0 then m
      else Mesh.AddQuad ((SlottedSphere.quad_e.getD j []).map Int.toNat) (j + 1) m) m
  m

/-- The edge with its smaller end point first. -/
def normEdge (e : Nat × Nat) : Nat × Nat := (min e.1 e.2, max e.1 e.2)

/-- The edges of the cells of a list, each listed once. -/
def edgesOf (cells : List Element) : List (Nat × Nat) :=
  ((cells.flatMap Element.edges).map normEdge).dedup

/-- The true topological boundary edges of a cell list: the edges that exactly one cell
has. -/
def boundaryEdges (cells : List Element) : List (Nat × Nat) :=
  (edgesOf cells).filter (fun e => cellsWithEdge cells e == 1)

/-! ## The blockwise linear solve -/

/-- Modelled from the spec: the vector solve "of the same discrete operator applied
blockwise".  `L` is the scalar solve (geometry the form was assembled on, scalar field
carrying the essential values, recovered solution); the vector solve applies it to each of the
three coordinate blocks of `ndof` entries. -/
def blockSolve (L : LinearSolve) (ndof : Nat) : LinearSolve := fun a x =>
  (List.range 3).flatMap (fun c => L a ((x.drop (c * ndof)).take ndof))

/-- Squared distance of two points of space. -/
def distSq (p q : ℚ × ℚ × ℚ) : ℚ :=
  (p.1 - q.1) * (p.1 - q.1) + ((p.2.1 - q.2.1) * (p.2.1 - q.2.1)
    + (p.2.2 - q.2.2) * (p.2.2 - q.2.2))

/-- Modelled from the spec: an exact scalar solve of a discrete Laplace operator on a chain
of three nodes, the two end nodes essential.  The two edges carry the weights
`1 / (squared edge length)` of the geometry `a` the operator was assembled on; the interior
unknown solves `wl * (u1 - u0) + wr * (u1 - u2) = 0`. -/
def chainSolve : LinearSolve := fun a x =>
  let wl : ℚ := 1 / distSq (point 3 a 0) (point 3 a 1)
  let wr : ℚ := 1 / distSq (point 3 a 1) (point 3 a 2)
  x.set 1 ((wl * Vector.entry x 0 + wr * Vector.entry x 2) / (wl + wr))

/-- A chain of three nodes, the end nodes at `(10000, 0, 0)` and `(10003, 0, 0)` and the
interior node at `(10001, 1, 1)`; the grid functions `x` and `x0` of the solver have the nine
entries of the space with three components, here zero at the start. -/
def chainStart : SurfaceSolver :=
  { nodes := [10000, 10001, 10003, 0, 1, 0, 0, 1, 0], x := [0, 0, 0, 0, 0, 0, 0, 0, 0],
    x0 := [0, 0, 0, 0, 0, 0, 0, 0, 0], a := [], ndof := 3 }

/-- One relaxation step on a node array: the form is assembled on the array and each of its
three coordinate blocks is replaced by its scalar solve. -/
def relax (L : LinearSolve) (ndof : Nat) (nodes : Vector) : Vector :=
  blockSolve L ndof nodes nodes

/-! ## The special functions of the Costa surface

The series are evaluated in exact arithmetic over `ℂ` (no rounding), with the two features of
the machine arithmetic that decide whether and with what a loop ends kept: the loop index and
the `int` exponents wrap at 32 bits, and a value can stop being a finite number (`pow` of a
zero base, division by zero). -/

/-- The value `std::numeric_limits<double>::max()`, the initial `delta` of every series. -/
def DBL_MAX : ℚ := (2 - 1 / 2 ^ 52) * 2 ^ 1023

/-- The constant `M_PI`, in exact arithmetic. -/
noncomputable def M_PI : ℝ := Real.pi

/-- The value an `int` holds after an operation whose exact result is `x`: the 32-bit two's
complement wrap that the compiled program computes.  The series loops put no bound on their
index, so `n += 1`, `n*n`, `n*(n+1)` and `2*n` can leave the range of `int`. -/
def int32 (x : Int) : Int := (x + 2 ^ 31) % 2 ^ 32 - 2 ^ 31

/-- A floating-point value as the series loops tell them apart: a finite number, a value of
infinite magnitude (`abs` gives infinity, which passes the test `delta > EPS`), or a NaN
(`abs` gives NaN, which fails every comparison). -/
inductive Ext (α : Type) where
  | fin (x : α)
  | inf
  | nan

/-- The product of two floating-point values: a NaN factor gives NaN, an infinite factor
gives an infinite product unless the other factor is zero, which gives NaN. -/
noncomputable def Ext.mul (x y : Ext ℂ) : Ext ℂ :=
  match x, y with
  | .fin a, .fin b => .fin (a * b)
  | .nan, _ => .nan
  | _, .nan => .nan
  | .inf, .fin b => if b = 0 then .nan else .inf
  | .fin a, .inf => if a = 0 then .nan else .inf
  | .inf, .inf => .inf

/-- The magnitude `abs(j)` of a floating-point value. -/
noncomputable def Ext.abs (j : Ext ℂ) : Ext ℝ :=
  match j with
  | .fin a => .fin ‖a‖
  | .inf => .inf
  | .nan => .nan

/-- The test `delta > e` of a magnitude against a finite bound. -/
noncomputable def Ext.gt (delta : Ext ℝ) (e : ℝ) : Bool :=
  match delta with
  | .fin d => decide (d > e)
  | .inf => true
  | .nan => false

/-- The statement `J += j` on a running sum, which is `none` from the moment on at which it
is no finite number any more (an infinity or a NaN, which no later addition removes). -/
noncomputable def Ext.addTo (J : Option ℂ) (j : Ext ℂ) : Option ℂ :=
  match J, j with
  | some s, .fin a => some (s + a)
  | _, _ => none

/-- Modelled from the spec: the library power `pow(q, y)` of a complex base and a `double`
exponent, here with a whole value `y`: `exp(y log q)`, that is `q^y` for `q ≠ 0`; for `q = 0`
it is NaN at `y = 0`, zero for `y > 0` and infinite for `y < 0`. -/
noncomputable def pow_double (q : ℂ) (y : Int) : Ext ℂ :=
  if q = 0 then (if y = 0 then .nan else if 0 < y then .fin 0 else .inf)
  else .fin (q ^ y)

/-- Modelled from the spec: the library power `pow(q, e)` of a complex base and an `int`
exponent, the repeated product (1 for `e = 0`, the inverse of the product for `e < 0`); for
`q = 0` and `e < 0` it is infinite. -/
noncomputable def pow_int (q : ℂ) (e : Int) : Ext ℂ :=
  if q = 0 ∧ e < 0 then .inf else .fin (q ^ e)

/-- The series loop shared by the special functions,
`for (int n = n0; delta > EPS; n += 1) { j = term(n); delta = abs(j); J += j; }`,
run for at most `fuel` passes from the index `n`, the last magnitude `delta` and the partial
sum `J`.  The result is `none` when the test `delta > EPS` still holds after `fuel` passes;
otherwise it is the sum the loop leaves: `some (some J)` for a finite sum, `some none` for a
sum that is no finite number. -/
noncomputable def seriesLoop (term : Int → Ext ℂ) :
    Nat → Int → Ext ℝ → Option ℂ → Option (Option ℂ)
  | 0, _, delta, J => if delta.gt ((EPS : ℚ) : ℝ) then none else some J
  | fuel + 1, n, delta, J =>
    if delta.gt ((EPS : ℚ) : ℝ) then
      seriesLoop term fuel (int32 (n + 1)) (term n).abs (Ext.addTo J (term n))
    else some J

/-- The value `j` that the loop of `EllipticTheta` for the kind `a` computes at the index
`n`: `pow(-1,n)*pow(q,n*(n+1.0))*sin((2.0*n+1.0)*u)` for the kind 1,
`pow(q,n*(n+1))*cos((2.0*n+1.0)*u)` for the kind 2, `pow(q,n*n)*cos(2.0*n*u)` for the kind 3
and `pow(-1,n)*pow(q,n*n)*cos(2.0*n*u)` for the kind 4.  `pow(-1,n)` is `1` or `-1` for
every `int`; the exponent `n*(n+1.0)` is a `double`, the exact product for every index; the
exponents `n*(n+1)` and `n*n` are `int`, the wrapped products; the factors `2.0*n+1.0` and
`2.0*n` are `double`. -/
noncomputable def EllipticTheta.term (a : Int) (u q : ℂ) (n : Int) : Ext ℂ :=
  match a with
  | 1 =>
    Ext.mul (Ext.mul (.fin ((-1) ^ n)) (pow_double q (n * (n + 1))))
      (.fin (Complex.sin ((2 * n + 1) * u)))
  | 2 => Ext.mul (pow_int q (int32 (n * (n + 1)))) (.fin (Complex.cos ((2 * n + 1) * u)))
  | 3 => Ext.mul (pow_int q (int32 (n * n))) (.fin (Complex.cos (2 * n * u)))
  | _ =>
    Ext.mul (Ext.mul (.fin ((-1) ^ n)) (pow_int q (int32 (n * n))))
      (.fin (Complex.cos (2 * n * u)))

/-- The function `EllipticTheta(a, u, q)`, every loop run for at most `fuel` passes; the
result is as for `seriesLoop` (`some none`: the value returned is no finite number).
`pow(q,0.25)` is the principal complex power (zero at `q = 0`). -/
noncomputable def EllipticTheta (fuel : Nat) (a : Int) (u q : ℂ) : Option (Option ℂ) :=
  match a with
  | 1 =>
    (seriesLoop (EllipticTheta.term 1 u q) fuel 0 (.fin DBL_MAX) (some 0)).map
      (Option.map (fun J => 2 * q ^ ((1 / 4 : ℝ) : ℂ) * J))
  | 2 =>
    (seriesLoop (EllipticTheta.term 2 u q) fuel 0 (.fin DBL_MAX) (some 0)).map
      (Option.map (fun J => 2 * q ^ ((1 / 4 : ℝ) : ℂ) * J))
  | 3 =>
    (seriesLoop (EllipticTheta.term 3 u q) fuel 1 (.fin DBL_MAX) (some 0)).map
      (Option.map (fun J => 1 + 2 * J))
  | 4 =>
    (seriesLoop (EllipticTheta.term 4 u q) fuel 1 (.fin DBL_MAX) (some 0)).map
      (Option.map (fun J => 1 + 2 * J))
  | _ => some (some 0)

/-- The value `j` that the loop of `EllipticTheta1Prime` computes at the index `n`.
`alpha = 2.0*n+1.0` is never zero, so `pow(alpha,k)` is finite for every `k`; the exponent
`n*(n+1.0)` is a `double`. -/
noncomputable def EllipticTheta1Prime.term (k : Int) (u q : ℂ) (n : Int) : Ext ℂ :=
  let alpha : ℝ := 2 * n + 1
  let Dcosine : ℂ := ((alpha ^ k : ℝ) : ℂ) * Complex.sin (k * M_PI / 2 + alpha * u)
  Ext.mul (Ext.mul (.fin ((-1) ^ n)) (pow_double q (n * (n + 1)))) (.fin Dcosine)

/-- The function `EllipticTheta1Prime(k, u, q)`, the loop run for at most `fuel` passes; the
result is as for `seriesLoop`. -/
noncomputable def EllipticTheta1Prime (fuel : Nat) (k : Int) (u q : ℂ) : Option (Option ℂ) :=
  (seriesLoop (EllipticTheta1Prime.term k u q) fuel 0 (.fin DBL_MAX) (some 0)).map
    (Option.map (fun J => 2 * q ^ ((1 / 4 : ℝ) : ℂ) * J))

/-- The value `j` that the loop of `LogEllipticTheta1Prime` computes at the index `n`:
`q2n = pow(q, 2*n)` with the wrapped `int` exponent, set to zero when `abs(q2n) < EPS`, then
`q2n/(1.0-q2n)*sin(2.0*n*u)`; the quotient is infinite when `q2n = 1`, and NaN when `q2n` is
infinite. -/
noncomputable def LogEllipticTheta1Prime.term (u q : ℂ) (n : Int) : Ext ℂ :=
  match pow_int q (int32 (2 * n)) with
  | .fin p =>
    let q2n : ℂ := if ‖p‖ < ((EPS : ℚ) : ℝ) then 0 else p
    if 1 - q2n = 0 then Ext.mul .inf (.fin (Complex.sin (2 * n * u)))
    else .fin (q2n / (1 - q2n) * Complex.sin (2 * n * u))
  | _ => .nan

/-- The function `LogEllipticTheta1Prime(u, q)`, the loop run for at most `fuel` passes; the
result is as for `seriesLoop`.  The value returned, `1.0/tan(u) + 4.0*J`, is no finite number
when `sin u = 0` (`tan u = 0`). -/
noncomputable def LogEllipticTheta1Prime (fuel : Nat) (u q : ℂ) : Option (Option ℂ) :=
  (seriesLoop (LogEllipticTheta1Prime.term u q) fuel 1 (.fin DBL_MAX) (some 0)).map
    (fun J => if Complex.sin u = 0 then none else J.map (fun J => 1 / Complex.tan u + 4 * J))

/-- Modelled from the spec: term `n` of the series of `theta_a` (DLMF 20.2) behind its
prefactor: kind 1 `(-1)^n q^(n(n+1)) sin((2n+1)u)`, kind 2 `q^(n(n+1)) cos((2n+1)u)`, kind 3
`q^(n^2) cos(2nu)`, kind 4 `(-1)^n q^(n^2) cos(2nu)`. -/
noncomputable def thetaTerm (a : Int) (u q : ℂ) (n : Nat) : ℂ :=
  if a = 1 then (-1) ^ n * q ^ (n * (n + 1)) * Complex.sin ((2 * n + 1) * u)
  else if a = 2 then q ^ (n * (n + 1)) * Complex.cos ((2 * n + 1) * u)
  else if a = 3 then q ^ (n * n) * Complex.cos (2 * n * u)
  else (-1) ^ n * q ^ (n * n) * Complex.cos (2 * n * u)

/-- Modelled from the spec: the first index of the series of `theta_a`, `n ≥ 0` for the kinds
1 and 2 and `n ≥ 1` for the kinds 3 and 4. -/
def thetaStart (a : Int) : Nat := if a = 1 ∨ a = 2 then 0 else 1

/-- Modelled from the spec: the prefactor of the series of `theta_a` applied to a sum `J`,
`2 q^(1/4) J` for the kinds 1 and 2 and `1 + 2 J` for the kinds 3 and 4. -/
noncomputable def thetaPrefactor (a : Int) (q J : ℂ) : ℂ :=
  if a = 1 ∨ a = 2 then 2 * q ^ ((1 / 4 : ℝ) : ℂ) * J else 1 + 2 * J

/-- Modelled from the spec: term `n` of the series of `EllipticTheta1Prime` of the order `k`
behind its prefactor, `(-1)^n q^(n(n+1)) (2n+1)^k sin(k*pi/2 + (2n+1)u)`. -/
noncomputable def theta1PrimeTerm (k : Int) (u q : ℂ) (n : Nat) : ℂ :=
  (-1) ^ n * q ^ (n * (n + 1))
    * ((((2 * (n : ℝ) + 1) ^ k : ℝ) : ℂ)
      * Complex.sin ((k : ℂ) * (M_PI : ℂ) / 2 + ((2 * (n : ℝ) + 1 : ℝ) : ℂ) * u))

/-- The last index at which the loop of `EllipticTheta` for the kind `a` still works with the
exact exponent: `46340` for the kinds 2, 3 and 4, whose `int` products `n*(n+1)` and `n*n`
leave the 32-bit range from `n = 46341` on, and `2^31 - 1`, the largest `int`, for the kind
1, whose exponent is a `double`. -/
def thetaLast (a : Int) : Nat := if a = 1 then 2147483647 else 46340

/-- The number of cells of the list that traverse the edge from `e.1` to `e.2`, in this
direction of their winding. -/
def cellsTraversing (cells : List Element) (e : Nat × Nat) : Nat :=
  cells.countP (fun el => el.edges.contains e)

/-! ## Boundary conditions -/

/-- Modelled from the spec: `Array<int>::Max()` of the array library, the largest entry of a
non-empty array. -/
def Array.Max (a : List Int) : Int := a.foldl max (a.headD 0)

/-- Modelled from the spec: `FiniteElementSpace::GetEssentialTrueDofs(bdr_attr_is_ess,
ess_tdof_list)` of the finite element library, the "essential-degree-of-freedom derivation
from boundary markers": a degree of freedom is essential when it lies on a boundary element
whose attribute `a` has a non-zero marker `bdr_attr_is_ess[a-1]`; the list comes in
increasing order.  `ndofs` is the number of degrees of freedom of the space, `bdrDofs i` are
those lying on the boundary element number `i`, `boundary` are the boundary elements of the
mesh of the space. -/
def GetEssentialTrueDofs (ndofs : Nat) (bdrDofs : Nat → List Nat) (boundary : List Element)
    (bdr_attr_is_ess : List Int) : List Nat :=
  (List.range ndofs).filter (fun d =>
    (List.range boundary.length).any (fun i =>
      let a := (boundary.getD i { v := [] }).attr
      decide (1 ≤ a) && (bdr_attr_is_ess.getD (a - 1).toNat 0 != 0)
        && (bdrDofs i).contains d))

/-- The function `Surface::BC`, the default of every surface (`FullPeach` has its own):
`bdr_attributes` is the array of the mesh and `fes_GetEssentialTrueDofs` the call
`fes->GetEssentialTrueDofs` as a function of the marker array; the result is written to
`opt.bc`. -/
def Surface.BC (bdr_attributes : List Int) (fes_GetEssentialTrueDofs : List Int → List Nat)
    (opt : Opt) : Opt :=
  if bdr_attributes.length ≠ 0 then
    -- Array<int> ess_bdr(bdr_attributes.Max()); ess_bdr = 1;
    let ess_bdr : List Int := List.replicate (Array.Max bdr_attributes).toNat 1
    { opt with bc := fes_GetEssentialTrueDofs ess_bdr }
  else opt

/-- The function `QuarterPeach::Postfix`.  `FaceIsTrueInterior i` is the library test on the
face of the boundary element `i`, `nval d iv` is the nodal value of the coordinate `d` at the
vertex `iv` (`GetNodalValues(nval, d+1)`), and the vertices of the face are the two vertices
of the boundary element. -/
def QuarterPeach.Postfix (FaceIsTrueInterior : Nat → Bool) (nval : Nat → Nat → ℚ)
    (m : Mesh) : Except Err Mesh :=
  (List.range m.boundary.length).foldlM
    (fun (m : Mesh) (i : Nat) =>
      let el := m.boundary.getD i { v := [] }
      if FaceIsTrueInterior i then Except.error (Err.verify "")
      else
        let vertices := el.v
        let X : Nat → Nat → ℚ := fun v d => nval d (vertices.getD v 0)
        let R : Nat → ℚ := fun v => X v 0 * X v 0 + X v 1 * X v 1
        -- the literal 0.1 denotes the double 3602879701896397 / 2^55
        if |X 0 1| ≤ EPS ∧ |X 1 1| ≤ EPS
            ∧ (R 0 > 3602879701896397 / 2 ^ 55 ∨ R 1 > 3602879701896397 / 2 ^ 55) then
          Except.ok { m with boundary := m.boundary.set i { el with attr := 1 } }
        else Except.ok { m with boundary := m.boundary.set i { el with attr := 2 } })
    m

/-! ## Theorems: the relaxation solver -/

theorem Norml2Sq_nonneg (v : Vector) : 0 ≤ Norml2Sq v := by
  unfold Norml2Sq
  induction v with
  | nil => simp
  | cons a t ih =>
    simp only [List.map_cons, List.sum_cons]
    have := mul_self_nonneg a
    linarith

theorem Norml2Sq_pos_of_entry (v : Vector) (h : ∃ a ∈ v, a ≠ 0) : 0 < Norml2Sq v := by
  induction v with
  | nil => simp at h
  | cons b t ih =>
    obtain ⟨a, ha, ha0⟩ := h
    have hcons : Norml2Sq (b :: t) = b * b + Norml2Sq t := by simp [Norml2Sq]
    rw [hcons]
    rcases List.mem_cons.mp ha with rfl | hmem
    · have h1 : 0 < a * a := mul_self_pos.mpr ha0
      have h2 := Norml2Sq_nonneg t
      linarith
    · have h1 := mul_self_nonneg b
      have h2 := ih ⟨a, hmem, ha0⟩
      linarith

theorem Norml2Sq_subtract_comm (u v : Vector) :
    Norml2Sq (subtract u v) = Norml2Sq (subtract v u) := by
  induction u generalizing v with
  | nil => cases v <;> simp [subtract]
  | cons a t ih =>
    cases v with
    | nil => simp [subtract]
    | cons b w =>
      have h := ih w
      simp only [subtract, Norml2Sq, List.zipWith_cons_cons, List.map_cons,
        List.sum_cons] at h ⊢
      rw [h]
      ring

/-- What `ByVector::Loop` returns and leaves in the mesh, whatever the options: the
convergence test of the raw solution against the old geometry, and the raw solution as the
new node array (the array `ParAXeqB` updated is overwritten by `SetNodes(x)`). -/
theorem ByVector.Loop_eq (solve : LinearSolve) (opt : Opt) (s : SurfaceSolver) :
    (ByVector.Loop solve opt s).1
        = .ok (Converged (rnormSq s.nodes (solve s.a s.nodes))) ∧
      (ByVector.Loop solve opt s).2.nodes = solve s.a s.nodes := by
  unfold ByVector.Loop ParAXeqB
  cases hr : opt.radial <;> simp

/-- C1, evaluated at the failing input `lambda = 1/2`, `old = [1,0,0]`, `solution = [0,0,0]`,
radial projection disabled: `ParAXeqB` writes the blend `lambda*old + (1-lambda)*solution
= [1/2,0,0]` into the node array, and `ByVector::Loop` then overwrites it with the raw
solution, so the coordinates left in the mesh are `[0,0,0]` and not the blend. -/
theorem C1_blend_overwritten_by_SetNodes :
    (ParAXeqB (fun _ _ => [0, 0, 0]) { lambda := 1 / 2 } false
        { nodes := [1, 0, 0], x := [1, 0, 0], x0 := [], a := [1, 0, 0], ndof := 1 }).2.nodes
        = [1 / 2, 0, 0] ∧
      (ByVector.Loop (fun _ _ => [0, 0, 0]) { lambda := 1 / 2 }
        { nodes := [1, 0, 0], x := [], x0 := [], a := [1, 0, 0], ndof := 1 }).2.nodes
        = [0, 0, 0] ∧
      (ByVector.Loop (fun _ _ => [0, 0, 0]) { lambda := 1 / 2 }
        { nodes := [1, 0, 0], x := [], x0 := [], a := [1, 0, 0], ndof := 1 }).2.nodes
        ≠ add (1 / 2) [1, 0, 0] (1 - 1 / 2) [0, 0, 0] := by
  refine ⟨?_, ?_, ?_⟩
  · norm_num [ParAXeqB, add]
  · rfl
  · norm_num [ByVector.Loop, ParAXeqB, add]

/-- C2, evaluated at the failing input of one vertex at `(1,0,0)` with linear-solve result
`(1,1,0)`, radial projection enabled, `lambda = 1/2`: the node array `ParAXeqB` computes
has a displacement parallel to the position (zero cross product), but `ByVector::Loop`
overwrites it with the raw solution, whose displacement `(0,1,0)` has the cross product
`(0,0,-1)` with the position `(1,0,0)`. -/
theorem C2_radial_projection_overwritten_by_SetNodes :
    cross
        (point 1 (subtract
          (ParAXeqB (fun _ _ => [1, 1, 0]) { radial := true, lambda := 1 / 2 } false
            { nodes := [1, 0, 0], x := [1, 0, 0], x0 := [], a := [1, 0, 0],
              ndof := 1 }).2.nodes [1, 0, 0]) 0)
        (point 1 [1, 0, 0] 0) = (0, 0, 0) ∧
      cross
        (point 1 (subtract
          (ByVector.Loop (fun _ _ => [1, 1, 0]) { radial := true, lambda := 1 / 2 }
            { nodes := [1, 0, 0], x := [], x0 := [], a := [1, 0, 0],
              ndof := 1 }).2.nodes [1, 0, 0]) 0)
        (point 1 [1, 0, 0] 0) = (0, 0, -1) := by
  constructor
  · norm_num [ParAXeqB, add, subtract, radialProject, Vector.entry, List.range,
      List.range.loop, cross, point]
  · norm_num [ByVector.Loop, ParAXeqB, add, subtract, radialProject, Vector.entry,
      List.range, List.range.loop, cross, point]

/-- With `lambda ≠ 0` or the radial option, the first component solve of
`ByComponent::Loop` aborts on `MFEM_VERIFY`, before `SetNodes` has written a node. -/
theorem ByComponent.Loop_verify (solve : LinearSolve) (opt : Opt) (s : SurfaceSolver)
    (hbad : opt.lambda ≠ 0 ∨ opt.radial = true) :
    (∃ msg, (ByComponent.Loop solve opt s).1 = .error (.verify msg)) ∧
      (ByComponent.Loop solve opt s).2.nodes = s.nodes := by
  unfold ByComponent.Loop ByComponent.component ParAXeqB ByComponent.GetNodes
  by_cases hl : opt.lambda = 0
  · have hr : opt.radial = true := by
      rcases hbad with h | h
      · exact absurd hl h
      · exact h
    simp [hl, hr]
  · simp [hl]

/-- C3 at `iter_max = 0`: with the componentwise solver and `lambda = 1`, `Solve` performs
no iteration, meets no check and returns normally. -/
theorem C3_counterexample_iter_max_zero :
    (main.launch (fun _ x => x)
        { solve_by_components := true, lambda := 1, iter_max := 0 }
        { nodes := [1, 0, 0], x := [0], x0 := [0], a := [], ndof := 1 }).1
      = Except.ok () := by
  rfl

/-- C3, amended: for options that select the componentwise solver with `lambda ≠ 0` or with
radial projection enabled, `Solve` ends in a failed `MFEM_VERIFY` with the mesh coordinates
unchanged whenever `iter_max ≥ 1` (the check sits in the first linear solve); for
`iter_max ≤ 0` it returns normally, with the state untouched. -/
theorem C3_component_precondition (solve : LinearSolve) (opt : Opt) (s : SurfaceSolver)
    (hc : opt.solve_by_components = true) (hbad : opt.lambda ≠ 0 ∨ opt.radial = true) :
    (1 ≤ opt.iter_max →
        (∃ msg, (main.launch solve opt s).1 = .error (.verify msg)) ∧
          (main.launch solve opt s).2.nodes = s.nodes) ∧
      (opt.iter_max ≤ 0 → main.launch solve opt s = (.ok (), s)) := by
  constructor
  · intro h1
    obtain ⟨n, hn⟩ : ∃ n, opt.iter_max.toNat = n + 1 :=
      ⟨opt.iter_max.toNat - 1, by omega⟩
    obtain ⟨⟨msg, hmsg⟩, hnodes⟩ :=
      ByComponent.Loop_verify solve opt (Assemble (Update s)) hbad
    have hloop : (Solve.loop (ByComponent.Loop solve opt) (n + 1) s).1
        = (.error (.verify msg), (ByComponent.Loop solve opt (Assemble (Update s))).2) := by
      rw [Solve.loop]
      generalize ByComponent.Loop solve opt (Assemble (Update s)) = r at hmsg
      obtain ⟨r1, r2⟩ := r
      simp only at hmsg
      subst hmsg
      rfl
    simp only [main.launch, hc, if_true, MinimalSurface.Solve, hn, hloop]
    exact ⟨⟨msg, rfl⟩, hnodes⟩
  · intro h0
    have hn : opt.iter_max.toNat = 0 := by omega
    simp [main.launch, hc, MinimalSurface.Solve, hn, Solve.loop]

/-- Witness of `C3_component_precondition`: `lambda = 1`, componentwise solver,
`iter_max = 32`. -/
theorem C3_component_precondition_witness :
    (∃ msg, (main.launch (fun _ x => x)
        { solve_by_components := true, lambda := 1 }
        { nodes := [1, 0, 0], x := [0], x0 := [0], a := [], ndof := 1 }).1
          = .error (.verify msg)) ∧
      (main.launch (fun _ x => x)
        { solve_by_components := true, lambda := 1 }
        { nodes := [1, 0, 0], x := [0], x0 := [0], a := [], ndof := 1 }).2.nodes
          = [1, 0, 0] :=
  (C3_component_precondition (fun _ x => x)
    { solve_by_components := true, lambda := 1 }
    { nodes := [1, 0, 0], x := [0], x0 := [0], a := [], ndof := 1 }
    rfl (Or.inl (by norm_num))).1 (by decide)

/-- The loop of `Solve` for a `Loop` that always returns: it ends normally, in the state
`stateAt` of the number of iterations it started, which is at most `n`; that number is
`k + 1` cut at `n` when iteration `k` is the first to converge, and `n` when none of the
first `n` converges. -/
theorem Solve.loop_spec (f : SurfaceSolver → Bool × SurfaceSolver) (n : Nat)
    (s : SurfaceSolver) :
    (Solve.loop (fun t => (Except.ok (f t).1, (f t).2)) n s).1
        = (Except.ok (),
            Solve.stateAt f (Solve.loop (fun t => (Except.ok (f t).1, (f t).2)) n s).2 s) ∧
      (∀ k, Solve.cvgAt f k s = true → (∀ i, i < k → Solve.cvgAt f i s = false) →
        (Solve.loop (fun t => (Except.ok (f t).1, (f t).2)) n s).2 = min n (k + 1)) ∧
      ((∀ i, i < n → Solve.cvgAt f i s = false) →
        (Solve.loop (fun t => (Except.ok (f t).1, (f t).2)) n s).2 = n) := by
  induction n generalizing s with
  | zero =>
    refine ⟨rfl, ?_, ?_⟩
    · intro k _ _
      simp [Solve.loop]
    · intro _
      rfl
  | succ n ih =>
    obtain ⟨ih1, ih2, ih3⟩ := ih (f (Assemble (Update s))).2
    cases hc : (f (Assemble (Update s))).1 with
    | true =>
      have hloop : Solve.loop (fun t => (Except.ok (f t).1, (f t).2)) (n + 1) s
          = ((Except.ok (), (f (Assemble (Update s))).2), 1) := by
        rw [Solve.loop]
        simp only [hc]
      have h0 : Solve.cvgAt f 0 s = true := hc
      refine ⟨?_, ?_, ?_⟩
      · rw [hloop]
        rfl
      · intro k _ hk
        rw [hloop]
        have hk0 : k = 0 := by
          by_contra hne
          have := hk 0 (Nat.pos_of_ne_zero hne)
          rw [h0] at this
          exact Bool.noConfusion this
        subst hk0
        simp
      · intro hall
        have := hall 0 (Nat.succ_pos n)
        rw [h0] at this
        exact Bool.noConfusion this
    | false =>
      have hloop : Solve.loop (fun t => (Except.ok (f t).1, (f t).2)) (n + 1) s
          = ((Solve.loop (fun t => (Except.ok (f t).1, (f t).2)) n
                (f (Assemble (Update s))).2).1,
              (Solve.loop (fun t => (Except.ok (f t).1, (f t).2)) n
                (f (Assemble (Update s))).2).2 + 1) := by
        rw [Solve.loop]
        simp only [hc]
      have h0 : Solve.cvgAt f 0 s = false := hc
      have hshift : ∀ i, Solve.cvgAt f (i + 1) s
          = Solve.cvgAt f i (f (Assemble (Update s))).2 := fun i => rfl
      refine ⟨?_, ?_, ?_⟩
      · rw [hloop, ih1]
        rfl
      · intro k hk hbefore
        rw [hloop]
        cases k with
        | zero =>
          rw [h0] at hk
          exact Bool.noConfusion hk
        | succ k =>
          have := ih2 k (by rw [← hshift]; exact hk)
            (fun i hi => by rw [← hshift]; exact hbefore (i + 1) (by omega))
          simp only [this]
          omega
      · intro hall
        rw [hloop]
        have := ih3 (fun i hi => by rw [← hshift]; exact hall (i + 1) (by omega))
        simp only [this]

/-- C5: for every `iter_max` and every `Loop` that returns a convergence result in each
iteration, `Solve` returns normally; it starts no iteration when `iter_max ≤ 0`; when
iteration `k` (counted from 0, so the `k+1`-th) is the first whose `Loop` reports
convergence it starts exactly `min(iter_max, k+1)` iterations; when no iteration converges
it starts exactly `iter_max` of them; and the state it leaves is the one after that many
iterations. -/
theorem C5_Solve_iteration_count (f : SurfaceSolver → Bool × SurfaceSolver) (opt : Opt)
    (s : SurfaceSolver) :
    (Solve (fun t => (Except.ok (f t).1, (f t).2)) opt s).1 = Except.ok () ∧
      (Solve (fun t => (Except.ok (f t).1, (f t).2)) opt s).2
        = Solve.stateAt f
            (Solve.iterations (fun t => (Except.ok (f t).1, (f t).2)) opt s) s ∧
      (opt.iter_max ≤ 0 →
        Solve.iterations (fun t => (Except.ok (f t).1, (f t).2)) opt s = 0) ∧
      (∀ k, Solve.cvgAt f k s = true → (∀ i, i < k → Solve.cvgAt f i s = false) →
        Solve.iterations (fun t => (Except.ok (f t).1, (f t).2)) opt s
          = min opt.iter_max.toNat (k + 1)) ∧
      ((∀ i, Solve.cvgAt f i s = false) →
        Solve.iterations (fun t => (Except.ok (f t).1, (f t).2)) opt s
          = opt.iter_max.toNat) := by
  obtain ⟨h1, h2, h3⟩ := Solve.loop_spec f opt.iter_max.toNat s
  refine ⟨?_, ?_, ?_, ?_, ?_⟩
  · simp only [MinimalSurface.Solve, h1]
  · simp only [MinimalSurface.Solve, Solve.iterations, h1]
  · intro h0
    have hn : opt.iter_max.toNat = 0 := by omega
    simp [Solve.iterations, hn, Solve.loop]
  · intro k hk hbefore
    exact h2 k hk hbefore
  · intro hall
    exact h3 (fun i _ => hall i)

/-- Witness of `C5_Solve_iteration_count`: with `iter_max = 32`, a `Loop` that converges as
soon as the node array is `[1]` and that increments its entry otherwise, started from `[0]`,
is left after 2 iterations; a `Loop` that never converges runs 32 times; with
`iter_max = -1` no iteration is started. -/
theorem C5_Solve_iteration_count_witness :
    Solve.iterations
        (fun t => (Except.ok (decide (t.nodes = [1])),
          ({ t with nodes := t.nodes.map (fun a => a + 1) } : SurfaceSolver)))
        { iter_max := 32 } { nodes := [0], x := [], x0 := [], a := [], ndof := 1 }
        = min 32 (1 + 1) ∧
      Solve.iterations (fun t => (Except.ok false, t))
        { iter_max := 32 } { nodes := [0], x := [], x0 := [], a := [], ndof := 1 } = 32 ∧
      Solve.iterations (fun t => (Except.ok false, t))
        { iter_max := -1 } { nodes := [0], x := [], x0 := [], a := [], ndof := 1 } = 0 :=
  ⟨(C5_Solve_iteration_count
      (fun t => (decide (t.nodes = [1]),
        ({ t with nodes := t.nodes.map (fun a => a + 1) } : SurfaceSolver)))
      { iter_max := 32 } { nodes := [0], x := [], x0 := [], a := [], ndof := 1 }).2.2.2.1 1
      (by norm_num [Solve.cvgAt, Solve.stateAt, Assemble, Update])
      (fun i hi => by
        have hi0 : i = 0 := by omega
        subst hi0
        norm_num [Solve.cvgAt, Solve.stateAt, Assemble, Update]),
    (C5_Solve_iteration_count (fun t => (false, t))
      { iter_max := 32 } { nodes := [0], x := [], x0 := [], a := [], ndof := 1 }).2.2.2.2
      (fun i => rfl),
    (C5_Solve_iteration_count (fun t => (false, t))
      { iter_max := -1 } { nodes := [0], x := [], x0 := [], a := [], ndof := 1 }).2.2.1
      (by decide)⟩

/-- The test `rnorm < NRM` on the squares is the test on the quotient of the norms. -/
theorem Converged_rnormSq_iff (nodes x : Vector) (h : 0 < Norml2Sq nodes) :
    Converged (rnormSq nodes x) = true ↔
      Real.sqrt ((DistanceToSq nodes x : ℚ) : ℝ) / Real.sqrt ((Norml2Sq nodes : ℚ) : ℝ)
        < 1 / 10000 := by
  have hD : (0 : ℝ) ≤ ((DistanceToSq nodes x : ℚ) : ℝ) := by
    exact_mod_cast Norml2Sq_nonneg (subtract nodes x)
  have hN : (0 : ℝ) < ((Norml2Sq nodes : ℚ) : ℝ) := by exact_mod_cast h
  have hne : Norml2Sq nodes ≠ 0 := ne_of_gt h
  rw [← Real.sqrt_div hD, Real.sqrt_lt' (by norm_num : (0 : ℝ) < 1 / 10000)]
  simp only [rnormSq, hne, if_false, Converged, decide_eq_true_eq, NRM]
  rw [← Rat.cast_div]
  have hc : ((1 / 10000 : ℝ)) ^ 2 = (((1 / 10000 * (1 / 10000) : ℚ)) : ℝ) := by
    push_cast
    ring
  rw [hc, Rat.cast_lt]

/-- C6: for every `lambda` and every previous geometry `old` that is not zero, an iteration
of `ByVector` returns a convergence result, and the result is "converged" if and only if
`‖new - old‖ / ‖old‖ < 1e-4` in the l2 norm of the coordinate array (the square root of the
sum of the squared entries), `new` being the node array the iteration leaves in the mesh
and `old` the one it started from. -/
theorem C6_ByVector_converged_iff (solve : LinearSolve) (opt : Opt) (s : SurfaceSolver)
    (hold : ∃ a ∈ s.nodes, a ≠ 0) :
    (∃ b, (ByVector.Loop solve opt s).1 = Except.ok b) ∧
      ((ByVector.Loop solve opt s).1 = Except.ok true ↔
        Real.sqrt ((Norml2Sq (subtract (ByVector.Loop solve opt s).2.nodes s.nodes) : ℚ) : ℝ)
            / Real.sqrt ((Norml2Sq s.nodes : ℚ) : ℝ)
          < 1 / 10000) := by
  obtain ⟨h1, h2⟩ := ByVector.Loop_eq solve opt s
  have hpos := Norml2Sq_pos_of_entry s.nodes hold
  refine ⟨⟨_, h1⟩, ?_⟩
  rw [h1, h2, Norml2Sq_subtract_comm]
  have hiff := Converged_rnormSq_iff s.nodes (solve s.a s.nodes) hpos
  unfold DistanceToSq at hiff
  rw [← hiff]
  constructor
  · intro h
    exact Except.ok.inj h
  · intro h
    rw [h]

/-- Witness of `C6_ByVector_converged_iff`: the geometry `[1,0,0]` with `lambda = 1/2`;
the linear solve returns `[1,0,0]` again, and the iteration reports convergence. -/
theorem C6_ByVector_converged_iff_witness :
    (∃ a ∈ ([1, 0, 0] : Vector), a ≠ 0) ∧
      (ByVector.Loop (fun _ x => x) { lambda := 1 / 2 }
        { nodes := [1, 0, 0], x := [], x0 := [], a := [], ndof := 1 }).1 = Except.ok true ∧
      ((ByVector.Loop (fun _ x => x) { lambda := 1 / 2 }
          { nodes := [1, 0, 0], x := [], x0 := [], a := [], ndof := 1 }).1 = Except.ok true ↔
        Real.sqrt ((Norml2Sq (subtract
            (ByVector.Loop (fun _ x => x) { lambda := 1 / 2 }
              { nodes := [1, 0, 0], x := [], x0 := [], a := [], ndof := 1 }).2.nodes
            [1, 0, 0]) : ℚ) : ℝ)
            / Real.sqrt ((Norml2Sq ([1, 0, 0] : Vector) : ℚ) : ℝ)
          < 1 / 10000) :=
  ⟨⟨1, by simp, one_ne_zero⟩,
    by norm_num [ByVector.Loop, ParAXeqB, Converged, rnormSq, Norml2Sq, DistanceToSq,
      subtract, NRM],
    (C6_ByVector_converged_iff (fun _ x => x) { lambda := 1 / 2 }
      { nodes := [1, 0, 0], x := [], x0 := [], a := [], ndof := 1 }
      ⟨1, by simp, one_ne_zero⟩).2⟩

/-! ## Theorems: the surface factory -/

/-- C4: for every integer selection code, negative ones included, `NewMeshFromSurface`
builds a surface exactly when the file header table lists the code, and then the surface
listed; every code from 0 to 9 is listed; and it raises the invalid-selection error exactly
when the code is outside 0..9, so no code falls back to a default surface. -/
theorem C4_NewMeshFromSurface_table (opt : Opt) :
    (∀ k, NewMeshFromSurface opt = Except.ok k ↔ (opt.surface, k) ∈ headerTable) ∧
      (0 ≤ opt.surface ∧ opt.surface ≤ 9 → ∃ k, NewMeshFromSurface opt = Except.ok k) ∧
      (NewMeshFromSurface opt = Except.error (.error "Unknown surface (0 <= surface <= 9)!")
        ↔ opt.surface < 0 ∨ 9 < opt.surface) := by
  by_cases h : 0 ≤ opt.surface ∧ opt.surface ≤ 9
  · obtain ⟨h0, h9⟩ := h
    generalize hs : opt.surface = c at h0 h9
    unfold NewMeshFromSurface
    rw [hs]
    interval_cases c <;> simp [headerTable] <;> exact fun k => eq_comm
  · have hout : opt.surface < 0 ∨ 9 < opt.surface := by omega
    have herr : NewMeshFromSurface opt
        = Except.error (.error "Unknown surface (0 <= surface <= 9)!") := by
      unfold NewMeshFromSurface
      split <;> first | rfl | omega
    refine ⟨?_, ?_, ?_⟩
    · intro k
      rw [herr]
      constructor
      · intro hk
        exact Except.noConfusion hk
      · intro hk
        simp only [headerTable, List.mem_cons, Prod.mk.injEq, List.mem_nil_iff,
          or_false] at hk
        omega
    · intro h'
      exact absurd h' h
    · exact ⟨fun _ => hout, fun _ => herr⟩

/-- Witness of `C4_NewMeshFromSurface_table`: code 8 builds `Costa`, and the codes 99 and
-3 raise the invalid-selection error. -/
theorem C4_NewMeshFromSurface_table_witness :
    NewMeshFromSurface { surface := 8 } = Except.ok SurfaceKind.Costa ∧
      (∃ k, NewMeshFromSurface { surface := 8 } = Except.ok k) ∧
      NewMeshFromSurface { surface := 99 }
        = Except.error (.error "Unknown surface (0 <= surface <= 9)!") ∧
      NewMeshFromSurface { surface := -3 }
        = Except.error (.error "Unknown surface (0 <= surface <= 9)!") :=
  ⟨((C4_NewMeshFromSurface_table { surface := 8 }).1 SurfaceKind.Costa).2 (by decide),
    (C4_NewMeshFromSurface_table { surface := 8 }).2.1 (by decide),
    (C4_NewMeshFromSurface_table { surface := 99 }).2.2.2 (Or.inr (by decide)),
    (C4_NewMeshFromSurface_table { surface := -3 }).2.2.2 (Or.inl (by decide))⟩

/-! ## Theorems: parametrizations and the resolution check -/

/-- C9: for `Catenoid::Parametrization` and for `Hold::Parametrization`, and for every
reference ordinate `y` (in `[0,1]` or not), the first and the last grid column have the
same image: `Parametrization(0,y) = Parametrization(1,y)` in all three coordinates, in
exact real arithmetic. -/
theorem C9_seam_columns_coincide (y : ℝ) :
    Catenoid.Parametrization (0, y) = Catenoid.Parametrization (1, y) ∧
      Hold.Parametrization (0, y) = Hold.Parametrization (1, y) := by
  have h3 : 3 * (2 * Real.pi) + Real.pi * y = Real.pi * y + (3 : ℕ) * (2 * Real.pi) := by
    push_cast
    ring
  constructor
  · simp [Catenoid.Parametrization, PI]
  · simp only [Hold.Parametrization, PI, mul_zero, mul_one, Real.cos_zero, Real.sin_zero,
      Real.cos_two_pi, Real.sin_two_pi, zero_add]
    rw [h3, Real.sin_add_nat_mul_two_pi]

/-- C10: for every pair `(nx, ny)`, `Costa::Prefix` fails on its `MFEM_VERIFY` if and only
if `nx ≤ 2` or `ny ≤ 2`, it passes the check otherwise, and when it fails the mesh is the
one it was called with: no vertex and no cell has been added. -/
theorem C10_Costa_resolution_precondition (opt : Opt) (m : Mesh) :
    ((Costa.Prefix opt m).1 = Except.error (.verify "") ↔ opt.nx ≤ 2 ∨ opt.ny ≤ 2) ∧
      ((Costa.Prefix opt m).1 = Except.ok () ↔ ¬ (opt.nx ≤ 2 ∨ opt.ny ≤ 2)) ∧
      (opt.nx ≤ 2 ∨ opt.ny ≤ 2 → (Costa.Prefix opt m).2 = m) := by
  by_cases h : opt.nx > 2 ∧ opt.ny > 2
  · have hn : ¬ (opt.nx ≤ 2 ∨ opt.ny ≤ 2) := by omega
    have h1 : (Costa.Prefix opt m).1 = Except.ok () := by
      unfold Costa.Prefix
      simp only [if_neg (not_not.mpr h)]
    refine ⟨?_, ?_, ?_⟩
    · rw [h1]
      exact ⟨fun hk => Except.noConfusion hk, fun hk => absurd hk hn⟩
    · exact ⟨fun _ => hn, fun _ => h1⟩
    · intro hk
      exact absurd hk hn
  · have hn : opt.nx ≤ 2 ∨ opt.ny ≤ 2 := by omega
    have h1 : Costa.Prefix opt m = (Except.error (.verify ""), m) := by
      unfold Costa.Prefix
      simp only [if_pos h]
    refine ⟨?_, ?_, ?_⟩
    · rw [h1]
      exact ⟨fun _ => hn, fun _ => rfl⟩
    · rw [h1]
      exact ⟨fun hk => Except.noConfusion hk, fun hk => absurd hn hk⟩
    · intro _
      rw [h1]

/-- Witness of `C10_Costa_resolution_precondition`: `nx = 2`, `ny = 6` on the 2 by 6 grid
the constructor built leaves that grid as it is. -/
theorem C10_Costa_resolution_precondition_witness :
    (Costa.Prefix { nx := 2, ny := 6 } (Mesh.Make2D 2 6)).2 = Mesh.Make2D 2 6 :=
  (C10_Costa_resolution_precondition { nx := 2, ny := 6 } (Mesh.Make2D 2 6)).2.2
    (Or.inl (by decide))

/-! ## Theorems: the seam weld -/

/-- The array `v2v` after `k` passes of its second loop. -/
theorem v2v_fold_spec (nx NV k : Nat) :
    ((List.range k).foldl (fun v2v j => v2v.set (nx + j * (nx + 1)) (j * (nx + 1)))
        (List.range NV)).length = NV ∧
      ∀ r, r < NV →
        ((List.range k).foldl (fun v2v j => v2v.set (nx + j * (nx + 1)) (j * (nx + 1)))
          (List.range NV)).getD r 0
          = if r % (nx + 1) = nx ∧ r / (nx + 1) < k then r - nx else r := by
  induction k with
  | zero =>
    refine ⟨by simp, ?_⟩
    intro r hr
    simp [List.getD_eq_getElem?_getD, hr]
  | succ k ih =>
    obtain ⟨ihlen, ihget⟩ := ih
    rw [List.range_succ, List.foldl_append]
    simp only [List.foldl_cons, List.foldl_nil, List.length_set]
    refine ⟨ihlen, ?_⟩
    intro r hr
    have hdm := Nat.div_add_mod r (nx + 1)
    have hmod : r % (nx + 1) < nx + 1 := Nat.mod_lt _ (Nat.succ_pos nx)
    by_cases heq : nx + k * (nx + 1) = r
    · have hr' : nx + k * (nx + 1) < NV := by omega
      have h1 : r % (nx + 1) = nx := by
        rw [← heq, Nat.add_mul_mod_self_right]
        exact Nat.mod_eq_of_lt (Nat.lt_succ_self nx)
      have h2 : r / (nx + 1) = k := by
        rw [← heq, Nat.add_mul_div_right _ _ (Nat.succ_pos nx),
          Nat.div_eq_of_lt (Nat.lt_succ_self nx)]
        simp
      rw [List.getD_eq_getElem?_getD, List.getElem?_set, if_pos heq]
      simp [ihlen, hr', h1, h2]
      omega
    · rw [List.getD_eq_getElem?_getD, List.getElem?_set, if_neg heq,
        ← List.getD_eq_getElem?_getD, ihget r hr]
      have hiff : (r % (nx + 1) = nx ∧ r / (nx + 1) < k + 1)
          ↔ (r % (nx + 1) = nx ∧ r / (nx + 1) < k) := by
        constructor
        · rintro ⟨h1, h2⟩
          refine ⟨h1, ?_⟩
          by_contra hk
          have hk' : r / (nx + 1) = k := by omega
          rw [hk', h1] at hdm
          apply heq
          rw [← hdm]
          ring
        · rintro ⟨h1, h2⟩
          exact ⟨h1, by omega⟩
      simp only [hiff]

/-- The entries of `v2v` on the `(nx+1)*(ny+1)` vertices of the grid: a last-column vertex
is sent `nx` places down, to the first vertex of its row, the others are kept. -/
theorem v2v_getD (nx ny r : Nat) (hr : r < (nx + 1) * (ny + 1)) :
    (v2v nx ny ((nx + 1) * (ny + 1))).getD r 0
      = if r % (nx + 1) = nx then r - nx else r := by
  have h := (v2v_fold_spec nx ((nx + 1) * (ny + 1)) (ny + 1)).2 r hr
  have hdiv : r / (nx + 1) < ny + 1 := by
    rw [Nat.div_lt_iff_lt_mul (Nat.succ_pos nx)]
    rw [Nat.mul_comm]
    exact hr
  unfold v2v
  rw [h]
  simp only [hdiv, and_true]

/-- A vertex of the last column has remainder `nx` modulo the row length, and conversely
(within the grid). -/
theorem lastColumn_iff (nx ny r : Nat) (hr : r < (nx + 1) * (ny + 1)) :
    r % (nx + 1) = nx ↔ ∃ j, j ≤ ny ∧ r = nx + j * (nx + 1) := by
  constructor
  · intro h
    refine ⟨r / (nx + 1), ?_, ?_⟩
    · have : r / (nx + 1) < ny + 1 := by
        rw [Nat.div_lt_iff_lt_mul (Nat.succ_pos nx), Nat.mul_comm]
        exact hr
      omega
    · have hdm := Nat.div_add_mod r (nx + 1)
      rw [h] at hdm
      rw [Nat.mul_comm] at hdm
      omega
  · rintro ⟨j, _, rfl⟩
    rw [Nat.add_mul_mod_self_right]
    exact Nat.mod_eq_of_lt (Nat.lt_succ_self nx)

/-- C7: for every `nx ≥ 1` and `ny`, on a mesh over the `(nx+1)*(ny+1)` vertices of the grid
(the structured one, vertex `(i,j)` at index `i + j*(nx+1)`) whose cells and boundary facets
refer to vertices of the grid, the renumbering pass of `Catenoid::Prefix`, which is also
that of `Hold::Prefix`, replaces every vertex reference `r` of every cell and every
boundary facet by `v2v[r]`, where `v2v` sends the last-column vertex `nx + j*(nx+1)` to the
first-column vertex `j*(nx+1)` for `j = 0, …, ny` and keeps every other vertex; after the
pass no cell and no boundary facet refers to a last-column vertex, and every reference is
below `(nx+1)*(ny+1)`. -/
theorem C7_seam_weld_renumbering (nx ny : Nat) (m : Mesh) (hnx : 1 ≤ nx)
    (hNV : m.GetNV = (nx + 1) * (ny + 1))
    (hin : ∀ el ∈ m.elements ++ m.boundary, ∀ r ∈ el.v, r < (nx + 1) * (ny + 1)) :
    (∀ j, j ≤ ny → (v2v nx ny m.GetNV).getD (nx + j * (nx + 1)) 0 = j * (nx + 1)) ∧
      (∀ r, r < (nx + 1) * (ny + 1) → (∀ j, j ≤ ny → r ≠ nx + j * (nx + 1)) →
        (v2v nx ny m.GetNV).getD r 0 = r) ∧
      (Catenoid.Prefix nx ny m).elements
        = m.elements.map (fun el =>
            { el with v := el.v.map (fun r => (v2v nx ny m.GetNV).getD r 0) }) ∧
      (Catenoid.Prefix nx ny m).boundary
        = m.boundary.map (fun el =>
            { el with v := el.v.map (fun r => (v2v nx ny m.GetNV).getD r 0) }) ∧
      Hold.Prefix nx ny m = Catenoid.Prefix nx ny m ∧
      (∀ el ∈ (Catenoid.Prefix nx ny m).elements ++ (Catenoid.Prefix nx ny m).boundary,
        ∀ r ∈ el.v,
          r < (nx + 1) * (ny + 1) ∧ ∀ j, j ≤ ny → r ≠ nx + j * (nx + 1)) := by
  have hlast : ∀ j, j ≤ ny → nx + j * (nx + 1) < (nx + 1) * (ny + 1) := by
    intro j hj
    have h1 : j * (nx + 1) ≤ ny * (nx + 1) := Nat.mul_le_mul_right _ hj
    have h2 : (nx + 1) * (ny + 1) = ny * (nx + 1) + (nx + 1) := by ring
    omega
  refine ⟨?_, ?_, rfl, rfl, rfl, ?_⟩
  · intro j hj
    rw [hNV, v2v_getD nx ny _ (hlast j hj)]
    have hmod : (nx + j * (nx + 1)) % (nx + 1) = nx :=
      (lastColumn_iff nx ny _ (hlast j hj)).2 ⟨j, hj, rfl⟩
    rw [if_pos hmod]
    omega
  · intro r hr hnot
    rw [hNV, v2v_getD nx ny r hr]
    have hmod : ¬ r % (nx + 1) = nx := by
      intro h
      obtain ⟨j, hj, hrj⟩ := (lastColumn_iff nx ny r hr).1 h
      exact hnot j hj hrj
    rw [if_neg hmod]
  · intro el hel r hr
    have hel' : ∃ el0 ∈ m.elements ++ m.boundary,
        el = renumber (v2v nx ny m.GetNV) el0 := by
      simp only [Catenoid.Prefix, List.mem_append, List.mem_map] at hel
      rcases hel with ⟨el0, h0, rfl⟩ | ⟨el0, h0, rfl⟩
      · exact ⟨el0, List.mem_append_left _ h0, rfl⟩
      · exact ⟨el0, List.mem_append_right _ h0, rfl⟩
    obtain ⟨el0, hel0, rfl⟩ := hel'
    simp only [renumber, List.mem_map] at hr
    obtain ⟨r0, hr0, rfl⟩ := hr
    have hr0lt := hin el0 hel0 r0 hr0
    rw [hNV, v2v_getD nx ny r0 hr0lt]
    have hdm := Nat.div_add_mod r0 (nx + 1)
    have hmodlt : r0 % (nx + 1) < nx + 1 := Nat.mod_lt _ (Nat.succ_pos nx)
    by_cases hmod : r0 % (nx + 1) = nx
    · rw [if_pos hmod]
      have hlt : r0 - nx < (nx + 1) * (ny + 1) := by omega
      refine ⟨hlt, ?_⟩
      intro j hj heq
      have h1 : (r0 - nx) % (nx + 1) = nx :=
        (lastColumn_iff nx ny _ hlt).2 ⟨j, hj, heq⟩
      have h2 : r0 - nx = (nx + 1) * (r0 / (nx + 1)) := by omega
      rw [h2, Nat.mul_mod_right] at h1
      omega
    · rw [if_neg hmod]
      refine ⟨hr0lt, ?_⟩
      intro j hj heq
      exact hmod ((lastColumn_iff nx ny r0 hr0lt).2 ⟨j, hj, heq⟩)

/-- Witness of `C7_seam_weld_renumbering`: the 2 by 1 grid, whose weld gives the cells
`[0,1,4,3]` and `[1,0,3,4]`. -/
theorem C7_seam_weld_renumbering_witness :
    (1 ≤ 2 ∧ (Mesh.Make2D 2 1).GetNV = (2 + 1) * (1 + 1)) ∧
      (Catenoid.Prefix 2 1 (Mesh.Make2D 2 1)).elements.map (fun el => el.v)
        = [[0, 1, 4, 3], [1, 0, 3, 4]] ∧
      (∀ el ∈ (Catenoid.Prefix 2 1 (Mesh.Make2D 2 1)).elements
            ++ (Catenoid.Prefix 2 1 (Mesh.Make2D 2 1)).boundary,
        ∀ r ∈ el.v, r < (2 + 1) * (1 + 1) ∧ ∀ j, j ≤ 1 → r ≠ 2 + j * (2 + 1)) :=
  ⟨⟨by decide, rfl⟩, by decide,
    (C7_seam_weld_renumbering 2 1 (Mesh.Make2D 2 1) (by decide) rfl (by decide)).2.2.2.2.2⟩

/-! ## Theorems: the topology after the weld -/

/-- A list without repetition in which exactly the two distinct members `a` and `b`
satisfy `p` has two members that satisfy `p`. -/
theorem countP_eq_two {α : Type} [DecidableEq α] (l : List α) (p : α → Bool) (a b : α)
    (hl : l.Nodup) (ha : a ∈ l) (hb : b ∈ l) (hab : a ≠ b)
    (hp : ∀ x ∈ l, (p x = true ↔ x = a ∨ x = b)) : l.countP p = 2 := by
  rw [List.countP_eq_length_filter]
  have hnd : (l.filter p).Nodup := hl.filter _
  rw [← List.toFinset_card_of_nodup hnd]
  have hset : (l.filter p).toFinset = {a, b} := by
    ext x
    simp only [List.mem_toFinset, List.mem_filter, Finset.mem_insert, Finset.mem_singleton]
    constructor
    · rintro ⟨hx, hpx⟩
      exact (hp x hx).1 hpx
    · rintro (rfl | rfl)
      · exact ⟨ha, (hp _ ha).2 (Or.inl rfl)⟩
      · exact ⟨hb, (hp _ hb).2 (Or.inr rfl)⟩
  rw [hset, Finset.card_pair hab]

/-- The index `a + b*M` of the vertex in column `a < M` and row `b` determines the column
and the row. -/
theorem enc_inj (M a b a' b' : Nat) (ha : a < M) (ha' : a' < M) :
    a + b * M = a' + b' * M ↔ a = a' ∧ b = b' := by
  constructor
  · intro h
    have hM : 0 < M := by omega
    have h1 : (a + b * M) % M = (a' + b' * M) % M := by rw [h]
    rw [Nat.add_mul_mod_self_right, Nat.add_mul_mod_self_right, Nat.mod_eq_of_lt ha,
      Nat.mod_eq_of_lt ha'] at h1
    subst h1
    have h2 : b * M = b' * M := by omega
    exact ⟨rfl, Nat.eq_of_mul_eq_mul_right hM h2⟩
  · rintro ⟨rfl, rfl⟩
    rfl

/-- The entry of `v2v` at the vertex of column `a` and row `b`. -/
theorem v2v_getD_enc (nx ny a b : Nat) (ha : a ≤ nx) (hb : b ≤ ny) :
    (v2v nx ny ((nx + 1) * (ny + 1))).getD (a + b * (nx + 1)) 0
      = (if a = nx then 0 else a) + b * (nx + 1) := by
  have hlt : a + b * (nx + 1) < (nx + 1) * (ny + 1) := by
    have h1 : b * (nx + 1) ≤ ny * (nx + 1) := Nat.mul_le_mul_right _ hb
    have h2 : (nx + 1) * (ny + 1) = ny * (nx + 1) + (nx + 1) := by ring
    omega
  have hmod : (a + b * (nx + 1)) % (nx + 1) = a := by
    rw [Nat.add_mul_mod_self_right]
    exact Nat.mod_eq_of_lt (by omega)
  rw [v2v_getD nx ny _ hlt, hmod]
  split_ifs <;> omega

/-- The number of vertices of the structured grid. -/
theorem Make2D_GetNV (nx ny : Nat) : (Mesh.Make2D nx ny).GetNV = (nx + 1) * (ny + 1) := by
  simp only [Mesh.GetNV, Mesh.Make2D, List.length_flatMap, Function.comp_def, List.length_map,
    List.length_range]
  simp [Nat.mul_comm]

/-- The cells that the renumbering pass leaves on the structured grid. -/
theorem welded_cells (nx ny : Nat) :
    (Catenoid.Prefix nx ny (Mesh.Make2D nx ny)).elements
      = (List.range ny).flatMap (fun j => (List.range nx).map (fun i => weldedCell nx i j)) := by
  unfold Catenoid.Prefix
  simp only [Make2D_GetNV]
  simp only [Mesh.Make2D, List.map_flatMap, List.map_map]
  apply List.flatMap_congr
  intro j hj
  apply List.map_congr_left
  intro i hi
  have hj' : j < ny := List.mem_range.mp hj
  have hi' : i < nx := List.mem_range.mp hi
  have e0 := v2v_getD_enc nx ny i j (by omega) (by omega)
  have e1 := v2v_getD_enc nx ny (i + 1) j (by omega) (by omega)
  have e2 := v2v_getD_enc nx ny (i + 1) (j + 1) (by omega) (by omega)
  have e3 := v2v_getD_enc nx ny i (j + 1) (by omega) (by omega)
  have hne : ¬ i = nx := by omega
  simp only [if_neg hne] at e0 e3
  simp only [Function.comp, renumber, weldedCell, List.map_cons, List.map_nil, e0, e1, e2, e3]

theorem mem_welded_cells (nx ny : Nat) (c : Element) :
    c ∈ (List.range ny).flatMap (fun j => (List.range nx).map (fun i => weldedCell nx i j))
      ↔ ∃ j, j < ny ∧ ∃ i, i < nx ∧ c = weldedCell nx i j := by
  simp only [List.mem_flatMap, List.mem_map, List.mem_range]
  constructor
  · rintro ⟨j, hj, i, hi, rfl⟩
    exact ⟨j, hj, i, hi, rfl⟩
  · rintro ⟨j, hj, i, hi, rfl⟩
    exact ⟨j, hj, i, hi, rfl⟩

/-- A welded cell determines its column and its row. -/
theorem weldedCell_inj (nx i j i' j' : Nat) (hi : i < nx) (hi' : i' < nx)
    (h : weldedCell nx i j = weldedCell nx i' j') : i = i' ∧ j = j' := by
  have hv : (weldedCell nx i j).v.head? = (weldedCell nx i' j').v.head? := by rw [h]
  simp only [weldedCell, List.head?_cons, Option.some.injEq] at hv
  exact (enc_inj (nx + 1) i j i' j' (by omega) (by omega)).1 hv

theorem nodup_welded_cells (nx ny : Nat) :
    ((List.range ny).flatMap
      (fun j => (List.range nx).map (fun i => weldedCell nx i j))).Nodup := by
  rw [List.nodup_flatMap]
  constructor
  · intro j _
    apply List.Nodup.map_on _ (List.nodup_range nx)
    intro i hi i' hi' h
    exact (weldedCell_inj nx i j i' j (List.mem_range.mp hi) (List.mem_range.mp hi') h).1
  · apply List.Pairwise.imp _ (List.pairwise_lt_range ny)
    intro j j' hlt c hc hc'
    simp only [List.mem_map, List.mem_range] at hc hc'
    obtain ⟨i, hi, rfl⟩ := hc
    obtain ⟨i', hi', h⟩ := hc'
    have := (weldedCell_inj nx i' j' i j hi' hi h).2
    omega

theorem weldedCell_eq_iff (nx i j i' j' : Nat) (hi : i < nx) (hi' : i' < nx) :
    weldedCell nx i j = weldedCell nx i' j' ↔ i = i' ∧ j = j' := by
  constructor
  · exact weldedCell_inj nx i j i' j' hi hi'
  · rintro ⟨rfl, rfl⟩
    rfl

/-- The cells that have the bottom edge of the welded cell `(i,j)`: the cell itself and
the one below it. -/
theorem weldedCell_hasEdge_bottom (nx i j i' j' : Nat) (hnx : 3 ≤ nx) (hi : i < nx)
    (hi' : i' < nx) :
    (weldedCell nx i' j').hasEdge
        (i + j * (nx + 1), (if i + 1 = nx then 0 else i + 1) + j * (nx + 1)) = true
      ↔ (i' = i ∧ j' = j) ∨ (i' = i ∧ j' + 1 = j) := by
  have hiM : i < nx + 1 := by omega
  have hiM' : i' < nx + 1 := by omega
  simp only [Element.hasEdge, Element.edges, weldedCell, sameEdge]
  have hs : (i + 1 = nx ∧ (if i + 1 = nx then 0 else i + 1) = 0) ∨
      (i + 1 < nx ∧ (if i + 1 = nx then 0 else i + 1) = i + 1) := by
    split_ifs <;> omega
  have hs' : (i' + 1 = nx ∧ (if i' + 1 = nx then 0 else i' + 1) = 0) ∨
      (i' + 1 < nx ∧ (if i' + 1 = nx then 0 else i' + 1) = i' + 1) := by
    split_ifs <;> omega
  generalize (if i + 1 = nx then 0 else i + 1) = s at hs ⊢
  generalize (if i' + 1 = nx then 0 else i' + 1) = s' at hs' ⊢
  have hsM : s < nx + 1 := by omega
  have hsM' : s' < nx + 1 := by omega
  simp only [List.rotate, List.length_cons, List.length_nil, enc_inj, hiM, hiM', hsM, hsM',
    List.zip_cons_cons, List.zip_nil_right, List.any_cons, List.any_nil, Bool.or_false,
    Bool.or_eq_true, Bool.and_eq_true, beq_iff_eq]
  simp [enc_inj, hiM, hiM', hsM, hsM']
  constructor
  · intro h
    omega
  · intro h
    have hss : i' = i → s' = s := by omega
    rcases h with ⟨rfl, rfl⟩ | ⟨rfl, rfl⟩
    · simp [hss rfl]
    · simp
      omega

/-- The cells that have the right edge of the welded cell `(i,j)`: the cell itself and
the next one of its row, which is the first one after the last. -/
theorem weldedCell_hasEdge_right (nx i j i' j' : Nat) (hnx : 3 ≤ nx) (hi : i < nx)
    (hi' : i' < nx) :
    (weldedCell nx i' j').hasEdge
        ((if i + 1 = nx then 0 else i + 1) + j * (nx + 1),
          (if i + 1 = nx then 0 else i + 1) + (j + 1) * (nx + 1)) = true
      ↔ (i' = i ∧ j' = j) ∨ (i' = (if i + 1 = nx then 0 else i + 1) ∧ j' = j) := by
  have hiM : i < nx + 1 := by omega
  have hiM' : i' < nx + 1 := by omega
  simp only [Element.hasEdge, Element.edges, weldedCell, sameEdge]
  have hs : (i + 1 = nx ∧ (if i + 1 = nx then 0 else i + 1) = 0) ∨
      (i + 1 < nx ∧ (if i + 1 = nx then 0 else i + 1) = i + 1) := by
    split_ifs <;> omega
  have hs' : (i' + 1 = nx ∧ (if i' + 1 = nx then 0 else i' + 1) = 0) ∨
      (i' + 1 < nx ∧ (if i' + 1 = nx then 0 else i' + 1) = i' + 1) := by
    split_ifs <;> omega
  generalize (if i + 1 = nx then 0 else i + 1) = s at hs ⊢
  generalize (if i' + 1 = nx then 0 else i' + 1) = s' at hs' ⊢
  have hsM : s < nx + 1 := by omega
  have hsM' : s' < nx + 1 := by omega
  simp only [List.rotate, List.length_cons, List.length_nil, enc_inj, hiM, hiM', hsM, hsM',
    List.zip_cons_cons, List.zip_nil_right, List.any_cons, List.any_nil, Bool.or_false,
    Bool.or_eq_true, Bool.and_eq_true, beq_iff_eq]
  simp [enc_inj, hiM, hiM', hsM, hsM']
  constructor
  · intro h
    omega
  · intro h
    have hss : i' = i → s' = s := by omega
    rcases h with ⟨rfl, rfl⟩ | ⟨rfl, rfl⟩
    · simp [hss rfl]
    · simp

/-- The cells that have the top edge of the welded cell `(i,j)`: the cell itself and the
one above it. -/
theorem weldedCell_hasEdge_top (nx i j i' j' : Nat) (hnx : 3 ≤ nx) (hi : i < nx)
    (hi' : i' < nx) :
    (weldedCell nx i' j').hasEdge
        ((if i + 1 = nx then 0 else i + 1) + (j + 1) * (nx + 1), i + (j + 1) * (nx + 1)) = true
      ↔ (i' = i ∧ j' = j) ∨ (i' = i ∧ j' = j + 1) := by
  have hiM : i < nx + 1 := by omega
  have hiM' : i' < nx + 1 := by omega
  simp only [Element.hasEdge, Element.edges, weldedCell, sameEdge]
  have hs : (i + 1 = nx ∧ (if i + 1 = nx then 0 else i + 1) = 0) ∨
      (i + 1 < nx ∧ (if i + 1 = nx then 0 else i + 1) = i + 1) := by
    split_ifs <;> omega
  have hs' : (i' + 1 = nx ∧ (if i' + 1 = nx then 0 else i' + 1) = 0) ∨
      (i' + 1 < nx ∧ (if i' + 1 = nx then 0 else i' + 1) = i' + 1) := by
    split_ifs <;> omega
  generalize (if i + 1 = nx then 0 else i + 1) = s at hs ⊢
  generalize (if i' + 1 = nx then 0 else i' + 1) = s' at hs' ⊢
  have hsM : s < nx + 1 := by omega
  have hsM' : s' < nx + 1 := by omega
  simp only [List.rotate, List.length_cons, List.length_nil, enc_inj, hiM, hiM', hsM, hsM',
    List.zip_cons_cons, List.zip_nil_right, List.any_cons, List.any_nil, Bool.or_false,
    Bool.or_eq_true, Bool.and_eq_true, beq_iff_eq]
  simp [enc_inj, hiM, hiM', hsM, hsM']
  constructor
  · intro h
    omega
  · intro h
    have hss : i' = i → s' = s := by omega
    rcases h with ⟨rfl, rfl⟩ | ⟨rfl, rfl⟩
    · simp [hss rfl]
    · simp
      omega

/-- The cells that have the left edge of the welded cell `(i,j)`: the cell itself and the
one before it in its row, the one whose next column is `i`. -/
theorem weldedCell_hasEdge_left (nx i j i' j' : Nat) (hnx : 3 ≤ nx) (hi : i < nx)
    (hi' : i' < nx) :
    (weldedCell nx i' j').hasEdge
        (i + (j + 1) * (nx + 1), i + j * (nx + 1)) = true
      ↔ (i' = i ∧ j' = j) ∨ ((if i' + 1 = nx then 0 else i' + 1) = i ∧ j' = j) := by
  have hiM : i < nx + 1 := by omega
  have hiM' : i' < nx + 1 := by omega
  simp only [Element.hasEdge, Element.edges, weldedCell, sameEdge]
  have hs : (i + 1 = nx ∧ (if i + 1 = nx then 0 else i + 1) = 0) ∨
      (i + 1 < nx ∧ (if i + 1 = nx then 0 else i + 1) = i + 1) := by
    split_ifs <;> omega
  have hs' : (i' + 1 = nx ∧ (if i' + 1 = nx then 0 else i' + 1) = 0) ∨
      (i' + 1 < nx ∧ (if i' + 1 = nx then 0 else i' + 1) = i' + 1) := by
    split_ifs <;> omega
  generalize (if i + 1 = nx then 0 else i + 1) = s at hs ⊢
  generalize (if i' + 1 = nx then 0 else i' + 1) = s' at hs' ⊢
  have hsM : s < nx + 1 := by omega
  have hsM' : s' < nx + 1 := by omega
  simp only [List.rotate, List.length_cons, List.length_nil, enc_inj, hiM, hiM', hsM, hsM',
    List.zip_cons_cons, List.zip_nil_right, List.any_cons, List.any_nil, Bool.or_false,
    Bool.or_eq_true, Bool.and_eq_true, beq_iff_eq]
  simp [enc_inj, hiM, hiM', hsM, hsM']
  constructor
  · intro h
    omega
  · intro h
    have hss : i' = i → s' = s := by omega
    rcases h with ⟨rfl, rfl⟩ | ⟨rfl, rfl⟩
    · simp [hss rfl]
    · simp

/-- An edge is had whichever end point is named first. -/
theorem cellsWithEdge_swap (cells : List Element) (a b : Nat) :
    cellsWithEdge cells (a, b) = cellsWithEdge cells (b, a) := by
  unfold cellsWithEdge
  congr 1
  funext el
  unfold Element.hasEdge
  congr 1
  funext f
  simp only [sameEdge]
  rw [Bool.or_comm]
  congr 1 <;> rw [Bool.and_comm]

/-- An edge that, among the welded cells, exactly the two distinct cells `(i₁,j₁)` and
`(i₂,j₂)` have is shared by two cells of the list. -/
theorem cellsWithEdge_welded (nx ny : Nat) (e : Nat × Nat) (i₁ j₁ i₂ j₂ : Nat)
    (h1 : i₁ < nx ∧ j₁ < ny) (h2 : i₂ < nx ∧ j₂ < ny)
    (hne : ¬ (i₁ = i₂ ∧ j₁ = j₂))
    (h : ∀ i' j', i' < nx → j' < ny →
      ((weldedCell nx i' j').hasEdge e = true
        ↔ (i' = i₁ ∧ j' = j₁) ∨ (i' = i₂ ∧ j' = j₂))) :
    cellsWithEdge
      ((List.range ny).flatMap (fun j => (List.range nx).map (fun i => weldedCell nx i j))) e
      = 2 := by
  unfold cellsWithEdge
  apply countP_eq_two _ _ (weldedCell nx i₁ j₁) (weldedCell nx i₂ j₂)
    (nodup_welded_cells nx ny)
  · exact (mem_welded_cells nx ny _).2 ⟨j₁, h1.2, i₁, h1.1, rfl⟩
  · exact (mem_welded_cells nx ny _).2 ⟨j₂, h2.2, i₂, h2.1, rfl⟩
  · intro heq
    exact hne ((weldedCell_eq_iff nx i₁ j₁ i₂ j₂ h1.1 h2.1).1 heq)
  · intro x hx
    obtain ⟨j', hj', i', hi', rfl⟩ := (mem_welded_cells nx ny x).1 hx
    rw [h i' j' hi' hj', weldedCell_eq_iff nx i' j' i₁ j₁ hi' h1.1,
      weldedCell_eq_iff nx i' j' i₂ j₂ hi' h2.1]

/-- The left edge of every welded cell is shared by two cells; for the cells of the first
column this is the seam edge. -/
theorem cellsWithEdge_left (nx ny i j : Nat) (hnx : 3 ≤ nx) (hi : i < nx) (hj : j < ny) :
    cellsWithEdge
      ((List.range ny).flatMap (fun j => (List.range nx).map (fun i => weldedCell nx i j)))
      (i + (j + 1) * (nx + 1), i + j * (nx + 1)) = 2 := by
  apply cellsWithEdge_welded nx ny _ i j (if i = 0 then nx - 1 else i - 1) j ⟨hi, hj⟩
    ⟨by split_ifs <;> omega, hj⟩ (by split_ifs <;> omega)
  intro i' j' hi' _
  rw [weldedCell_hasEdge_left nx i j i' j' hnx hi hi']
  split_ifs <;> omega

/-- C8 at coarse grids: on the 1 by 1 grid the welded cell is `[0,0,2,2]`, whose vertices
are not distinct; on the 2 by 2 grid the edge `(3,4)` of the cell `[3,4,7,6]`, which lies on
the middle row, is shared by all four cells. -/
theorem C8_counterexample_coarse_grids :
    (∃ c ∈ (Catenoid.Prefix 1 1 (Mesh.Make2D 1 1)).elements, ¬ c.v.Nodup) ∧
      (∃ c ∈ (Catenoid.Prefix 2 2 (Mesh.Make2D 2 2)).elements, ∃ e ∈ c.edges,
        onBottomRow 2 e = false ∧ onTopRow 2 2 e = false ∧
          cellsWithEdge (Catenoid.Prefix 2 2 (Mesh.Make2D 2 2)).elements e = 4) := by
  decide

/-- C8, amended: for every `nx ≥ 3` and every `ny`, and also for `nx = 2` with `ny = 1`,
in the cell list that the seam-weld renumbering of `Catenoid::Prefix` (which is that of
`Hold::Prefix`) leaves on the `nx` by `ny` grid, every cell has four distinct vertices and
every edge (pair of consecutive corners of a cell) that is not on the bottom row `j = 0` or
on the top row `j = ny` is shared by exactly two cells; this includes the seam edges
`{j*(nx+1), (j+1)*(nx+1)}`. -/
theorem C8_topology_after_weld (nx ny : Nat) (hnx : 3 ≤ nx ∨ (nx = 2 ∧ ny = 1)) :
    (∀ c ∈ (Catenoid.Prefix nx ny (Mesh.Make2D nx ny)).elements,
        c.v.length = 4 ∧ c.v.Nodup) ∧
      (∀ c ∈ (Catenoid.Prefix nx ny (Mesh.Make2D nx ny)).elements, ∀ e ∈ c.edges,
        onBottomRow nx e = false → onTopRow nx ny e = false →
          cellsWithEdge (Catenoid.Prefix nx ny (Mesh.Make2D nx ny)).elements e = 2) ∧
      (∀ j, j < ny →
        cellsWithEdge (Catenoid.Prefix nx ny (Mesh.Make2D nx ny)).elements
          (j * (nx + 1), (j + 1) * (nx + 1)) = 2) ∧
      (Hold.Prefix nx ny (Mesh.Make2D nx ny)).elements
        = (Catenoid.Prefix nx ny (Mesh.Make2D nx ny)).elements := by
  rcases hnx with hnx | ⟨rfl, rfl⟩
  · refine ⟨?_, ?_, ?_, rfl⟩ <;> rw [welded_cells]
    · intro c hc
      obtain ⟨j, hj, i, hi, rfl⟩ := (mem_welded_cells nx ny c).1 hc
      refine ⟨rfl, ?_⟩
      have hiM : i < nx + 1 := by omega
      have hsM : (if i + 1 = nx then 0 else i + 1) < nx + 1 := by split_ifs <;> omega
      simp only [weldedCell, List.nodup_cons, List.mem_cons, List.mem_singleton,
        List.not_mem_nil, List.nodup_nil, enc_inj, hiM, hsM, not_or, or_false, and_true,
        not_false_eq_true]
      split_ifs <;> omega
    · intro c hc e he hbot htop
      obtain ⟨j, hj, i, hi, rfl⟩ := (mem_welded_cells nx ny c).1 hc
      have hiM : i < nx + 1 := by omega
      have hsM : (if i + 1 = nx then 0 else i + 1) < nx + 1 := by split_ifs <;> omega
      have hny : (j + 1) * (nx + 1) ≤ ny * (nx + 1) := Nat.mul_le_mul_right _ hj
      simp only [Element.edges, weldedCell, List.rotate, List.length_cons, List.length_nil]
        at he
      simp at he
      rcases he with rfl | rfl | rfl | rfl
      · have hj0 : j ≠ 0 := by
          rintro rfl
          simp [onBottomRow, hiM, hsM] at hbot
        apply cellsWithEdge_welded nx ny _ i j i (j - 1) ⟨hi, hj⟩ ⟨hi, by omega⟩ (by omega)
        intro i' j' hi' _
        rw [weldedCell_hasEdge_bottom nx i j i' j' hnx hi hi']
        omega
      · apply cellsWithEdge_welded nx ny _ i j (if i + 1 = nx then 0 else i + 1) j ⟨hi, hj⟩
          ⟨by split_ifs <;> omega, hj⟩ (by split_ifs <;> omega)
        intro i' j' hi' _
        rw [weldedCell_hasEdge_right nx i j i' j' hnx hi hi']
      · have hjn : j + 1 ≠ ny := by
          intro h
          subst h
          simp [onTopRow] at htop
        apply cellsWithEdge_welded nx ny _ i j i (j + 1) ⟨hi, hj⟩ ⟨hi, by omega⟩ (by omega)
        intro i' j' hi' _
        rw [weldedCell_hasEdge_top nx i j i' j' hnx hi hi']
      · exact cellsWithEdge_left nx ny i j hnx hi hj
    · intro j hj
      rw [cellsWithEdge_swap]
      have h := cellsWithEdge_left nx ny 0 j hnx (by omega) hj
      simpa using h
  · decide

/-- Witness of `C8_topology_after_weld`: the 3 by 1 grid, whose welded cells are
`[0,1,5,4]`, `[1,2,6,5]` and `[2,0,4,6]`; the seam edge `(0,4)` is shared by two cells. -/
theorem C8_topology_after_weld_witness :
    (3 ≤ 3 ∨ (3 = 2 ∧ 1 = 1)) ∧
      (Catenoid.Prefix 3 1 (Mesh.Make2D 3 1)).elements.map (fun el => el.v)
        = [[0, 1, 5, 4], [1, 2, 6, 5], [2, 0, 4, 6]] ∧
      cellsWithEdge (Catenoid.Prefix 3 1 (Mesh.Make2D 3 1)).elements
        (0 * (3 + 1), (0 + 1) * (3 + 1)) = 2 :=
  ⟨Or.inl (le_refl 3), by decide,
    (C8_topology_after_weld 3 1 (Or.inl (le_refl 3))).2.2.1 0 (by decide)⟩

/-! ## Theorems: the options of `main` -/

/-- C19: for every command line, with or without the `-c` / `--components` flag, the value
of `opt.vdim` that `main` hands to the construction of the finite-element space is 3
(`opt.vdim` is assigned before the command line is parsed, when `solve_by_components` is
still `false`, and no option sets it), the flag itself does reach
`opt.solve_by_components`, and the check `vdim == opt.vdim` of the `SurfaceSolver`
constructor passes, for `ByComponent` as for `ByVector`. -/
theorem C19_vdim_is_three (args : CommandLine) :
    (main.options args).vdim = 3 ∧
      (main.options args).solve_by_components = args.solve_by_components.getD false ∧
      GenFESpace.GetVDim (main.options args) = 3 ∧
      SurfaceSolver.construct (main.options args) (GenFESpace.GetVDim (main.options args))
        = Except.ok () := by
  refine ⟨rfl, rfl, rfl, ?_⟩
  simp [SurfaceSolver.construct, GenFESpace.GetVDim]

/-! ## Theorems: snapping the nodes -/

/-- The first `k` passes of the loop of `Surface::Snap` have snapped the first `k`
entries and left the others. -/
theorem snap_fold (v : Vector) (k : Nat) :
    ((List.range k).foldl
        (fun (nodes : Vector) (i : Nat) =>
          if |Vector.entry nodes i| < EPS then nodes.set i 0 else nodes) v).length
        = v.length ∧
      ∀ n, ((List.range k).foldl
        (fun (nodes : Vector) (i : Nat) =>
          if |Vector.entry nodes i| < EPS then nodes.set i 0 else nodes) v)[n]?
        = if n < k then (v[n]?).map (fun a => if |a| < EPS then 0 else a) else v[n]? := by
  induction k with
  | zero => simp
  | succ k ih =>
    obtain ⟨ihlen, ihget⟩ := ih
    rw [List.range_succ, List.foldl_append]
    simp only [List.foldl_cons, List.foldl_nil]
    generalize (List.range k).foldl
        (fun (nodes : Vector) (i : Nat) =>
          if |Vector.entry nodes i| < EPS then nodes.set i 0 else nodes) v = l at ihlen ihget
    have hk : l[k]? = v[k]? := by rw [ihget k]; simp
    have hentry : Vector.entry l k = Vector.entry v k := by
      simp only [Vector.entry, List.getD_eq_getElem?_getD, hk]
    constructor
    · split_ifs <;> simp [ihlen]
    · intro n
      by_cases hnk : n = k
      · subst hnk
        rw [hentry]
        by_cases hlt : n < v.length
        · have hv : v[n]? = some v[n] := List.getElem?_eq_getElem hlt
          have he : Vector.entry v n = v[n] := by
            simp [Vector.entry, List.getD_eq_getElem?_getD, hv]
          rw [he, if_pos (Nat.lt_succ_self n)]
          by_cases hc : |v[n]| < EPS
          · simp [List.getElem?_set, ihlen, hlt, hv, hc]
          · simp [hk, hv, hc]
        · have hv : v[n]? = none := List.getElem?_eq_none (by omega)
          rw [if_pos (Nat.lt_succ_self n)]
          split_ifs <;> simp [List.getElem?_set, ihlen, hlt, hv, hk]
      · have hset : ∀ a, (l.set k a)[n]? = l[n]? := by
          intro a
          rw [List.getElem?_set, if_neg (Ne.symm hnk)]
        have hcur : (if |Vector.entry l k| < EPS then l.set k 0 else l)[n]? = l[n]? := by
          split_ifs
          · exact hset 0
          · rfl
        rw [hcur, ihget n]
        by_cases hlt : n < k
        · simp [hlt, show n < k + 1 by omega]
        · simp [hlt, show ¬ n < k + 1 by omega]

/-- The loop of `Surface::Snap` over a whole array snaps every entry. -/
theorem snap_loop (v : Vector) :
    (List.range v.length).foldl
        (fun (nodes : Vector) (i : Nat) =>
          if |Vector.entry nodes i| < EPS then nodes.set i 0 else nodes) v
      = v.map (fun a => if |a| < EPS then 0 else a) := by
  obtain ⟨_, hget⟩ := snap_fold v v.length
  apply List.ext_getElem?
  intro n
  rw [hget n, List.getElem?_map]
  by_cases hlt : n < v.length
  · simp [hlt]
  · simp [hlt, List.getElem?_eq_none (show v.length ≤ n by omega)]

/-- Changing the layout, applying a function to every entry and changing the layout back
is applying the function to every entry. -/
theorem toByNODES_map_toByVDIM (f : ℚ → ℚ) (ndof : Nat) (v : Vector)
    (h : v.length = SDIM * ndof) :
    toByNODES ndof ((toByVDIM ndof v).map f) = v.map f := by
  apply List.ext_getElem
  · simp [toByNODES, toByVDIM]
  · intro k h1 h2
    have hk : k < 3 * ndof := by
      simp only [List.length_map] at h2
      rw [h] at h2
      exact h2
    have hpos : 0 < ndof := by omega
    have hdiv : k / ndof < 3 := by
      rw [Nat.div_lt_iff_lt_mul hpos]
      omega
    have hmod : k % ndof < ndof := Nat.mod_lt _ hpos
    have e3 : k / ndof * ndof + k % ndof = k := by
      rw [Nat.mul_comm]
      exact Nat.div_add_mod k ndof
    have hkv : k < v.length := by
      rw [h]
      simp only [SDIM]
      exact hk
    simp only [toByNODES, toByVDIM, List.getElem_map, List.getElem_range, List.length_map,
      List.length_range, Vector.entry, List.getD_eq_getElem?_getD, List.getElem?_map,
      SDIM]
    generalize k / ndof = e at hdiv e3 ⊢
    generalize k % ndof = g at hmod e3 ⊢
    have hm : g * 3 + e < v.length := by
      rw [h]
      simp only [SDIM]
      omega
    have e1 : (g * 3 + e) % 3 = e := by omega
    have e2 : (g * 3 + e) / 3 = g := by omega
    simp [hm, e1, e2, e3, hkv]

/-- C16: for every coordinate array of `ndof` points (three entries a point), the default
`Surface::Snap` returns an array of the same length in which entry `i` is exactly 0 when
`|a_i| < 1e-14` and is `a_i` otherwise, `1e-14` being the constant `EPS` of the program (the
double `6338253001141147 / 2^99`); applying `Snap` twice gives the same array as applying it
once. -/
theorem C16_Snap_near_zero (ndof : Nat) (nodes : Vector)
    (h : nodes.length = SDIM * ndof) :
    Surface.Snap ndof nodes = nodes.map (fun a => if |a| < EPS then 0 else a) ∧
      (Surface.Snap ndof nodes).length = nodes.length ∧
      (∀ i, i < nodes.length →
        Vector.entry (Surface.Snap ndof nodes) i
          = if |Vector.entry nodes i| < EPS then 0 else Vector.entry nodes i) ∧
      Surface.Snap ndof (Surface.Snap ndof nodes) = Surface.Snap ndof nodes := by
  have hsnap : ∀ v : Vector, v.length = SDIM * ndof →
      Surface.Snap ndof v = v.map (fun a => if |a| < EPS then 0 else a) := by
    intro v hv
    unfold Surface.Snap
    simp only []
    rw [snap_loop, toByNODES_map_toByVDIM _ ndof v hv]
  have h1 := hsnap nodes h
  refine ⟨h1, ?_, ?_, ?_⟩
  · rw [h1, List.length_map]
  · intro i hi
    rw [h1]
    simp [Vector.entry, List.getD_eq_getElem?_getD, hi]
  · rw [hsnap _ (by rw [h1, List.length_map]; exact h), h1, List.map_map]
    apply List.map_congr_left
    intro a _
    simp only [Function.comp]
    by_cases hc : |a| < EPS
    · simp only [hc, if_true]
      split_ifs <;> rfl
    · simp only [hc, if_false]

/-- Witness of `C16_Snap_near_zero`: two points; the entries `1e-15` and `-1e-15` become 0,
the entry equal to the constant `EPS` itself (the double `1.e-14`) and its negative are kept,
as are the others. -/
theorem C16_Snap_near_zero_witness :
    Surface.Snap 2 [1, 1 / 1000000000000000, 6338253001141147 / 2 ^ 99,
        -1 / 1000000000000000, -6338253001141147 / 2 ^ 99, 6]
      = [1, 0, 6338253001141147 / 2 ^ 99, 0, -6338253001141147 / 2 ^ 99, 6] := by
  have h := (C16_Snap_near_zero 2
    [1, 1 / 1000000000000000, 6338253001141147 / 2 ^ 99,
      -1 / 1000000000000000, -6338253001141147 / 2 ^ 99, 6] rfl).1
  rw [h]
  norm_num [EPS, abs_lt]

/-! ## Theorems: the surfaces with an explicit topology -/

/-- The cell list that `SlottedSphere::Prefix` emits has 32 edges that exactly one cell
has. -/
theorem SlottedSphere.boundaryEdges_length :
    (boundaryEdges SlottedSphere.Prefix.elements).length = 32 := by
  set_option maxRecDepth 100000 in decide

/-- C18 as stated, evaluated: `FullPeach::Prefix` emits 6 boundary facets although no edge
of its cell list belongs to exactly one cell, and `SlottedSphere::Prefix` emits no boundary
facet although 32 edges of its cell list belong to exactly one cell. -/
theorem C18_counterexample_boundary_counts :
    FullPeach.Prefix.boundary.length ≠ (boundaryEdges FullPeach.Prefix.elements).length ∧
      SlottedSphere.Prefix.boundary.length
        ≠ (boundaryEdges SlottedSphere.Prefix.elements).length := by
  rw [SlottedSphere.boundaryEdges_length]
  decide

/-- C18, amended: the cell list that `FullPeach::Prefix` emits is closed, every edge
belongs to exactly two cells and none is a topological boundary edge; `SlottedSphere::Prefix`
declares and emits no boundary facet, while its cell list has 32 topological boundary edges
(the boundary elements are left to the finalization of the mesh). -/
theorem C18_boundary_of_explicit_topologies :
    boundaryEdges FullPeach.Prefix.elements = [] ∧
      (∀ e ∈ edgesOf FullPeach.Prefix.elements,
        cellsWithEdge FullPeach.Prefix.elements e = 2) ∧
      SlottedSphere.Prefix.NBdrElem = 0 ∧
      SlottedSphere.Prefix.boundary = [] ∧
      (boundaryEdges SlottedSphere.Prefix.elements).length = 32 := by
  refine ⟨by decide, by decide, by decide, by decide, SlottedSphere.boundaryEdges_length⟩

/-! ## Theorems: the cells of the Costa surface -/

/-- The inner loop of the element loop of `Costa::Prefix` appends the cells of row `j` that
are not skipped, in the order of the columns. -/
theorem Costa.inner_fold (nx ny j : Nat) (l : List Nat) (m : Mesh) :
    l.foldl (fun (m : Mesh) (i : Nat) =>
        if Costa.skip nx ny i j then m
        else
          let i0 := i + j * (nx + 1)
          let i1 := i + 1 + j * (nx + 1)
          let i2 := i + 1 + (j + 1) * (nx + 1)
          let i3 := i + (j + 1) * (nx + 1)
          Mesh.AddQuad [i0, i1, i2, i3] 1 m) m
      = { m with elements := m.elements ++
            (l.filter (fun i => !Costa.skip nx ny i j)).map (fun i => Costa.cell nx i j) } := by
  induction l generalizing m with
  | nil => simp
  | cons i t ih =>
    rw [List.foldl_cons, ih]
    by_cases hs : Costa.skip nx ny i j = true
    · simp [hs]
    · simp [hs, Mesh.AddQuad, Costa.cell, List.append_assoc]

/-- The element loop of `Costa::Prefix` appends the cells that are not skipped, row after
row. -/
theorem Costa.outer_fold (nx ny : Nat) (rows : List Nat) (m : Mesh) :
    rows.foldl (fun (m : Mesh) (j : Nat) =>
        (List.range nx).foldl (fun (m : Mesh) (i : Nat) =>
          if Costa.skip nx ny i j then m
          else
            let i0 := i + j * (nx + 1)
            let i1 := i + 1 + j * (nx + 1)
            let i2 := i + 1 + (j + 1) * (nx + 1)
            let i3 := i + (j + 1) * (nx + 1)
            Mesh.AddQuad [i0, i1, i2, i3] 1 m) m) m
      = { m with elements := m.elements ++
            rows.flatMap (fun j =>
              ((List.range nx).filter (fun i => !Costa.skip nx ny i j)).map
                (fun i => Costa.cell nx i j)) } := by
  induction rows generalizing m with
  | nil => simp
  | cons j t ih =>
    rw [List.foldl_cons, Costa.inner_fold, ih]
    simp [List.append_assoc]

/-- The vertex loop of `Costa::Prefix` adds no cell and keeps the declared sizes. -/
theorem Costa.vertex_fold (nx ny : ℤ) (rows cols : List Nat) (m : Mesh) :
    (rows.foldl (fun (m : Mesh) (j : Nat) =>
        let cy : ℚ := (j : ℚ) / ny
        cols.foldl (fun (m : Mesh) (i : Nat) =>
          let cx : ℚ := (i : ℚ) / nx
          Mesh.AddVertex [cx, cy, 0] m) m) m).elements = m.elements ∧
      (rows.foldl (fun (m : Mesh) (j : Nat) =>
        let cy : ℚ := (j : ℚ) / ny
        cols.foldl (fun (m : Mesh) (i : Nat) =>
          let cx : ℚ := (i : ℚ) / nx
          Mesh.AddVertex [cx, cy, 0] m) m) m).NElem = m.NElem := by
  have inner : ∀ (cy : ℚ) (cols : List Nat) (m : Mesh),
      (cols.foldl (fun (m : Mesh) (i : Nat) =>
          Mesh.AddVertex [(i : ℚ) / nx, cy, 0] m) m).elements = m.elements ∧
        (cols.foldl (fun (m : Mesh) (i : Nat) =>
          Mesh.AddVertex [(i : ℚ) / nx, cy, 0] m) m).NElem = m.NElem := by
    intro cy cols
    induction cols with
    | nil => intro m; exact ⟨rfl, rfl⟩
    | cons i t ih =>
      intro m
      rw [List.foldl_cons]
      exact ih _
  induction rows generalizing m with
  | nil => exact ⟨rfl, rfl⟩
  | cons j t ih =>
    rw [List.foldl_cons]
    obtain ⟨h1, h2⟩ := ih (cols.foldl (fun (m : Mesh) (i : Nat) =>
          Mesh.AddVertex [(i : ℚ) / nx, (j : ℚ) / ny, 0] m) m)
    obtain ⟨h3, h4⟩ := inner ((j : ℚ) / ny) cols m
    exact ⟨h1.trans h3, h2.trans h4⟩

/-- The cells and the declared number of cells that `Costa::Prefix` leaves when the
resolution check passes. -/
theorem Costa.Prefix_elements (opt : Opt) (m : Mesh) (hx : 2 < opt.nx) (hy : 2 < opt.ny) :
    (Costa.Prefix opt m).2.elements
        = (List.range opt.ny.toNat).flatMap (fun j =>
            ((List.range opt.nx.toNat).filter
              (fun i => !Costa.skip opt.nx.toNat opt.ny.toNat i j)).map
              (fun i => Costa.cell opt.nx.toNat i j)) ∧
      (Costa.Prefix opt m).2.NElem
        = opt.nx * opt.ny - 4
          - ((if opt.nx % 2 = 0 then 4 else 2) + (if opt.ny % 2 = 0 then 4 else 2)) := by
  have hgt : opt.nx > 2 ∧ opt.ny > 2 := ⟨hx, hy⟩
  unfold Costa.Prefix
  simp only [if_neg (not_not.mpr hgt)]
  rw [Costa.outer_fold]
  obtain ⟨h1, h2⟩ := Costa.vertex_fold opt.nx opt.ny (List.range (opt.ny + 1).toNat)
    (List.range (opt.nx + 1).toNat)
    (Mesh.InitMesh ((opt.nx + 1) * (opt.ny + 1))
      (opt.nx * opt.ny - 4
        - ((if opt.nx % 2 = 0 then 4 else 2) + (if opt.ny % 2 = 0 then 4 else 2))) 0)
  simp only [] at h1 h2
  constructor
  · simp only [h1]
    simp [Mesh.InitMesh]
  · simp only [h2]
    simp [Mesh.InitMesh]

/-- Among the first `n` naturals, a predicate that holds exactly at the members of a list
without repetition holds as many times as the list is long. -/
theorem countP_range_eq_length (n : Nat) (p : Nat → Bool) (S : List Nat) (hS : S.Nodup)
    (hlt : ∀ i ∈ S, i < n) (h : ∀ i, i < n → (p i = true ↔ i ∈ S)) :
    (List.range n).countP p = S.length := by
  rw [List.countP_eq_length_filter]
  have hnd : ((List.range n).filter p).Nodup := (List.nodup_range n).filter _
  rw [← List.toFinset_card_of_nodup hnd, ← List.toFinset_card_of_nodup hS]
  congr 1
  ext x
  simp only [List.mem_toFinset, List.mem_filter, List.mem_range]
  constructor
  · rintro ⟨hx, hpx⟩
    exact (h x hx).1 hpx
  · intro hx
    exact ⟨hlt x hx, (h x (hlt x hx)).2 hx⟩

/-- The test of `Costa::Prefix` in words: the cell is skipped when it lies in the first or
last row and in the first, last or a middle column, or in the first or last column and in
a middle row. -/
theorem Costa.skip_iff (nx ny i j : Nat) :
    Costa.skip nx ny i j = true ↔
      ((j = 0 ∨ j + 1 = ny) ∧
          ((i = 0 ∨ i + 1 = nx) ∨ ((nx : Int) - (2 * i : Nat) - 1).natAbs ≤ 1)) ∨
        ((i = 0 ∨ i + 1 = nx) ∧ ((ny : Int) - (2 * j : Nat) - 1).natAbs ≤ 1) := by
  simp only [Costa.skip, Bool.or_eq_true, Bool.and_eq_true, beq_iff_eq, decide_eq_true_eq]
  tauto

/-- The number of skipped cells in row `j` of the `nx` by `ny` grid. -/
theorem Costa.skipped_in_row (nx ny j : Nat) (hx : 3 ≤ nx) (hy : 3 ≤ ny) :
    (List.range nx).countP (fun i => Costa.skip nx ny i j)
      = (if j = 0 ∨ j + 1 = ny then 2 + (if nx % 2 = 0 then 2 else 1) else 0)
        + (if ((ny : Int) - (2 * j : Nat) - 1).natAbs ≤ 1 then 2 else 0) := by
  by_cases hE : j = 0 ∨ j + 1 = ny
  · have hM : ¬ ((ny : Int) - (2 * j : Nat) - 1).natAbs ≤ 1 := by omega
    rw [if_pos hE, if_neg hM]
    by_cases hpar : nx % 2 = 0
    · rw [if_pos hpar]
      rw [countP_range_eq_length nx _ [0, nx - 1, nx / 2 - 1, nx / 2]]
      · rfl
      · simp only [List.nodup_cons, List.mem_cons, List.mem_singleton, List.not_mem_nil,
          List.nodup_nil, not_or, or_false, and_true, not_false_eq_true]
        omega
      · intro i hi
        simp only [List.mem_cons, List.mem_singleton, List.not_mem_nil, or_false] at hi
        omega
      · intro i hi
        simp only [Costa.skip_iff, hE, hM, true_and, and_false, or_false, List.mem_cons,
          List.mem_singleton, List.not_mem_nil]
        constructor <;> intro h <;> omega
    · rw [if_neg hpar]
      rw [countP_range_eq_length nx _ [0, nx - 1, nx / 2]]
      · rfl
      · simp only [List.nodup_cons, List.mem_cons, List.mem_singleton, List.not_mem_nil,
          List.nodup_nil, not_or, or_false, and_true, not_false_eq_true]
        omega
      · intro i hi
        simp only [List.mem_cons, List.mem_singleton, List.not_mem_nil, or_false] at hi
        omega
      · intro i hi
        simp only [Costa.skip_iff, hE, hM, true_and, and_false, or_false, List.mem_cons,
          List.mem_singleton, List.not_mem_nil]
        constructor <;> intro h <;> omega
  · rw [if_neg hE]
    by_cases hM : ((ny : Int) - (2 * j : Nat) - 1).natAbs ≤ 1
    · rw [if_pos hM]
      rw [countP_range_eq_length nx _ [0, nx - 1]]
      · rfl
      · simp only [List.nodup_cons, List.mem_cons, List.mem_singleton, List.not_mem_nil,
          List.nodup_nil, not_or, or_false, and_true, not_false_eq_true]
        omega
      · intro i hi
        simp only [List.mem_cons, List.mem_singleton, List.not_mem_nil, or_false] at hi
        omega
      · intro i hi
        simp only [Costa.skip_iff, hE, hM, false_and, and_true, false_or, List.mem_cons,
          List.mem_singleton, List.not_mem_nil, or_false]
        constructor <;> intro h <;> omega
    · rw [if_neg hM]
      rw [countP_range_eq_length nx _ []]
      · rfl
      · exact List.nodup_nil
      · intro i hi
        exact absurd hi (List.not_mem_nil i)
      · intro i hi
        simp only [Costa.skip_iff, hE, hM, false_and, and_false, or_false, List.not_mem_nil]

/-- Summing over rows a quantity that misses `A` in the rows where `p` holds and `B` in the
rows where `q` holds to be `N`. -/
theorem sum_rows (l : List Nat) (g : Nat → Nat) (p q : Nat → Bool) (N A B : Nat)
    (h : ∀ j ∈ l, g j + ((if p j = true then A else 0) + (if q j = true then B else 0)) = N) :
    (l.map g).sum + (A * l.countP p + B * l.countP q) = N * l.length := by
  induction l with
  | nil => simp
  | cons j t ih =>
    have hj := h j (List.mem_cons_self j t)
    have ht := ih (fun k hk => h k (List.mem_cons_of_mem j hk))
    simp only [List.map_cons, List.sum_cons, List.countP_cons, List.length_cons]
    have e1 : N * (t.length + 1) = N * t.length + N := by ring
    rw [e1]
    by_cases hp : p j = true <;> by_cases hq : q j = true <;>
      simp only [hp, hq, if_true, if_false, Nat.mul_add, Nat.mul_one, Nat.add_zero,
        Nat.mul_zero, Bool.false_eq_true] at hj ⊢ <;> omega

/-- The number of cells that the element loop of `Costa::Prefix` adds on the `nx` by `ny`
grid. -/
theorem Costa.added_count (nx ny : Nat) (hx : 3 ≤ nx) (hy : 3 ≤ ny) :
    ((List.range ny).flatMap (fun j =>
        ((List.range nx).filter (fun i => !Costa.skip nx ny i j)).map
          (fun i => Costa.cell nx i j))).length
      + (4 + (if nx % 2 = 0 then 4 else 2) + (if ny % 2 = 0 then 4 else 2)) = nx * ny := by
  have hlen : ((List.range ny).flatMap (fun j =>
        ((List.range nx).filter (fun i => !Costa.skip nx ny i j)).map
          (fun i => Costa.cell nx i j))).length
      = ((List.range ny).map (fun j =>
          (List.range nx).countP (fun i => !Costa.skip nx ny i j))).sum := by
    rw [List.length_flatMap]
    congr 1
    apply List.map_congr_left
    intro j _
    simp only [Function.comp, List.length_map, List.countP_eq_length_filter]
  have hrow : ∀ j ∈ List.range ny,
      (List.range nx).countP (fun i => !Costa.skip nx ny i j)
        + ((if decide (j = 0 ∨ j + 1 = ny) = true then 2 + (if nx % 2 = 0 then 2 else 1)
            else 0)
          + (if decide (((ny : Int) - (2 * j : Nat) - 1).natAbs ≤ 1) = true then 2 else 0))
        = nx := by
    intro j _
    have h1 := Costa.skipped_in_row nx ny j hx hy
    have h2 := List.length_eq_countP_add_countP (fun i => Costa.skip nx ny i j)
      (List.range nx)
    have h3 : (List.range nx).countP (fun i => !Costa.skip nx ny i j)
        = (List.range nx).countP (fun i => decide ¬ (Costa.skip nx ny i j = true)) := by
      congr 1
      funext i
      cases Costa.skip nx ny i j <;> rfl
    rw [List.length_range] at h2
    simp only [decide_eq_true_eq]
    rw [h3]
    omega
  have hsum := sum_rows (List.range ny) _ _ _ nx
    (2 + (if nx % 2 = 0 then 2 else 1)) 2 hrow
  have hE : (List.range ny).countP (fun j => decide (j = 0 ∨ j + 1 = ny)) = 2 := by
    rw [countP_range_eq_length ny _ [0, ny - 1]]
    · rfl
    · simp only [List.nodup_cons, List.mem_singleton, List.not_mem_nil, List.nodup_nil,
        and_true, not_false_eq_true]
      omega
    · intro i hi
      simp only [List.mem_cons, List.mem_singleton, List.not_mem_nil, or_false] at hi
      omega
    · intro i hi
      simp only [decide_eq_true_eq, List.mem_cons, List.mem_singleton, List.not_mem_nil,
        or_false]
      omega
  have hM : (List.range ny).countP
      (fun j => decide (((ny : Int) - (2 * j : Nat) - 1).natAbs ≤ 1))
      = if ny % 2 = 0 then 2 else 1 := by
    by_cases hpar : ny % 2 = 0
    · rw [if_pos hpar, countP_range_eq_length ny _ [ny / 2 - 1, ny / 2]]
      · rfl
      · simp only [List.nodup_cons, List.mem_singleton, List.not_mem_nil, List.nodup_nil,
          and_true, not_false_eq_true]
        omega
      · intro i hi
        simp only [List.mem_cons, List.mem_singleton, List.not_mem_nil, or_false] at hi
        omega
      · intro i hi
        simp only [decide_eq_true_eq, List.mem_cons, List.mem_singleton, List.not_mem_nil,
          or_false]
        constructor <;> intro h <;> omega
    · rw [if_neg hpar, countP_range_eq_length ny _ [ny / 2]]
      · rfl
      · exact List.nodup_singleton _
      · intro i hi
        simp only [List.mem_singleton] at hi
        omega
      · intro i hi
        simp only [decide_eq_true_eq, List.mem_singleton]
        constructor <;> intro h <;> omega
  rw [hE, hM, List.length_range] at hsum
  rw [hlen]
  split_ifs at hsum ⊢ <;> omega

/-- C20: for every `nx > 2` and `ny > 2`, `Costa::Prefix` passes its check and the quads
it adds are the cells of the grid that its test does not skip (the four corners and the
cells next to the middle of the four sides are skipped); their number is
`nx*ny - 4 - nxh` with `nxh = (nx even ? 4 : 2) + (ny even ? 4 : 2)`, which is the capacity
`NElem` it declares to `InitMesh`; and every vertex index of every added quad is below
`(nx+1)*(ny+1)`. -/
theorem C20_Costa_cell_count (opt : Opt) (m : Mesh) (hx : 2 < opt.nx) (hy : 2 < opt.ny) :
    (Costa.Prefix opt m).1 = Except.ok () ∧
      (Costa.Prefix opt m).2.elements
        = (List.range opt.ny.toNat).flatMap (fun j =>
            ((List.range opt.nx.toNat).filter
              (fun i => !Costa.skip opt.nx.toNat opt.ny.toNat i j)).map
              (fun i => Costa.cell opt.nx.toNat i j)) ∧
      ((Costa.Prefix opt m).2.elements.length : Int)
        = opt.nx * opt.ny - 4
          - ((if opt.nx % 2 = 0 then 4 else 2) + (if opt.ny % 2 = 0 then 4 else 2)) ∧
      ((Costa.Prefix opt m).2.elements.length : Int) = (Costa.Prefix opt m).2.NElem ∧
      (∀ el ∈ (Costa.Prefix opt m).2.elements, ∀ r ∈ el.v,
        (r : Int) < (opt.nx + 1) * (opt.ny + 1)) := by
  obtain ⟨hel, hNE⟩ := Costa.Prefix_elements opt m hx hy
  obtain ⟨nx, hnx⟩ : ∃ nx : Nat, opt.nx = (nx : Int) := ⟨opt.nx.toNat, by omega⟩
  obtain ⟨ny, hny⟩ : ∃ ny : Nat, opt.ny = (ny : Int) := ⟨opt.ny.toNat, by omega⟩
  have hx3 : 3 ≤ nx := by omega
  have hy3 : 3 ≤ ny := by omega
  have hcount := Costa.added_count nx ny hx3 hy3
  have hmul : ((nx * ny : Nat) : Int) = (nx : Int) * (ny : Int) := by push_cast; ring
  have hlen : ((Costa.Prefix opt m).2.elements.length : Int)
      = opt.nx * opt.ny - 4
        - ((if opt.nx % 2 = 0 then 4 else 2) + (if opt.ny % 2 = 0 then 4 else 2)) := by
    rw [hel, hnx, hny]
    simp only [Int.toNat_ofNat]
    rw [← hmul, ← hcount]
    split_ifs <;> omega
  refine ⟨?_, hel, hlen, ?_, ?_⟩
  · unfold Costa.Prefix
    simp only [if_neg (not_not.mpr (⟨hx, hy⟩ : opt.nx > 2 ∧ opt.ny > 2))]
  · rw [hlen, hNE]
  · intro el hel' r hr
    rw [hel, hnx, hny] at hel'
    simp only [Int.toNat_ofNat, List.mem_flatMap, List.mem_map, List.mem_filter,
      List.mem_range] at hel'
    obtain ⟨j, hj, i, ⟨hi, _⟩, rfl⟩ := hel'
    rw [hnx, hny]
    have h1 : (j + 1) * (nx + 1) ≤ ny * (nx + 1) := Nat.mul_le_mul_right _ hj
    have h2 : j * (nx + 1) ≤ (j + 1) * (nx + 1) := Nat.mul_le_mul_right _ (Nat.le_succ j)
    have h3 : ((nx : Int) + 1) * ((ny : Int) + 1) = ((ny * (nx + 1) + (nx + 1) : Nat) : Int) := by
      push_cast
      ring
    rw [h3]
    simp only [Costa.cell, List.mem_cons, List.mem_singleton, List.not_mem_nil,
      or_false] at hr
    omega

/-- Witness of `C20_Costa_cell_count`: on the 4 by 5 grid `Costa::Prefix` adds
`4*5 - 4 - (4 + 2) = 10` quads. -/
theorem C20_Costa_cell_count_witness :
    ((Costa.Prefix { nx := 4, ny := 5 } {}).2.elements.length : Int) = 10 ∧
      (Costa.Prefix { nx := 4, ny := 5 } {}).2.NElem = 10 :=
  ⟨(C20_Costa_cell_count { nx := 4, ny := 5 } {} (by decide) (by decide)).2.2.1,
    ((C20_Costa_cell_count { nx := 4, ny := 5 } {} (by decide) (by decide)).2.2.2.1).symm.trans
      (C20_Costa_cell_count { nx := 4, ny := 5 } {} (by decide) (by decide)).2.2.1⟩

/-! ## Theorems: the snap to the unit sphere -/

/-- One pass of the loop of `SnapToUnitSphere`: the three coordinates of point `i` are
divided by the norm of the point. -/
theorem SnapToUnitSphere_body (ndof i : Nat) (nodes : List ℝ) :
    (let node : List ℝ := (List.range SDIM).map (fun d => nodes.getD (d * ndof + i) 0)
      let nrm := Real.sqrt ((node.map (fun a => a * a)).sum)
      let node := node.map (fun a => a / nrm)
      (List.range SDIM).foldl
        (fun (nodes : List ℝ) (d : Nat) => nodes.set (d * ndof + i) (node.getD d 0)) nodes)
      = ((nodes.set i (nodes.getD i 0 / pointNorm ndof nodes i)).set
          (ndof + i) (nodes.getD (ndof + i) 0 / pointNorm ndof nodes i)).set
          (2 * ndof + i) (nodes.getD (2 * ndof + i) 0 / pointNorm ndof nodes i) := by
  simp [SDIM, List.range_succ, pointNorm]

/-- Reading an entry after an entry has been written. -/
theorem getD_set_real (l : List ℝ) (a n : Nat) (x : ℝ) :
    (l.set a x).getD n 0 = if a = n ∧ n < l.length then x else l.getD n 0 := by
  rw [List.getD_eq_getElem?_getD, List.getElem?_set, List.getD_eq_getElem?_getD]
  by_cases h : a = n
  · subst h
    by_cases hl : a < l.length
    · simp [hl]
    · simp [hl, List.getElem?_eq_none (show l.length ≤ a by omega)]
  · simp [h]

/-- The first `k` passes of the loop of `SnapToUnitSphere` have normalised the first `k`
points and left the others. -/
theorem SnapToUnitSphere_fold (ndof k : Nat) (v : List ℝ) (hlen : v.length = SDIM * ndof)
    (hk : k ≤ ndof) :
    ((List.range k).foldl
        (fun (nodes : List ℝ) (i : Nat) =>
          let node : List ℝ := (List.range SDIM).map (fun d => nodes.getD (d * ndof + i) 0)
          let nrm := Real.sqrt ((node.map (fun a => a * a)).sum)
          let node := node.map (fun a => a / nrm)
          (List.range SDIM).foldl
            (fun (nodes : List ℝ) (d : Nat) => nodes.set (d * ndof + i) (node.getD d 0))
            nodes) v).length = v.length ∧
      ∀ d i, d < 3 → i < ndof →
        ((List.range k).foldl
          (fun (nodes : List ℝ) (i : Nat) =>
            let node : List ℝ :=
              (List.range SDIM).map (fun d => nodes.getD (d * ndof + i) 0)
            let nrm := Real.sqrt ((node.map (fun a => a * a)).sum)
            let node := node.map (fun a => a / nrm)
            (List.range SDIM).foldl
              (fun (nodes : List ℝ) (d : Nat) => nodes.set (d * ndof + i) (node.getD d 0))
              nodes) v).getD (d * ndof + i) 0
          = if i < k then v.getD (d * ndof + i) 0 / pointNorm ndof v i
            else v.getD (d * ndof + i) 0 := by
  induction k with
  | zero => simp
  | succ k ih =>
    obtain ⟨ihlen, ihget⟩ := ih (by omega)
    rw [List.range_succ, List.foldl_append]
    simp only [List.foldl_cons, List.foldl_nil]
    rw [SnapToUnitSphere_body]
    generalize (List.range k).foldl
          (fun (nodes : List ℝ) (i : Nat) =>
            let node : List ℝ :=
              (List.range SDIM).map (fun d => nodes.getD (d * ndof + i) 0)
            let nrm := Real.sqrt ((node.map (fun a => a * a)).sum)
            let node := node.map (fun a => a / nrm)
            (List.range SDIM).foldl
              (fun (nodes : List ℝ) (d : Nat) => nodes.set (d * ndof + i) (node.getD d 0))
              nodes) v = l at ihlen ihget
    have hkn : k < ndof := by omega
    have h0 := ihget 0 k (by omega) hkn
    have h1 := ihget 1 k (by omega) hkn
    have h2 := ihget 2 k (by omega) hkn
    simp only [Nat.lt_irrefl, if_false, Nat.zero_mul, Nat.zero_add, Nat.one_mul] at h0 h1 h2
    have hnorm : pointNorm ndof l k = pointNorm ndof v k := by
      simp only [pointNorm, h0, h1, h2]
    rw [hnorm, h0, h1, h2]
    have hl3 : l.length = 3 * ndof := by rw [ihlen, hlen]; rfl
    constructor
    · simp [ihlen]
    · intro d i hd hi
      have hget := ihget d i hd hi
      simp only [getD_set_real, List.length_set, hl3]
      interval_cases d
      · simp only [Nat.zero_mul, Nat.zero_add] at hget ⊢
        by_cases hik : i = k
        · subst hik
          simp [show ¬ (2 * ndof + i = i) by omega, show ¬ (ndof + i = i) by omega,
            show i < 3 * ndof by omega]
        · rw [if_neg (by omega), if_neg (by omega), if_neg (by omega), hget]
          by_cases hlt : i < k
          · simp [hlt, show i < k + 1 by omega]
          · simp [hlt, show ¬ i < k + 1 by omega]
      · simp only [Nat.one_mul] at hget ⊢
        by_cases hik : i = k
        · subst hik
          simp [show ¬ (2 * ndof + i = ndof + i) by omega, show ndof + i < 3 * ndof by omega]
        · rw [if_neg (by omega), if_neg (by omega), if_neg (by omega), hget]
          by_cases hlt : i < k
          · simp [hlt, show i < k + 1 by omega]
          · simp [hlt, show ¬ i < k + 1 by omega]
      · by_cases hik : i = k
        · subst hik
          simp [show 2 * ndof + i < 3 * ndof by omega]
        · rw [if_neg (by omega), if_neg (by omega), if_neg (by omega), hget]
          by_cases hlt : i < k
          · simp [hlt, show i < k + 1 by omega]
          · simp [hlt, show ¬ i < k + 1 by omega]

/-- The norm of a point divided by its own non-zero norm is one. -/
theorem sqrt_normalised (x y z : ℝ) (h : ¬ (x = 0 ∧ y = 0 ∧ z = 0)) :
    0 < Real.sqrt (x * x + (y * y + z * z)) ∧
      Real.sqrt (x / Real.sqrt (x * x + (y * y + z * z))
          * (x / Real.sqrt (x * x + (y * y + z * z)))
        + (y / Real.sqrt (x * x + (y * y + z * z))
            * (y / Real.sqrt (x * x + (y * y + z * z)))
          + z / Real.sqrt (x * x + (y * y + z * z))
            * (z / Real.sqrt (x * x + (y * y + z * z))))) = 1 := by
  have hpos : 0 < x * x + (y * y + z * z) := by
    by_contra hc
    have hx := mul_self_nonneg x
    have hy := mul_self_nonneg y
    have hz := mul_self_nonneg z
    have e0 : x * x = 0 := by linarith
    have e1 : y * y = 0 := by linarith
    have e2 : z * z = 0 := by linarith
    exact h ⟨mul_self_eq_zero.mp e0, mul_self_eq_zero.mp e1, mul_self_eq_zero.mp e2⟩
  have hs : 0 < Real.sqrt (x * x + (y * y + z * z)) := Real.sqrt_pos.mpr hpos
  refine ⟨hs, ?_⟩
  have hsq : Real.sqrt (x * x + (y * y + z * z)) * Real.sqrt (x * x + (y * y + z * z))
      = x * x + (y * y + z * z) := Real.mul_self_sqrt hpos.le
  have : x / Real.sqrt (x * x + (y * y + z * z))
          * (x / Real.sqrt (x * x + (y * y + z * z)))
        + (y / Real.sqrt (x * x + (y * y + z * z))
            * (y / Real.sqrt (x * x + (y * y + z * z)))
          + z / Real.sqrt (x * x + (y * y + z * z))
            * (z / Real.sqrt (x * x + (y * y + z * z)))) = 1 := by
    generalize Real.sqrt (x * x + (y * y + z * z)) = s at hs hsq
    field_simp
    linarith
  rw [this, Real.sqrt_one]

/-- C17: for an array of `ndof` points stored component after component in which no point
is the origin, `SnapToUnitSphere` keeps the length of the array (hence the number of
points), and afterwards every point has Euclidean norm 1 and is a positive multiple of its
previous position. -/
theorem C17_SnapToUnitSphere_normalises (ndof : Nat) (nodes : List ℝ)
    (hlen : nodes.length = SDIM * ndof)
    (hnz : ∀ i, i < ndof → ¬ (nodes.getD i 0 = 0 ∧ nodes.getD (ndof + i) 0 = 0
      ∧ nodes.getD (2 * ndof + i) 0 = 0)) :
    (Surface.SnapToUnitSphere ndof nodes).length = nodes.length ∧
      ∀ i, i < ndof →
        pointNorm ndof (Surface.SnapToUnitSphere ndof nodes) i = 1 ∧
        ∃ c : ℝ, 0 < c ∧ ∀ d, d < SDIM →
          (Surface.SnapToUnitSphere ndof nodes).getD (d * ndof + i) 0
            = c * nodes.getD (d * ndof + i) 0 := by
  obtain ⟨hl, hg⟩ := SnapToUnitSphere_fold ndof ndof nodes hlen le_rfl
  refine ⟨hl, ?_⟩
  intro i hi
  have h0 := hg 0 i (by omega) hi
  have h1 := hg 1 i (by omega) hi
  have h2 := hg 2 i (by omega) hi
  simp only [hi, if_true, Nat.zero_mul, Nat.zero_add, Nat.one_mul] at h0 h1 h2
  obtain ⟨hpos, hone⟩ := sqrt_normalised _ _ _ (hnz i hi)
  constructor
  · unfold pointNorm Surface.SnapToUnitSphere
    rw [h0, h1, h2]
    exact hone
  · refine ⟨1 / pointNorm ndof nodes i, one_div_pos.mpr hpos, ?_⟩
    intro d hd
    have hd3 : d < 3 := hd
    unfold Surface.SnapToUnitSphere
    rw [hg d i hd3 hi, if_pos hi]
    ring

/-- C17 at one point: the point (3, 0, 4) is moved to a point of norm 1 on the same ray. -/
theorem C17_SnapToUnitSphere_normalises_witness :
    ([3, 0, 4] : List ℝ).length = SDIM * 1 ∧
      ((Surface.SnapToUnitSphere 1 [3, 0, 4]).length = ([3, 0, 4] : List ℝ).length ∧
      ∀ i, i < 1 →
        pointNorm 1 (Surface.SnapToUnitSphere 1 [3, 0, 4]) i = 1 ∧
        ∃ c : ℝ, 0 < c ∧ ∀ d, d < SDIM →
          (Surface.SnapToUnitSphere 1 [3, 0, 4]).getD (d * 1 + i) 0
            = c * ([3, 0, 4] : List ℝ).getD (d * 1 + i) 0) :=
  ⟨rfl, C17_SnapToUnitSphere_normalises 1 [3, 0, 4] rfl (by
    intro i hi
    have : i = 0 := by omega
    subst this
    norm_num)⟩

/-! ## Theorems: the solver by components against the solver by vector -/

/-- A loop that writes `f i` at the position `off + i` for `i < k` replaces a block of the
array by the values of `f`. -/
theorem foldl_set_block (pre mid post : List ℚ) (f : Nat → ℚ) (off : Nat)
    (hoff : off = pre.length) :
    (List.range mid.length).foldl (fun (acc : List ℚ) (i : Nat) => acc.set (off + i) (f i))
        (pre ++ mid ++ post)
      = pre ++ (List.range mid.length).map f ++ post := by
  subst hoff
  have key : ∀ k, k ≤ mid.length →
      (List.range k).foldl (fun (acc : List ℚ) (i : Nat) => acc.set (pre.length + i) (f i))
          (pre ++ mid ++ post)
        = (pre ++ (List.range k).map f) ++ (mid.drop k ++ post) := by
    intro k
    induction k with
    | zero => intro _; simp
    | succ k ih =>
      intro hk
      rw [List.range_succ, List.foldl_append, ih (by omega)]
      simp only [List.foldl_cons, List.foldl_nil, List.map_append, List.map_cons,
        List.map_nil]
      rw [List.set_append_right _ _ (by simp)]
      have e : pre.length + k - (pre ++ List.map f (List.range k)).length = 0 := by simp
      rw [e, List.drop_eq_getElem_cons (show k < mid.length by omega)]
      simp only [List.cons_append, List.set_cons_zero, List.append_assoc,
        List.singleton_append, List.nil_append]
  rw [key mid.length le_rfl]
  simp

/-- Reading the entries of a block of an array gives the block. -/
theorem map_entry_block (pre mid post : List ℚ) (off : Nat) (hoff : off = pre.length) :
    (List.range mid.length).map (fun i => Vector.entry (pre ++ mid ++ post) (off + i))
      = mid := by
  subst hoff
  apply List.ext_getElem?
  intro n
  by_cases hn : n < mid.length
  · simp [hn, Vector.entry, List.getD_eq_getElem?_getD, List.getElem?_append, List.getElem?_range]
  · have hle : mid.length ≤ n := by omega
    rw [List.getElem?_eq_none hle, List.getElem?_eq_none (by simpa using hle)]

/-- The blockwise solve of an array that starts with a block `mid` of `n` entries starts with
the scalar solve of `mid`. -/
theorem blockSolve_head (L : LinearSolve) (n : Nat) (a mid rest : List ℚ)
    (h : mid.length = n) :
    blockSolve L n a (mid ++ rest)
      = L a mid ++ (L a (rest.take n) ++ L a ((rest.drop n).take n)) := by
  subst h
  have hb : ∀ x : List ℚ, blockSolve L mid.length a x
      = L a (x.take mid.length) ++ L a ((x.drop mid.length).take mid.length)
        ++ L a ((x.drop (2 * mid.length)).take mid.length) := by
    intro x
    simp [blockSolve, List.range_succ, List.flatMap]
  rw [hb, List.take_left', List.drop_left', two_mul, ← List.drop_drop, List.drop_left',
    List.append_assoc]
  all_goals rfl

/-- The function `ByComponent::component` with the blockwise solve, on a node array cut into
the block it works on and what stands before and after, and a grid function `x` cut into its
first `ndof` entries and the rest: the block of the node array is replaced by its scalar
solve. -/
theorem ByComponent.component_spec (L : LinearSolve) (opt : Opt) (c N : Nat)
    (s : SurfaceSolver) (pre mid post xa xr : List ℚ)
    (hl : opt.lambda = 0) (hr : opt.radial = false) (hN : s.ndof = N)
    (hx : s.x = xa ++ xr) (hxa : xa.length = N) (hmid : mid.length = N)
    (hoff : c * N = pre.length) (hn : s.nodes = pre ++ mid ++ post)
    (hL : (L s.a mid).length = mid.length) :
    ByComponent.component (blockSolve L N) opt c s
      = (.ok (Converged (rnormSq (mid ++ xr) (blockSolve L N s.a (mid ++ xr)))),
          { nodes := pre ++ L s.a mid ++ post, x := blockSolve L N s.a (mid ++ xr),
            x0 := mid ++ xr, a := s.a, ndof := N }) := by
  subst hN
  have hget : (List.range s.ndof).foldl
      (fun (xi : List ℚ) (i : Nat) => xi.set i (Vector.entry s.nodes (c * s.ndof + i))) s.x
      = mid ++ xr := by
    have h := foldl_set_block [] xa xr
      (fun i => Vector.entry s.nodes (c * s.ndof + i)) 0 rfl
    simp only [List.nil_append, Nat.zero_add, hxa] at h
    rw [hx, h, hn, ← hmid]
    rw [map_entry_block pre mid post _ (by rw [hmid]; exact hoff)]
  have hset : (List.range s.ndof).foldl
      (fun (nd : List ℚ) (i : Nat) =>
        nd.set (c * s.ndof + i) (Vector.entry (blockSolve L s.ndof s.a (mid ++ xr)) i))
        s.nodes
      = pre ++ L s.a mid ++ post := by
    rw [hn, ← hmid]
    rw [foldl_set_block pre mid post _ _ (by rw [hmid]; exact hoff)]
    rw [hmid, blockSolve_head L s.ndof s.a mid xr hmid]
    have h := map_entry_block [] (L s.a mid)
      (L s.a (xr.take s.ndof) ++ L s.a ((xr.drop s.ndof).take s.ndof)) 0 rfl
    simp only [List.nil_append, Nat.zero_add, hL, hmid] at h
    rw [h]
  unfold ByComponent.component ParAXeqB ByComponent.GetNodes ByComponent.SetNodes
  simp only [hget, hl, hr, ne_eq, not_true_eq_false, if_true, if_false]
  simp [hset]

/-- The blockwise solve never returns fewer than the `n` entries of its first block when its
argument has them. -/
theorem blockSolve_length (L : LinearSolve) (hL : ∀ a x, (L a x).length = x.length) (n : Nat)
    (a mid rest : List ℚ) (h : mid.length = n) :
    ∃ xa xr, blockSolve L n a (mid ++ rest) = xa ++ xr ∧ xa.length = n :=
  ⟨L a mid, _, blockSolve_head L n a mid rest h, by rw [hL, h]⟩

/-- An array of at least `n` entries is made of its first `n` entries and the rest. -/
theorem head_block (v : List ℚ) (n : Nat) (h : n ≤ v.length) :
    ∃ xa xr : List ℚ, v = xa ++ xr ∧ xa.length = n :=
  ⟨v.take n, v.drop n, (List.take_append_drop n v).symm, by simp [h]⟩

/-- An array of `3 * n` entries is made of three blocks of `n` entries. -/
theorem three_blocks (v : List ℚ) (n : Nat) (h : v.length = 3 * n) :
    ∃ b0 b1 b2 : List ℚ, b0.length = n ∧ b1.length = n ∧ b2.length = n ∧
      v = b0 ++ b1 ++ b2 := by
  refine ⟨v.take n, (v.drop n).take n, v.drop (2 * n), ?_, ?_, ?_, ?_⟩
  · simp; omega
  · simp; omega
  · simp; omega
  · rw [List.append_assoc, two_mul, ← List.drop_drop, List.take_append_drop,
      List.take_append_drop]

/-- The blockwise solve of an array cut into its three blocks. -/
theorem blockSolve_blocks (L : LinearSolve) (n : Nat) (a b0 b1 b2 : List ℚ)
    (h0 : b0.length = n) (h1 : b1.length = n) (h2 : b2.length = n) :
    blockSolve L n a (b0 ++ b1 ++ b2) = L a b0 ++ L a b1 ++ L a b2 := by
  rw [List.append_assoc, blockSolve_head L n a b0 (b1 ++ b2) h0, ← h1, List.take_left',
    List.drop_left', List.take_of_length_le (by omega), List.append_assoc]
  all_goals rfl

/-- The function `ByComponent::Loop` with the blockwise solve, from a state whose node array
has `3 * ndof` entries and whose grid function `x` has at least `ndof` entries: the loop
returns, every coordinate block of the node array is replaced by its scalar solve on the
geometry assembled before the loop, and `x` keeps at least `ndof` entries. -/
theorem ByComponent.Loop_blocks (L : LinearSolve) (opt : Opt) (s : SurfaceSolver)
    (hl : opt.lambda = 0) (hr : opt.radial = false)
    (hx : s.ndof ≤ s.x.length) (hn : s.nodes.length = 3 * s.ndof)
    (hL : ∀ a x, (L a x).length = x.length) :
    ∃ cc s1, ByComponent.Loop (blockSolve L s.ndof) opt s = (.ok cc, s1) ∧
      s1.nodes = blockSolve L s.ndof s.a s.nodes ∧ s1.ndof = s.ndof ∧ s1.a = s.a ∧
      s1.ndof ≤ s1.x.length ∧ s1.nodes.length = 3 * s1.ndof := by
  obtain ⟨b0, b1, b2, h0, h1, h2, hb⟩ := three_blocks s.nodes s.ndof hn
  obtain ⟨xa, xr, hxe, hxa⟩ := head_block s.x s.ndof hx
  unfold ByComponent.Loop
  rw [ByComponent.component_spec L opt 0 s.ndof s [] b0 (b1 ++ b2) xa xr hl hr rfl hxe hxa h0
    (by simp) (by simp [hb]) (hL _ _)]
  simp only
  obtain ⟨xa1, xr1, e1, l1⟩ := blockSolve_length L hL s.ndof s.a b0 xr h0
  rw [ByComponent.component_spec L opt 1 s.ndof _ (L s.a b0) b1 b2 xa1 xr1 hl hr (by rfl)
    (by simpa using e1) l1 h1 (by simp [hL, h0]) (by simp) (hL _ _)]
  simp only
  obtain ⟨xa2, xr2, e2, l2⟩ := blockSolve_length L hL s.ndof s.a b1 xr1 h1
  rw [ByComponent.component_spec L opt 2 s.ndof _ (L s.a b0 ++ L s.a b1) b2 [] xa2 xr2 hl hr
    (by rfl) (by simpa using e2) l2 h2 (by simp [hL, h0, h1]; ring) (by simp) (hL _ _)]
  obtain ⟨xa3, xr3, e3, l3⟩ := blockSolve_length L hL s.ndof s.a b2 xr2 h2
  refine ⟨_, _, rfl, ?_, rfl, rfl, ?_, ?_⟩
  · simp only [List.append_nil]
    rw [hb, blockSolve_blocks L s.ndof s.a b0 b1 b2 h0 h1 h2]
  · simp only [e3, List.length_append, l3]
    omega
  · simp [hL, h0, h1, h2]
    ring

/-- The function `ByVector::Loop`: the loop returns (no check of `ParAXeqB` applies to it)
and leaves in the mesh the solve of the node array on the geometry assembled before the
loop. -/
theorem ByVector.Loop_solve (V : LinearSolve) (opt : Opt) (s : SurfaceSolver) :
    ∃ cv s1, ByVector.Loop V opt s = (.ok cv, s1) ∧ s1.nodes = V s.a s.nodes := by
  obtain ⟨hV1, hV2⟩ := ByVector.Loop_eq V opt s
  exact ⟨_, (ByVector.Loop V opt s).2, Prod.ext hV1 rfl, hV2⟩

/-- The loop of `Solve` for a `Loop` that, from every state in which `Inv` holds, returns and
replaces the node array by `step` of it, keeping `Inv`: the loop ends normally and leaves the
node array `step` applied as many times as iterations were started; at most `n` are. -/
theorem Solve.loop_iterate (Loop : SurfaceSolver → Except Err Bool × SurfaceSolver)
    (step : Vector → Vector) (Inv : SurfaceSolver → Prop)
    (hLoop : ∀ s, Inv s → ∃ c s1, Loop (Assemble (Update s)) = (.ok c, s1) ∧
      s1.nodes = step s.nodes ∧ Inv s1) (n : Nat) :
    ∀ s, Inv s → (Solve.loop Loop n s).1.1 = .ok () ∧
      (Solve.loop Loop n s).1.2.nodes = step^[(Solve.loop Loop n s).2] s.nodes ∧
      (Solve.loop Loop n s).2 ≤ n := by
  induction n with
  | zero =>
    intro s _
    simp [Solve.loop]
  | succ n ih =>
    intro s hs
    obtain ⟨c, s1, h1, h2, h3⟩ := hLoop s hs
    cases c with
    | true =>
      have e : Solve.loop Loop (n + 1) s = ((.ok (), s1), 1) := by
        rw [Solve.loop, h1]
      rw [e]
      simp [h2]
    | false =>
      have e : Solve.loop Loop (n + 1) s
          = ((Solve.loop Loop n s1).1, (Solve.loop Loop n s1).2 + 1) := by
        rw [Solve.loop, h1]
      obtain ⟨i1, i2, i3⟩ := ih s1 h3
      rw [e]
      refine ⟨i1, ?_, by simpa using i3⟩
      simp only [Function.iterate_succ_apply]
      rw [i2, h2]

/-- The loop of `Solve` bounded by one iteration starts one iteration. -/
theorem Solve.loop_one_count (Loop : SurfaceSolver → Except Err Bool × SurfaceSolver)
    (s : SurfaceSolver) : (Solve.loop Loop 1 s).2 = 1 := by
  rw [Solve.loop]
  split <;> simp [Solve.loop]

/-- The loops of `Solve` of the two solvers with the blockwise solve, `lambda = 0` and no
radial projection, from a state whose node array has `3 * ndof` entries and whose grid
function `x` has at least `ndof`: both end normally, and each leaves the node array that the
relaxation step gives when applied once for every iteration the solver started. -/
theorem Solve.loop_pair (L : LinearSolve) (opt : Opt) (s : SurfaceSolver)
    (hl : opt.lambda = 0) (hr : opt.radial = false)
    (hL : ∀ a x, (L a x).length = x.length)
    (hx : s.ndof ≤ s.x.length) (hn : s.nodes.length = 3 * s.ndof) (n : Nat) :
    ((Solve.loop (ByComponent.Loop (blockSolve L s.ndof) opt) n s).1.1 = .ok () ∧
      (Solve.loop (ByComponent.Loop (blockSolve L s.ndof) opt) n s).1.2.nodes
        = (relax L s.ndof)^[(Solve.loop (ByComponent.Loop (blockSolve L s.ndof) opt) n s).2]
            s.nodes) ∧
    ((Solve.loop (ByVector.Loop (blockSolve L s.ndof) opt) n s).1.1 = .ok () ∧
      (Solve.loop (ByVector.Loop (blockSolve L s.ndof) opt) n s).1.2.nodes
        = (relax L s.ndof)^[(Solve.loop (ByVector.Loop (blockSolve L s.ndof) opt) n s).2]
            s.nodes) := by
  constructor
  · have h := Solve.loop_iterate (ByComponent.Loop (blockSolve L s.ndof) opt)
      (relax L s.ndof)
      (fun t => t.ndof = s.ndof ∧ s.ndof ≤ t.x.length ∧ t.nodes.length = 3 * s.ndof)
      (by
        rintro t ⟨t1, t2, t3⟩
        obtain ⟨cc, s1, e1, e2, e3, _, e5, e6⟩ :=
          ByComponent.Loop_blocks L opt (Assemble (Update t)) hl hr
            (by simpa [Assemble, Update, t1] using t2)
            (by simpa [Assemble, Update, t1] using t3) hL
        have ea : (Assemble (Update t)).ndof = s.ndof := t1
        rw [ea] at e1 e2 e3
        refine ⟨cc, s1, e1, ?_, e3, ?_, ?_⟩
        · rw [e2]
          rfl
        · rw [← e3]
          exact e5
        · rw [e6, e3])
      n s ⟨rfl, hx, hn⟩
    exact ⟨h.1, h.2.1⟩
  · have h := Solve.loop_iterate (ByVector.Loop (blockSolve L s.ndof) opt)
      (relax L s.ndof) (fun _ => True)
      (by
        intro t _
        obtain ⟨cv, s1, e1, e2⟩ :=
          ByVector.Loop_solve (blockSolve L s.ndof) opt (Assemble (Update t))
        exact ⟨cv, s1, e1, by rw [e2]; rfl, trivial⟩)
      n s trivial
    exact ⟨h.1, h.2.1⟩

/-- C15, as far as it holds: with `lambda = 0`, radial projection disabled and the linear
solve being the scalar solve `L` of one operator applied to each coordinate block, from the
same start (a node array of `3 * ndof` entries, a solver grid function `x` of at least `ndof`
entries; `3 * ndof` in every run of the program) and with the same `iter_max`, `Solve` of
`ByComponent` and `Solve` of `ByVector` both end normally, and each leaves the mesh
coordinates that the relaxation step (assemble on the coordinates, solve each block) gives
when applied once for every iteration the solver started; so the final mesh coordinates are
identical whenever the two solvers start the same number of iterations, in particular when
`iter_max ≤ 1`. -/
theorem C15_components_against_vector (L : LinearSolve) (opt : Opt) (s : SurfaceSolver)
    (hl : opt.lambda = 0) (hr : opt.radial = false)
    (hL : ∀ a x, (L a x).length = x.length)
    (hx : s.ndof ≤ s.x.length) (hn : s.nodes.length = 3 * s.ndof) :
    (Solve (ByComponent.Loop (blockSolve L s.ndof) opt) opt s).1 = .ok () ∧
      (Solve (ByVector.Loop (blockSolve L s.ndof) opt) opt s).1 = .ok () ∧
      (Solve (ByComponent.Loop (blockSolve L s.ndof) opt) opt s).2.nodes
        = (relax L s.ndof)^[Solve.iterations (ByComponent.Loop (blockSolve L s.ndof) opt)
            opt s] s.nodes ∧
      (Solve (ByVector.Loop (blockSolve L s.ndof) opt) opt s).2.nodes
        = (relax L s.ndof)^[Solve.iterations (ByVector.Loop (blockSolve L s.ndof) opt)
            opt s] s.nodes ∧
      (Solve.iterations (ByComponent.Loop (blockSolve L s.ndof) opt) opt s
          = Solve.iterations (ByVector.Loop (blockSolve L s.ndof) opt) opt s →
        (Solve (ByComponent.Loop (blockSolve L s.ndof) opt) opt s).2.nodes
          = (Solve (ByVector.Loop (blockSolve L s.ndof) opt) opt s).2.nodes) ∧
      (opt.iter_max ≤ 1 →
        (Solve (ByComponent.Loop (blockSolve L s.ndof) opt) opt s).2.nodes
          = (Solve (ByVector.Loop (blockSolve L s.ndof) opt) opt s).2.nodes) := by
  obtain ⟨⟨c1, c2⟩, ⟨v1, v2⟩⟩ := Solve.loop_pair L opt s hl hr hL hx hn opt.iter_max.toNat
  have heq : Solve.iterations (ByComponent.Loop (blockSolve L s.ndof) opt) opt s
      = Solve.iterations (ByVector.Loop (blockSolve L s.ndof) opt) opt s →
      (Solve (ByComponent.Loop (blockSolve L s.ndof) opt) opt s).2.nodes
        = (Solve (ByVector.Loop (blockSolve L s.ndof) opt) opt s).2.nodes := by
    intro h
    unfold Solve.iterations at h
    unfold Solve
    rw [c2, v2, h]
  refine ⟨c1, v1, c2, v2, heq, ?_⟩
  intro h1
  apply heq
  unfold Solve.iterations
  have hcases : opt.iter_max.toNat = 0 ∨ opt.iter_max.toNat = 1 := by omega
  rcases hcases with h | h
  · rw [h]
    rfl
  · rw [h, Solve.loop_one_count, Solve.loop_one_count]

/-- C15 at the chain of three nodes with `iter_max = 1`: one iteration of either solver
leaves the same node array, the interior node at `(10001, 0, 0)`. -/
theorem C15_components_against_vector_witness :
    (Solve (ByComponent.Loop (blockSolve chainSolve 3) { iter_max := 1 }) { iter_max := 1 }
        chainStart).1 = .ok () ∧
      (Solve (ByVector.Loop (blockSolve chainSolve 3) { iter_max := 1 }) { iter_max := 1 }
        chainStart).1 = .ok () ∧
      (Solve (ByComponent.Loop (blockSolve chainSolve 3) { iter_max := 1 }) { iter_max := 1 }
          chainStart).2.nodes
        = (Solve (ByVector.Loop (blockSolve chainSolve 3) { iter_max := 1 }) { iter_max := 1 }
          chainStart).2.nodes := by
  have h := C15_components_against_vector chainSolve { iter_max := 1 } chainStart rfl rfl
    (by intro a x; simp [chainSolve]) (by decide) rfl
  exact ⟨h.1, h.2.1, h.2.2.2.2.2 (by decide)⟩

/-- One pass of `ByComponent::Loop` from the chain of three nodes: the interior node moves to
`(10001, 0, 0)` and the loop reports no convergence (the test of the second coordinate
compares `(0, 1, 0, ...)` with its solve `(0, 0, 0, ...)`, a change by the whole norm). -/
theorem chain_first_pass_components :
    ByComponent.Loop (blockSolve chainSolve 3) { iter_max := 2 } (Assemble (Update chainStart))
      = (.ok false,
          { nodes := [10000, 10001, 10003, 0, 0, 0, 0, 0, 0], x := [0, 0, 0, 0, 0, 0, 0, 0, 0],
            x0 := [0, 1, 0, 0, 0, 0, 0, 0, 0], a := [10000, 10001, 10003, 0, 1, 0, 0, 1, 0],
            ndof := 3 }) := by
  norm_num [ByComponent.Loop, ByComponent.component, ByComponent.GetNodes,
    ByComponent.SetNodes, ParAXeqB, blockSolve, List.range_succ, List.flatMap,
    Assemble, Update, chainStart, chainSolve, point, distSq, Vector.entry, Converged,
    rnormSq, Norml2Sq, DistanceToSq, subtract, NRM]

/-- The first pass of `ByVector::Loop` from the chain of three nodes: the interior node moves
to `(10001, 0, 0)` and the loop reports convergence, the change being small against the norm
of the whole array. -/
theorem chain_first_pass_vector :
    ByVector.Loop (blockSolve chainSolve 3) { iter_max := 2 } (Assemble (Update chainStart))
      = (.ok true,
          { nodes := [10000, 10001, 10003, 0, 0, 0, 0, 0, 0],
            x := [10000, 10001, 10003, 0, 0, 0, 0, 0, 0], x0 := [0, 0, 0, 0, 0, 0, 0, 0, 0],
            a := [10000, 10001, 10003, 0, 1, 0, 0, 1, 0], ndof := 3 }) := by
  norm_num [ByVector.Loop, ParAXeqB, blockSolve, List.range_succ, List.flatMap,
    Assemble, Update, chainStart, chainSolve, point, distSq, Vector.entry, Converged,
    rnormSq, Norml2Sq, DistanceToSq, subtract, NRM, add]

/-- The relaxation step applied twice to the chain of three nodes: the interior node moves
to `(10001, 0, 0)` and on to `(50003/5, 0, 0)`. -/
theorem chain_relax_twice :
    relax chainSolve 3 [10000, 10001, 10003, 0, 1, 0, 0, 1, 0]
        = [10000, 10001, 10003, 0, 0, 0, 0, 0, 0] ∧
      relax chainSolve 3 [10000, 10001, 10003, 0, 0, 0, 0, 0, 0]
        = [10000, 50003 / 5, 10003, 0, 0, 0, 0, 0, 0] := by
  constructor <;>
    norm_num [relax, blockSolve, List.range_succ, List.flatMap, chainSolve, point, distSq,
      Vector.entry]

/-- C15 refuted at the chain of three nodes (grid functions of nine entries) with
`iter_max = 2`, `lambda = 0`, no radial projection and the blockwise solve in both solvers:
`ByVector` converges in its first iteration and ends with the interior node at `10001`, while
`ByComponent`, whose test is made per coordinate, starts a second iteration and ends with the
interior node at `50003/5`. -/
theorem C15_counterexample_stopping_tests :
    (({ iter_max := 2 } : Opt).lambda = 0 ∧ ({ iter_max := 2 } : Opt).radial = false) ∧
      (chainStart.nodes.length = 3 * chainStart.ndof ∧
        chainStart.x.length = 3 * chainStart.ndof) ∧
      Solve.iterations (ByComponent.Loop (blockSolve chainSolve chainStart.ndof)
        { iter_max := 2 }) { iter_max := 2 } chainStart = 2 ∧
      Solve.iterations (ByVector.Loop (blockSolve chainSolve chainStart.ndof)
        { iter_max := 2 }) { iter_max := 2 } chainStart = 1 ∧
      (Solve (ByComponent.Loop (blockSolve chainSolve chainStart.ndof) { iter_max := 2 })
          { iter_max := 2 } chainStart).2.nodes
        = [10000, 50003 / 5, 10003, 0, 0, 0, 0, 0, 0] ∧
      (Solve (ByVector.Loop (blockSolve chainSolve chainStart.ndof) { iter_max := 2 })
          { iter_max := 2 } chainStart).2.nodes
        = [10000, 10001, 10003, 0, 0, 0, 0, 0, 0] ∧
      (Solve (ByComponent.Loop (blockSolve chainSolve chainStart.ndof) { iter_max := 2 })
          { iter_max := 2 } chainStart).2.nodes
        ≠ (Solve (ByVector.Loop (blockSolve chainSolve chainStart.ndof) { iter_max := 2 })
          { iter_max := 2 } chainStart).2.nodes := by
  obtain ⟨⟨_, c2⟩, ⟨_, v2⟩⟩ := Solve.loop_pair chainSolve { iter_max := 2 } chainStart rfl rfl
    (by intro a x; simp [chainSolve]) (by decide) rfl 2
  obtain ⟨r1, r2⟩ := chain_relax_twice
  have hCi : (Solve.loop (ByComponent.Loop (blockSolve chainSolve 3) { iter_max := 2 }) 2
      chainStart).2 = 2 := by
    rw [Solve.loop, chain_first_pass_components]
    simp only
    rw [Solve.loop_one_count]
  have hVi : (Solve.loop (ByVector.Loop (blockSolve chainSolve 3) { iter_max := 2 }) 2
      chainStart).2 = 1 := by
    rw [Solve.loop, chain_first_pass_vector]
  have hC : (Solve (ByComponent.Loop (blockSolve chainSolve chainStart.ndof)
      { iter_max := 2 }) { iter_max := 2 } chainStart).2.nodes
      = [10000, 50003 / 5, 10003, 0, 0, 0, 0, 0, 0] := by
    show (Solve.loop (ByComponent.Loop (blockSolve chainSolve 3) _) 2 chainStart).1.2.nodes = _
    have c3 : (Solve.loop (ByComponent.Loop (blockSolve chainSolve 3) { iter_max := 2 }) 2
        chainStart).1.2.nodes
        = (relax chainSolve 3)^[(Solve.loop
            (ByComponent.Loop (blockSolve chainSolve 3) { iter_max := 2 }) 2 chainStart).2]
          chainStart.nodes := c2
    rw [hCi] at c3
    rw [c3]
    show relax chainSolve 3 (relax chainSolve 3 [10000, 10001, 10003, 0, 1, 0, 0, 1, 0]) = _
    rw [r1, r2]
  have hV : (Solve (ByVector.Loop (blockSolve chainSolve chainStart.ndof) { iter_max := 2 })
      { iter_max := 2 } chainStart).2.nodes = [10000, 10001, 10003, 0, 0, 0, 0, 0, 0] := by
    show (Solve.loop (ByVector.Loop (blockSolve chainSolve 3) _) 2 chainStart).1.2.nodes = _
    rw [Solve.loop, chain_first_pass_vector]
  refine ⟨⟨rfl, rfl⟩, ⟨rfl, rfl⟩, hCi, hVi, hC, hV, ?_⟩
  rw [hC, hV]
  norm_num

/-! ## Theorems: the series of the special functions -/

/-- The initial `delta` of the series passes the loop test. -/
theorem EPS_lt_DBL_MAX : ((EPS : ℚ) : ℝ) < ((DBL_MAX : ℚ) : ℝ) := by
  have h1 : EPS < 1 := by
    unfold EPS
    rw [div_lt_one (by positivity)]
    norm_num
  have h2 : (1 : ℚ) ≤ DBL_MAX := by
    unfold DBL_MAX
    have h3 : (1 : ℚ) ≤ 2 - 1 / 2 ^ 52 := by norm_num
    have h4 : (1 : ℚ) ≤ 2 ^ 1023 := one_le_pow₀ (by norm_num)
    calc (1 : ℚ) = 1 * 1 := by ring
      _ ≤ (2 - 1 / 2 ^ 52) * 2 ^ 1023 := mul_le_mul h3 h4 (by norm_num) (by linarith)
  have h : EPS < DBL_MAX := lt_of_lt_of_le h1 h2
  exact_mod_cast h

/-- The tolerance of the series is positive. -/
theorem EPS_pos : (0 : ℝ) < ((EPS : ℚ) : ℝ) := by
  have h : (0 : ℚ) < EPS := by norm_num [EPS]
  exact_mod_cast h

/-- The initial `delta` of the series passes the loop test, as the loop makes it. -/
theorem DBL_MAX_gt : (Ext.fin ((DBL_MAX : ℚ) : ℝ)).gt ((EPS : ℚ) : ℝ) = true :=
  decide_eq_true EPS_lt_DBL_MAX

/-- The magnitude of a finite term. -/
theorem Ext.abs_fin (a : ℂ) : (Ext.fin a).abs = Ext.fin ‖a‖ := rfl

/-- The statement `J += j` on finite numbers. -/
theorem Ext.addTo_fin (J a : ℂ) : Ext.addTo (some J) (Ext.fin a) = some (J + a) := rfl

/-- The loop test on a finite magnitude. -/
theorem Ext.gt_fin (d e : ℝ) : (Ext.fin d).gt e = decide (d > e) := rfl

/-- A whole number in the range of `int` is kept by the wrap. -/
theorem int32_of_range (x : Int) (h1 : -2147483648 ≤ x) (h2 : x < 2147483648) :
    int32 x = x := by
  unfold int32
  omega

/-- The wrap stays in the range of `int`. -/
theorem int32_range (x : Int) : -2147483648 ≤ int32 x ∧ int32 x < 2147483648 := by
  unfold int32
  omega

/-- The series loop returns the sum it holds as soon as the last magnitude fails the test. -/
theorem seriesLoop_stop (term : Int → Ext ℂ) (fuel : Nat) (n : Int) (delta : Ext ℝ)
    (J : Option ℂ) (h : delta.gt ((EPS : ℚ) : ℝ) = false) :
    seriesLoop term fuel n delta J = some J := by
  cases fuel <;> simp [seriesLoop, h]

/-- The series loop on an index range without wrap, entered at the index `n0` with a
magnitude above the tolerance, when the terms `n0 .. N` are the finite numbers `t n` and `N`
is the first index from `n0` on whose term has a magnitude not above the tolerance: with
`N - n0 + 1` passes or more the loop returns the sum of the terms `n0 .. N` added to the sum
it was entered with. -/
theorem seriesLoop_first (term : Int → Ext ℂ) (t : Nat → ℂ) (N : Nat) (hN : N < 2147483648)
    (hle : ‖t N‖ ≤ ((EPS : ℚ) : ℝ)) :
    ∀ (k n0 : Nat), N = n0 + k →
      (∀ n : Nat, n0 ≤ n → n ≤ N → term n = .fin (t n)) →
      (∀ n, n0 ≤ n → n < N → ((EPS : ℚ) : ℝ) < ‖t n‖) →
      ∀ (fuel : Nat), k + 1 ≤ fuel → ∀ (delta : Ext ℝ), delta.gt ((EPS : ℚ) : ℝ) = true →
        ∀ J : ℂ, seriesLoop term fuel n0 delta (some J)
          = some (some (J + ∑ n in Finset.Icc n0 N, t n)) := by
  intro k
  induction k with
  | zero =>
    intro n0 hNk hfin _ fuel hf delta hd J
    obtain ⟨f, rfl⟩ : ∃ f, fuel = f + 1 := ⟨fuel - 1, by omega⟩
    have hN0 : N = n0 := by omega
    subst hN0
    rw [seriesLoop, if_pos hd, hfin N le_rfl le_rfl, Ext.abs_fin, Ext.addTo_fin,
      seriesLoop_stop _ _ _ _ _ (by rw [Ext.gt_fin]; exact decide_eq_false (not_lt.mpr hle))]
    simp
  | succ k ih =>
    intro n0 hNk hfin hgt fuel hf delta hd J
    obtain ⟨f, rfl⟩ : ∃ f, fuel = f + 1 := ⟨fuel - 1, by omega⟩
    have hw : int32 ((n0 : Int) + 1) = ((n0 + 1 : Nat) : Int) := by
      rw [int32_of_range _ (by omega) (by omega)]
      push_cast
      rfl
    rw [seriesLoop, if_pos hd, hfin n0 le_rfl (by omega), hw]
    have h := ih (n0 + 1) (by omega) (fun n h1 h2 => hfin n (by omega) h2)
      (fun n h1 h2 => hgt n (by omega) h2) f (by omega) (Ext.fin ‖t n0‖)
      (by rw [Ext.gt_fin]; exact decide_eq_true (hgt n0 le_rfl (by omega))) (J + t n0)
    rw [Ext.abs_fin, Ext.addTo_fin, h]
    rw [Nat.Icc_succ_left, ← Finset.sum_Ioc_add_eq_sum_Icc (show n0 ≤ N by omega),
      add_assoc, add_comm (t n0)]

/-- The series loop on an index range without wrap stops at the latest at an index whose
term fails the test `delta > EPS` (a magnitude not above the tolerance, or a NaN): entered at
`n0 ≤ N` it has returned after `N - n0 + 1` passes, whatever the terms before `N` are. -/
theorem seriesLoop_stops (term : Int → Ext ℂ) (N : Nat) (hN : N < 2147483648)
    (hle : (term N).abs.gt ((EPS : ℚ) : ℝ) = false) :
    ∀ (k n0 : Nat), N = n0 + k → ∀ (fuel : Nat), k + 1 ≤ fuel → ∀ (delta : Ext ℝ)
      (J : Option ℂ), (seriesLoop term fuel n0 delta J).isSome = true := by
  intro k
  induction k with
  | zero =>
    intro n0 hNk fuel hf delta J
    obtain ⟨f, rfl⟩ : ∃ f, fuel = f + 1 := ⟨fuel - 1, by omega⟩
    have hN0 : N = n0 := by omega
    subst hN0
    rw [seriesLoop]
    split
    · rw [seriesLoop_stop _ _ _ _ _ hle]
      rfl
    · rfl
  | succ k ih =>
    intro n0 hNk fuel hf delta J
    obtain ⟨f, rfl⟩ : ∃ f, fuel = f + 1 := ⟨fuel - 1, by omega⟩
    have hw : int32 ((n0 : Int) + 1) = ((n0 + 1 : Nat) : Int) := by
      rw [int32_of_range _ (by omega) (by omega)]
      push_cast
      rfl
    rw [seriesLoop]
    split
    · rw [hw]
      exact ih (n0 + 1) (by omega) f (by omega) _ _
    · rfl

/-- The series loop never returns when every term it can compute passes the test
`delta > EPS`. -/
theorem seriesLoop_running (term : Int → Ext ℂ)
    (h : ∀ n, (term n).abs.gt ((EPS : ℚ) : ℝ) = true) (fuel : Nat) :
    ∀ (n : Int) (delta : Ext ℝ) (J : Option ℂ), delta.gt ((EPS : ℚ) : ℝ) = true →
      seriesLoop term fuel n delta J = none := by
  induction fuel with
  | zero =>
    intro n delta J hd
    simp [seriesLoop, hd]
  | succ f ih =>
    intro n delta J hd
    rw [seriesLoop, if_pos hd]
    exact ih _ _ _ (h n)

/-- The product of two finite values. -/
theorem Ext.mul_fin (a b : ℂ) : Ext.mul (.fin a) (.fin b) = .fin (a * b) := rfl

/-- The library power with a `double` exponent for a base that is not zero. -/
theorem pow_double_of_ne (q : ℂ) (hq : q ≠ 0) (y : Int) : pow_double q y = .fin (q ^ y) := by
  unfold pow_double
  rw [if_neg hq]

/-- The library power with an `int` exponent that is not negative. -/
theorem pow_int_of_nonneg (q : ℂ) (e : Int) (he : 0 ≤ e) : pow_int q e = .fin (q ^ e) := by
  unfold pow_int
  rw [if_neg (by omega)]

/-- The library power with an `int` exponent for a base that is not zero. -/
theorem pow_int_of_ne (q : ℂ) (hq : q ≠ 0) (e : Int) : pow_int q e = .fin (q ^ e) := by
  unfold pow_int
  rw [if_neg (fun h => hq h.1)]

/-- The `int` products `n*(n+1)` and `n*n` of an index up to `46340` do not wrap. -/
theorem int32_products (n : Nat) (hn : n ≤ 46340) :
    int32 ((n : Int) * ((n : Int) + 1)) = ((n * (n + 1) : Nat) : Int) ∧
      int32 ((n : Int) * (n : Int)) = ((n * n : Nat) : Int) := by
  have h0 : (0 : Int) ≤ (n : Int) := Int.natCast_nonneg n
  have h1 : (n : Int) ≤ 46340 := by exact_mod_cast hn
  have h2 : (n : Int) * ((n : Int) + 1) ≤ 46340 * (46340 + 1) :=
    mul_le_mul h1 (by omega) (by omega) (by omega)
  have h3 : (n : Int) * (n : Int) ≤ 46340 * 46340 := mul_le_mul h1 h1 h0 (by omega)
  have h4 : (0 : Int) ≤ (n : Int) * ((n : Int) + 1) := mul_nonneg h0 (by omega)
  have h5 : (0 : Int) ≤ (n : Int) * (n : Int) := mul_nonneg h0 h0
  constructor
  · rw [int32_of_range _ (by omega) (by omega)]
    push_cast
    rfl
  · rw [int32_of_range _ (by omega) (by omega)]
    push_cast
    rfl

/-- The value the loop of `EllipticTheta` computes at an index up to `thetaLast` is the term
of the series of `theta_a`; for the kind 1 the nome must not be zero. -/
theorem EllipticTheta.term_eq (a : Int) (u q : ℂ) (ha : a = 1 ∨ a = 2 ∨ a = 3 ∨ a = 4)
    (hq : a = 1 → q ≠ 0) (n : Nat) (hn : n ≤ thetaLast a) :
    EllipticTheta.term a u q (n : Int) = .fin (thetaTerm a u q n) := by
  rcases ha with rfl | rfl | rfl | rfl
  · have e : ((n : Int) * ((n : Int) + 1)) = ((n * (n + 1) : Nat) : Int) := by
      push_cast
      rfl
    simp only [EllipticTheta.term, thetaTerm, if_true]
    rw [pow_double_of_ne q (hq rfl), Ext.mul_fin, Ext.mul_fin, e, zpow_natCast, zpow_natCast]
    simp
  · have hn1 : n ≤ 46340 := by simpa [thetaLast] using hn
    simp only [EllipticTheta.term, thetaTerm]
    rw [(int32_products n hn1).1, pow_int_of_nonneg _ _ (Int.natCast_nonneg _), Ext.mul_fin,
      zpow_natCast]
    simp
  · have hn1 : n ≤ 46340 := by simpa [thetaLast] using hn
    simp only [EllipticTheta.term, thetaTerm]
    rw [(int32_products n hn1).2, pow_int_of_nonneg _ _ (Int.natCast_nonneg _), Ext.mul_fin,
      zpow_natCast]
    simp
  · have hn1 : n ≤ 46340 := by simpa [thetaLast] using hn
    simp only [EllipticTheta.term, thetaTerm]
    rw [(int32_products n hn1).2, pow_int_of_nonneg _ _ (Int.natCast_nonneg _), Ext.mul_fin,
      Ext.mul_fin, zpow_natCast, zpow_natCast]
    simp

/-- The function `EllipticTheta` for the kinds 1 to 4 is the loop of the series on the values
`EllipticTheta.term` from the index `thetaStart`, followed by the prefactor
`thetaPrefactor`. -/
theorem EllipticTheta_eq_seriesLoop (fuel : Nat) (a : Int) (u q : ℂ)
    (ha : a = 1 ∨ a = 2 ∨ a = 3 ∨ a = 4) :
    EllipticTheta fuel a u q
      = (seriesLoop (EllipticTheta.term a u q) fuel (thetaStart a)
          (.fin ((DBL_MAX : ℚ) : ℝ)) (some 0)).map (Option.map (thetaPrefactor a q)) := by
  rcases ha with rfl | rfl | rfl | rfl
  · have hp : thetaPrefactor 1 q = fun J => 2 * q ^ ((1 / 4 : ℝ) : ℂ) * J := by
      funext J
      simp [thetaPrefactor]
    rw [hp]
    rfl
  · have hp : thetaPrefactor 2 q = fun J => 2 * q ^ ((1 / 4 : ℝ) : ℂ) * J := by
      funext J
      simp [thetaPrefactor]
    rw [hp]
    rfl
  · have hp : thetaPrefactor 3 q = fun J => 1 + 2 * J := by
      funext J
      simp [thetaPrefactor]
    rw [hp]
    rfl
  · have hp : thetaPrefactor 4 q = fun J => 1 + 2 * J := by
      funext J
      simp [thetaPrefactor]
    rw [hp]
    rfl

/-- The first index of every series is reached before any wrap. -/
theorem thetaLast_lt (a : Int) : thetaLast a < 2147483648 := by
  unfold thetaLast
  split <;> norm_num

/-- The value of `EllipticTheta` when the first term of the series of magnitude not above
the tolerance stands at an index `N` up to `thetaLast`: with `N - start + 1` passes or more,
the prefactor applied to the sum of the terms up to and including `N`.  For the kind 1 the
nome must not be zero. -/
theorem EllipticTheta_partial_sum (a : Int) (u q : ℂ) (ha : a = 1 ∨ a = 2 ∨ a = 3 ∨ a = 4)
    (hq : a = 1 → q ≠ 0) (N : Nat) (h0 : thetaStart a ≤ N) (h1 : N ≤ thetaLast a)
    (hle : ‖thetaTerm a u q N‖ ≤ ((EPS : ℚ) : ℝ))
    (hgt : ∀ n, thetaStart a ≤ n → n < N → ((EPS : ℚ) : ℝ) < ‖thetaTerm a u q n‖)
    (fuel : Nat) (hf : N - thetaStart a + 1 ≤ fuel) :
    EllipticTheta fuel a u q
      = some (some (thetaPrefactor a q
          (∑ n in Finset.Icc (thetaStart a) N, thetaTerm a u q n))) := by
  have h := seriesLoop_first (EllipticTheta.term a u q) (thetaTerm a u q) N
    (lt_of_le_of_lt h1 (thetaLast_lt a)) hle (N - thetaStart a) (thetaStart a) (by omega)
    (fun n _ h3 => EllipticTheta.term_eq a u q ha hq n (le_trans h3 h1)) hgt fuel hf _
    DBL_MAX_gt 0
  rw [EllipticTheta_eq_seriesLoop fuel a u q ha, h]
  simp

/-- The nome `1 - 1e-9`: every power of it with an `int` exponent lies above the tolerance
of the series. -/
theorem near_one_zpow_gt (e : Int) (he : e ≤ 2147483648) :
    ((EPS : ℚ) : ℝ) < ((1 - 1 / 10 ^ 9 : ℝ)) ^ e := by
  have hq0 : (0 : ℝ) < 1 - 1 / 10 ^ 9 := by norm_num
  have hq1 : (1 - 1 / 10 ^ 9 : ℝ) ≤ 1 := by norm_num
  have h1 : (1 - 1 / 10 ^ 9 : ℝ) ^ (2147483648 : Int) ≤ (1 - 1 / 10 ^ 9 : ℝ) ^ e :=
    zpow_le_zpow_right_of_le_one₀ hq0 hq1 he
  have e : (2147483648 : Int) = ((536870912 * 4 : Nat) : Int) := by norm_num
  have h2 : (1 - 1 / 10 ^ 9 : ℝ) ^ (2147483648 : Int)
      = ((1 - 1 / 10 ^ 9 : ℝ) ^ (536870912 : Nat)) ^ (4 : Nat) := by
    rw [e, zpow_natCast, pow_mul]
  have h3 : (1 : ℝ) + ((536870912 : Nat) : ℝ) * (-(1 / 10 ^ 9))
      ≤ (1 + -(1 / 10 ^ 9) : ℝ) ^ (536870912 : Nat) :=
    one_add_mul_le_pow (by norm_num) _
  have h3a : (463 / 1000 : ℝ) ≤ (1 : ℝ) + ((536870912 : Nat) : ℝ) * (-(1 / 10 ^ 9)) := by
    norm_num
  have h4 : (463 / 1000 : ℝ) ≤ (1 - 1 / 10 ^ 9 : ℝ) ^ (536870912 : Nat) := by
    rw [sub_eq_add_neg]
    exact le_trans h3a h3
  have h5 : (463 / 1000 : ℝ) ^ (4 : Nat)
      ≤ ((1 - 1 / 10 ^ 9 : ℝ) ^ (536870912 : Nat)) ^ (4 : Nat) :=
    pow_le_pow_left₀ (by norm_num) h4 4
  have h6 : ((EPS : ℚ) : ℝ) < (463 / 1000 : ℝ) ^ (4 : Nat) := by
    have h7 : EPS < 1 / 100 := by
      unfold EPS
      rw [div_lt_iff₀ (by positivity)]
      norm_num
    have h8 : ((EPS : ℚ) : ℝ) < ((1 / 100 : ℚ) : ℝ) := Rat.cast_lt.mpr h7
    have h9 : (((1 / 100 : ℚ)) : ℝ) ≤ (463 / 1000 : ℝ) ^ (4 : Nat) := by norm_num
    exact lt_of_lt_of_le h8 h9
  rw [h2] at h1
  exact lt_of_lt_of_le h6 (le_trans h5 h1)

/-- At the nome `1 - 1e-9` and the argument 0 every value that the loops of the kinds 2, 3
and 4 compute, at whatever index and with the exponent wrapped, passes the test
`delta > EPS`. -/
theorem EllipticTheta.term_near_one (a : Int) (ha : a = 2 ∨ a = 3 ∨ a = 4) (n : Int) :
    (EllipticTheta.term a 0 (((1 - 1 / 10 ^ 9 : ℝ)) : ℂ) n).abs.gt ((EPS : ℚ) : ℝ) = true := by
  have hq : (((1 - 1 / 10 ^ 9 : ℝ)) : ℂ) ≠ 0 := by
    rw [Ne, Complex.ofReal_eq_zero]
    norm_num
  have hn : ∀ e : Int, e < 2147483648 →
      ((EPS : ℚ) : ℝ) < ‖(((1 - 1 / 10 ^ 9 : ℝ)) : ℂ) ^ e‖ := by
    intro e he
    rw [norm_zpow, Complex.norm_real, Real.norm_of_nonneg (by norm_num)]
    exact near_one_zpow_gt e he.le
  rcases ha with rfl | rfl | rfl
  · simp only [EllipticTheta.term]
    rw [pow_int_of_ne _ hq, Ext.mul_fin, Ext.abs_fin, Ext.gt_fin]
    apply decide_eq_true
    simpa using hn _ (int32_range _).2
  · simp only [EllipticTheta.term]
    rw [pow_int_of_ne _ hq, Ext.mul_fin, Ext.abs_fin, Ext.gt_fin]
    apply decide_eq_true
    simpa using hn _ (int32_range _).2
  · simp only [EllipticTheta.term]
    rw [pow_int_of_ne _ hq, Ext.mul_fin, Ext.mul_fin, Ext.abs_fin, Ext.gt_fin]
    apply decide_eq_true
    simpa using hn _ (int32_range _).2

/-- At the nome `1 - 1e-9` and the argument 0 the loops of the kinds 2, 3 and 4 of
`EllipticTheta` are still running after any number of passes. -/
theorem EllipticTheta_near_one (a : Int) (ha : a = 2 ∨ a = 3 ∨ a = 4) (fuel : Nat) :
    EllipticTheta fuel a 0 (((1 - 1 / 10 ^ 9 : ℝ)) : ℂ) = none := by
  rw [EllipticTheta_eq_seriesLoop fuel a _ _ (Or.inr ha),
    seriesLoop_running _ (EllipticTheta.term_near_one a ha) fuel _ _ _ DBL_MAX_gt]
  rfl

/-- At the nome 0 the loop of the kind 1 of `EllipticTheta` ends in its first pass on a NaN
(`pow(q, 0.0)` with `q = 0`), and the value returned is no finite number. -/
theorem EllipticTheta_1_zero (u : ℂ) (fuel : Nat) :
    EllipticTheta (fuel + 1) 1 u 0 = some none := by
  have ht : EllipticTheta.term 1 u 0 0 = Ext.nan := by
    simp [EllipticTheta.term, pow_double, Ext.mul]
  rw [EllipticTheta_eq_seriesLoop _ 1 _ _ (Or.inl rfl)]
  simp only [thetaStart, true_or, if_true, Nat.cast_zero]
  rw [seriesLoop, if_pos DBL_MAX_gt, ht, seriesLoop_stop _ _ _ _ _ (by rfl)]
  rfl

/-- Magnitude of the complex sine. -/
theorem norm_sin_le (z : ℂ) : ‖Complex.sin z‖ ≤ Real.exp ‖z‖ := by
  have h1 : ‖Complex.exp (-z * Complex.I)‖ ≤ Real.exp ‖z‖ := by
    rw [Complex.norm_eq_abs, Complex.abs_exp]
    apply Real.exp_le_exp.mpr
    calc (-z * Complex.I).re ≤ Complex.abs (-z * Complex.I) := Complex.re_le_abs _
      _ = ‖z‖ := by simp
  have h2 : ‖Complex.exp (z * Complex.I)‖ ≤ Real.exp ‖z‖ := by
    rw [Complex.norm_eq_abs, Complex.abs_exp]
    apply Real.exp_le_exp.mpr
    calc (z * Complex.I).re ≤ Complex.abs (z * Complex.I) := Complex.re_le_abs _
      _ = ‖z‖ := by simp
  have h3 : ‖Complex.exp (-z * Complex.I) - Complex.exp (z * Complex.I)‖
      ≤ Real.exp ‖z‖ + Real.exp ‖z‖ :=
    (norm_sub_le _ _).trans (add_le_add h1 h2)
  rw [Complex.sin, norm_div, norm_mul]
  simp only [Complex.norm_I, mul_one, Complex.norm_ofNat]
  linarith

/-- Magnitude of the complex cosine. -/
theorem norm_cos_le (z : ℂ) : ‖Complex.cos z‖ ≤ Real.exp ‖z‖ := by
  have h1 : ‖Complex.exp (-z * Complex.I)‖ ≤ Real.exp ‖z‖ := by
    rw [Complex.norm_eq_abs, Complex.abs_exp]
    apply Real.exp_le_exp.mpr
    calc (-z * Complex.I).re ≤ Complex.abs (-z * Complex.I) := Complex.re_le_abs _
      _ = ‖z‖ := by simp
  have h2 : ‖Complex.exp (z * Complex.I)‖ ≤ Real.exp ‖z‖ := by
    rw [Complex.norm_eq_abs, Complex.abs_exp]
    apply Real.exp_le_exp.mpr
    calc (z * Complex.I).re ≤ Complex.abs (z * Complex.I) := Complex.re_le_abs _
      _ = ‖z‖ := by simp
  have h3 : ‖Complex.exp (z * Complex.I) + Complex.exp (-z * Complex.I)‖
      ≤ Real.exp ‖z‖ + Real.exp ‖z‖ :=
    (norm_add_le _ _).trans (add_le_add h2 h1)
  rw [Complex.cos, norm_div]
  simp only [Complex.norm_ofNat]
  linarith

/-- A bound of the shape `C * (r^(n-1) * A)^(n+1)` with `r < 1` falls below every positive
number. -/
theorem exists_small_bound (r A C ε : ℝ) (hr0 : 0 ≤ r) (hr1 : r < 1) (hA : 0 ≤ A)
    (hC : 0 ≤ C) (hε : 0 < ε) (n0 : Nat) :
    ∃ n, n0 ≤ n ∧ C * (r ^ (n - 1) * A) ^ (n + 1) ≤ ε := by
  obtain ⟨n1, h1⟩ := exists_pow_lt_of_lt_one (show 0 < 1 / (2 * (A + 1)) by positivity) hr1
  obtain ⟨n2, h2⟩ := exists_pow_lt_of_lt_one (show 0 < ε / (C + 1) by positivity)
    (show (1 / 2 : ℝ) < 1 by norm_num)
  refine ⟨n0 + n1 + n2 + 1, by omega, ?_⟩
  have hrn : r ^ (n0 + n1 + n2 + 1 - 1) ≤ r ^ n1 :=
    pow_le_pow_of_le_one hr0 hr1.le (by omega)
  have hhalf : r ^ (n0 + n1 + n2 + 1 - 1) * A ≤ 1 / 2 := by
    have hA1 : r ^ n1 * A ≤ 1 / (2 * (A + 1)) * (A + 1) :=
      mul_le_mul h1.le (by linarith) hA (by positivity)
    have e : 1 / (2 * (A + 1)) * (A + 1) = 1 / 2 := by
      field_simp
      ring
    calc r ^ (n0 + n1 + n2 + 1 - 1) * A ≤ r ^ n1 * A := mul_le_mul_of_nonneg_right hrn hA
      _ ≤ 1 / 2 := by rw [← e]; exact hA1
  have hnn : 0 ≤ r ^ (n0 + n1 + n2 + 1 - 1) * A := by positivity
  have hp : (r ^ (n0 + n1 + n2 + 1 - 1) * A) ^ (n0 + n1 + n2 + 1 + 1)
      ≤ (1 / 2 : ℝ) ^ n2 :=
    calc (r ^ (n0 + n1 + n2 + 1 - 1) * A) ^ (n0 + n1 + n2 + 1 + 1)
        ≤ (1 / 2 : ℝ) ^ (n0 + n1 + n2 + 1 + 1) := pow_le_pow_left₀ hnn hhalf _
      _ ≤ (1 / 2 : ℝ) ^ n2 := pow_le_pow_of_le_one (by norm_num) (by norm_num) (by omega)
  have hCe : C * (ε / (C + 1)) ≤ ε := by
    rw [mul_div_assoc', div_le_iff₀ (by linarith)]
    nlinarith
  calc C * (r ^ (n0 + n1 + n2 + 1 - 1) * A) ^ (n0 + n1 + n2 + 1 + 1)
      ≤ C * (1 / 2 : ℝ) ^ n2 := mul_le_mul_of_nonneg_left hp hC
    _ ≤ C * (ε / (C + 1)) := mul_le_mul_of_nonneg_left h2.le hC
    _ ≤ ε := hCe

/-- The bound of a term `q^e * trig(m * u)` with `e ≥ (n-1)*(n+1)` and `m ≤ 3*(n+1)`. -/
theorem pow_mul_pow_le (r E : ℝ) (hr0 : 0 ≤ r) (hr1 : r ≤ 1) (hE : 1 ≤ E) (n e m : Nat)
    (he : (n - 1) * (n + 1) ≤ e) (hm : m ≤ 3 * (n + 1)) :
    r ^ e * E ^ m ≤ (r ^ (n - 1) * E ^ 3) ^ (n + 1) := by
  rw [mul_pow, ← pow_mul, ← pow_mul]
  exact mul_le_mul (pow_le_pow_of_le_one hr0 hr1 he) (pow_le_pow_right₀ hE hm)
    (by positivity) (by positivity)

/-- A series whose terms obey a bound `C * (r^(n-1) * A)^(n+1)` with `r < 1` has, from every
index on, a term of magnitude not above the tolerance. -/
theorem exists_term_le (term : Nat → ℂ) (r A C : ℝ) (hr0 : 0 ≤ r) (hr1 : r < 1)
    (hA : 0 ≤ A) (hC : 0 ≤ C) (hb : ∀ n, ‖term n‖ ≤ C * (r ^ (n - 1) * A) ^ (n + 1))
    (n0 : Nat) : ∃ n, n0 ≤ n ∧ ‖term n‖ ≤ ((EPS : ℚ) : ℝ) := by
  obtain ⟨n, hn, h⟩ := exists_small_bound r A C _ hr0 hr1 hA hC EPS_pos n0
  exact ⟨n, hn, (hb n).trans h⟩

/-- Magnitude of `sin (m * u)` for a whole `m`. -/
theorem norm_sin_nat_mul_le (m : Nat) (u : ℂ) :
    ‖Complex.sin ((m : ℂ) * u)‖ ≤ Real.exp ‖u‖ ^ m := by
  refine (norm_sin_le _).trans ?_
  rw [norm_mul, Complex.norm_natCast, Real.exp_nat_mul]

/-- Magnitude of `cos (m * u)` for a whole `m`. -/
theorem norm_cos_nat_mul_le (m : Nat) (u : ℂ) :
    ‖Complex.cos ((m : ℂ) * u)‖ ≤ Real.exp ‖u‖ ^ m := by
  refine (norm_cos_le _).trans ?_
  rw [norm_mul, Complex.norm_natCast, Real.exp_nat_mul]

/-- The bound of the terms of the four theta series for a nome of magnitude at most 1. -/
theorem thetaTerm_bound (a : Int) (u q : ℂ) (hq : ‖q‖ ≤ 1) (n : Nat) :
    ‖thetaTerm a u q n‖ ≤ 1 * (‖q‖ ^ (n - 1) * Real.exp ‖u‖ ^ 3) ^ (n + 1) := by
  have hE : 1 ≤ Real.exp ‖u‖ := Real.one_le_exp (norm_nonneg u)
  have hs := norm_sin_nat_mul_le (2 * n + 1) u
  have hc := norm_cos_nat_mul_le (2 * n + 1) u
  have hc2 := norm_cos_nat_mul_le (2 * n) u
  push_cast at hs hc hc2
  have e1 : (n - 1) * (n + 1) ≤ n * (n + 1) := Nat.mul_le_mul_right _ (Nat.sub_le _ _)
  have e2 : (n - 1) * (n + 1) ≤ n * n := by
    cases n with
    | zero => simp
    | succ m =>
      simp only [Nat.add_sub_cancel]
      nlinarith
  have b1 := pow_mul_pow_le ‖q‖ (Real.exp ‖u‖) (norm_nonneg q) hq hE n (n * (n + 1))
    (2 * n + 1) e1 (by omega)
  have b2 := pow_mul_pow_le ‖q‖ (Real.exp ‖u‖) (norm_nonneg q) hq hE n (n * n)
    (2 * n) e2 (by omega)
  rw [one_mul]
  unfold thetaTerm
  split_ifs
  · rw [norm_mul, norm_mul, norm_pow, norm_pow, norm_neg, norm_one, one_pow, one_mul]
    exact (mul_le_mul_of_nonneg_left hs (by positivity)).trans b1
  · rw [norm_mul, norm_pow]
    exact (mul_le_mul_of_nonneg_left hc (by positivity)).trans b1
  · rw [norm_mul, norm_pow]
    exact (mul_le_mul_of_nonneg_left hc2 (by positivity)).trans b2
  · rw [norm_mul, norm_mul, norm_pow, norm_pow, norm_neg, norm_one, one_pow, one_mul]
    exact (mul_le_mul_of_nonneg_left hc2 (by positivity)).trans b2

/-- Every theta series has, from every index on, a term of magnitude not above the
tolerance when the nome has a magnitude below 1. -/
theorem thetaTerm_exists_small (a : Int) (u q : ℂ) (hq : ‖q‖ < 1) (n0 : Nat) :
    ∃ n, n0 ≤ n ∧ ‖thetaTerm a u q n‖ ≤ ((EPS : ℚ) : ℝ) :=
  exists_term_le _ ‖q‖ (Real.exp ‖u‖ ^ 3) 1 (norm_nonneg q) hq (by positivity) zero_le_one
    (thetaTerm_bound a u q hq.le) n0

/-- The bound of the terms of the series of `EllipticTheta1Prime`. -/
theorem theta1PrimeTerm_bound (k : Int) (u q : ℂ) (hq : ‖q‖ ≤ 1) (n : Nat) :
    ‖theta1PrimeTerm k u q n‖
      ≤ Real.exp ‖(k : ℂ) * (M_PI : ℂ) / 2‖
        * (‖q‖ ^ (n - 1) * (Real.exp ‖u‖ ^ 3 * 2 ^ k.toNat)) ^ (n + 1) := by
  unfold theta1PrimeTerm
  have hE : 1 ≤ Real.exp ‖u‖ := Real.one_le_exp (norm_nonneg u)
  have hα1 : (1 : ℝ) ≤ 2 * (n : ℝ) + 1 := by
    have : (0 : ℝ) ≤ (n : ℝ) := Nat.cast_nonneg n
    linarith
  have hα0 : (0 : ℝ) ≤ 2 * (n : ℝ) + 1 := by linarith
  have hα2 : 2 * (n : ℝ) + 1 ≤ 2 ^ (n + 1) := by
    have h : 2 * n + 1 ≤ 2 ^ (n + 1) := by
      have := Nat.lt_two_pow n
      rw [pow_succ]
      omega
    exact_mod_cast h
  have hsw : ((2 : ℝ) ^ (n + 1)) ^ k.toNat = ((2 : ℝ) ^ k.toNat) ^ (n + 1) := by
    rw [← pow_mul, ← pow_mul, Nat.mul_comm]
  have hzp : |(2 * (n : ℝ) + 1) ^ k| ≤ ((2 : ℝ) ^ k.toNat) ^ (n + 1) := by
    rw [abs_of_nonneg (zpow_nonneg hα0 k), ← hsw]
    by_cases hk : 0 ≤ k
    · obtain ⟨K, rfl⟩ := Int.eq_ofNat_of_zero_le hk
      rw [zpow_natCast, Int.toNat_natCast]
      exact pow_le_pow_left₀ hα0 hα2 K
    · have hk0 : k.toNat = 0 := by omega
      have hk1 : k ≤ 0 := by omega
      rw [hk0, pow_zero]
      exact zpow_le_one_of_nonpos₀ hα1 hk1
  have hsin : ‖Complex.sin ((k : ℂ) * (M_PI : ℂ) / 2 + ((2 * (n : ℝ) + 1 : ℝ) : ℂ) * u)‖
      ≤ Real.exp ‖(k : ℂ) * (M_PI : ℂ) / 2‖ * Real.exp ‖u‖ ^ (2 * n + 1) := by
    refine (norm_sin_le _).trans ?_
    rw [← Real.exp_nat_mul, ← Real.exp_add]
    apply Real.exp_le_exp.mpr
    refine (norm_add_le _ _).trans ?_
    rw [norm_mul, Complex.norm_real, Real.norm_of_nonneg hα0]
    push_cast
    exact le_rfl
  have e1 : (n - 1) * (n + 1) ≤ n * (n + 1) := Nat.mul_le_mul_right _ (Nat.sub_le _ _)
  have b1 := pow_mul_pow_le ‖q‖ (Real.exp ‖u‖) (norm_nonneg q) hq hE n (n * (n + 1))
    (2 * n + 1) e1 (by omega)
  rw [norm_mul, norm_mul, norm_mul, norm_pow, norm_pow, norm_neg, norm_one, one_pow, one_mul,
    Complex.norm_real, Real.norm_eq_abs]
  have hC : 0 ≤ Real.exp ‖(k : ℂ) * (M_PI : ℂ) / 2‖ := (Real.exp_pos _).le
  calc ‖q‖ ^ (n * (n + 1)) * (|(2 * (n : ℝ) + 1) ^ k|
        * ‖Complex.sin ((k : ℂ) * (M_PI : ℂ) / 2 + ((2 * (n : ℝ) + 1 : ℝ) : ℂ) * u)‖)
      ≤ ‖q‖ ^ (n * (n + 1)) * (((2 : ℝ) ^ k.toNat) ^ (n + 1)
        * (Real.exp ‖(k : ℂ) * (M_PI : ℂ) / 2‖ * Real.exp ‖u‖ ^ (2 * n + 1))) := by
        apply mul_le_mul_of_nonneg_left _ (by positivity)
        exact mul_le_mul hzp hsin (norm_nonneg _) (by positivity)
    _ = Real.exp ‖(k : ℂ) * (M_PI : ℂ) / 2‖
        * ((‖q‖ ^ (n * (n + 1)) * Real.exp ‖u‖ ^ (2 * n + 1))
          * ((2 : ℝ) ^ k.toNat) ^ (n + 1)) := by ring
    _ ≤ Real.exp ‖(k : ℂ) * (M_PI : ℂ) / 2‖
        * ((‖q‖ ^ (n - 1) * Real.exp ‖u‖ ^ 3) ^ (n + 1)
          * ((2 : ℝ) ^ k.toNat) ^ (n + 1)) := by
        apply mul_le_mul_of_nonneg_left _ hC
        exact mul_le_mul_of_nonneg_right b1 (by positivity)
    _ = Real.exp ‖(k : ℂ) * (M_PI : ℂ) / 2‖
        * (‖q‖ ^ (n - 1) * (Real.exp ‖u‖ ^ 3 * 2 ^ k.toNat)) ^ (n + 1) := by
        rw [← mul_pow, mul_assoc]

/-- The value the loop of `EllipticTheta1Prime` computes at an index that is not negative is
the term of its series, for a nome that is not zero. -/
theorem EllipticTheta1Prime.prime_term_eq (k : Int) (u q : ℂ) (hq : q ≠ 0) (n : Nat) :
    EllipticTheta1Prime.term k u q (n : Int) = .fin (theta1PrimeTerm k u q n) := by
  have e : ((n : Int) * ((n : Int) + 1)) = ((n * (n + 1) : Nat) : Int) := by
    push_cast
    rfl
  simp only [EllipticTheta1Prime.term, theta1PrimeTerm]
  rw [pow_double_of_ne q hq, Ext.mul_fin, Ext.mul_fin, e, zpow_natCast, zpow_natCast]
  simp

/-- At the nome 0 the loop of `EllipticTheta1Prime` ends in its first pass on a NaN. -/
theorem EllipticTheta1Prime_zero (k : Int) (u : ℂ) (fuel : Nat) :
    EllipticTheta1Prime (fuel + 1) k u 0 = some none := by
  have ht : EllipticTheta1Prime.term k u 0 0 = Ext.nan := by
    simp [EllipticTheta1Prime.term, pow_double, Ext.mul]
  unfold EllipticTheta1Prime
  rw [seriesLoop, if_pos DBL_MAX_gt, ht, seriesLoop_stop _ _ _ _ _ (by rfl)]
  rfl

/-- The value the loop of `LogEllipticTheta1Prime` computes at an index `n` with
`1 ≤ n < 2^30` is zero once the power `q^(2n)` has a magnitude below the tolerance. -/
theorem LogEllipticTheta1Prime.term_zero (u q : ℂ) (n : Nat) (hn : n ≤ 1073741823)
    (h : ‖q‖ ^ (2 * n) < ((EPS : ℚ) : ℝ)) :
    LogEllipticTheta1Prime.term u q (n : Int) = .fin 0 := by
  have e : int32 (2 * (n : Int)) = ((2 * n : Nat) : Int) := by
    rw [int32_of_range _ (by omega) (by omega)]
    push_cast
    rfl
  have h1 : ‖q ^ (((2 * n : Nat)) : Int)‖ < ((EPS : ℚ) : ℝ) := by
    rw [zpow_natCast, norm_pow]
    exact h
  unfold LogEllipticTheta1Prime.term
  rw [e, pow_int_of_nonneg _ _ (Int.natCast_nonneg _)]
  simp only [h1, if_true, sub_zero, one_ne_zero, if_false, zero_div, zero_mul]

/-- A loop of the series stops when the value computed at an index `N ≥ n0` reached without
wrap is a finite number of magnitude not above the tolerance. -/
theorem seriesLoop_stops_fin (term : Int → Ext ℂ) (n0 N : Nat) (h0 : n0 ≤ N)
    (hN : N ≤ 2147483647) (j : ℂ) (hj : term N = .fin j) (hle : ‖j‖ ≤ ((EPS : ℚ) : ℝ))
    (fuel : Nat) (hf : N + 1 ≤ fuel) (delta : Ext ℝ) (J : Option ℂ) :
    (seriesLoop term fuel n0 delta J).isSome = true :=
  seriesLoop_stops term N (by omega)
    (by rw [hj, Ext.abs_fin, Ext.gt_fin]; exact decide_eq_false (not_lt.mpr hle))
    (N - n0) n0 (by omega) fuel (by omega) delta J

/-- Whether a loop followed by a map of its result has returned. -/
theorem isSome_map_loop {α β : Type} (x : Option α) (f : α → β) :
    (x.map f).isSome = x.isSome := by
  cases x <;> rfl

/-- The loops of `EllipticTheta` stop when a term of the series of magnitude not above the
tolerance stands at an index up to `thetaLast`. -/
theorem EllipticTheta_stops (a : Int) (u q : ℂ) (N : Nat) (h0 : thetaStart a ≤ N)
    (h1 : N ≤ thetaLast a) (hle : ‖thetaTerm a u q N‖ ≤ ((EPS : ℚ) : ℝ)) (fuel : Nat)
    (hf : N + 1 ≤ fuel) : (EllipticTheta fuel a u q).isSome = true := by
  by_cases ha : a = 1 ∨ a = 2 ∨ a = 3 ∨ a = 4
  · by_cases hq : a = 1 → q ≠ 0
    · rw [EllipticTheta_eq_seriesLoop fuel a u q ha, isSome_map_loop]
      exact seriesLoop_stops_fin _ _ N h0 (le_trans h1 (Nat.lt_succ_iff.mp (thetaLast_lt a)))
        _ (EllipticTheta.term_eq a u q ha hq N h1) hle fuel hf _ _
    · have h2 : a = 1 ∧ q = 0 := by
        by_contra hc
        exact hq (fun h3 h4 => hc ⟨h3, h4⟩)
      obtain ⟨rfl, rfl⟩ := h2
      obtain ⟨f, rfl⟩ : ∃ f, fuel = f + 1 := ⟨fuel - 1, by omega⟩
      rw [EllipticTheta_1_zero]
      rfl
  · unfold EllipticTheta
    split <;> simp_all

/-- The loop of `EllipticTheta1Prime` stops when a term of its series of magnitude not above
the tolerance stands at an index up to the largest `int`. -/
theorem EllipticTheta1Prime_stops (k : Int) (u q : ℂ) (N : Nat) (h1 : N ≤ 2147483647)
    (hle : ‖theta1PrimeTerm k u q N‖ ≤ ((EPS : ℚ) : ℝ)) (fuel : Nat) (hf : N + 1 ≤ fuel) :
    (EllipticTheta1Prime fuel k u q).isSome = true := by
  by_cases hq : q = 0
  · subst hq
    obtain ⟨f, rfl⟩ : ∃ f, fuel = f + 1 := ⟨fuel - 1, by omega⟩
    rw [EllipticTheta1Prime_zero]
    rfl
  · unfold EllipticTheta1Prime
    rw [isSome_map_loop]
    have h := seriesLoop_stops_fin (EllipticTheta1Prime.term k u q) 0 N (Nat.zero_le _) h1 _
      (EllipticTheta1Prime.prime_term_eq k u q hq N) hle fuel hf (.fin ((DBL_MAX : ℚ) : ℝ))
      (some 0)
    exact h

/-- The loop of `LogEllipticTheta1Prime` stops when the power `q^(2N)` has a magnitude below
the tolerance at an index `N` up to `2^30 - 1`, the last one whose `int` exponent `2*N` does
not wrap. -/
theorem LogEllipticTheta1Prime_stops (u q : ℂ) (N : Nat) (h0 : 1 ≤ N) (h1 : N ≤ 1073741823)
    (hlt : ‖q‖ ^ (2 * N) < ((EPS : ℚ) : ℝ)) (fuel : Nat) (hf : N + 1 ≤ fuel) :
    (LogEllipticTheta1Prime fuel u q).isSome = true := by
  unfold LogEllipticTheta1Prime
  rw [isSome_map_loop]
  have h := seriesLoop_stops_fin (LogEllipticTheta1Prime.term u q) 1 N h0 (by omega) 0
    (LogEllipticTheta1Prime.term_zero u q N h1 hlt) (by simpa using EPS_pos.le) fuel hf
    (.fin ((DBL_MAX : ℚ) : ℝ)) (some 0)
  exact h

/-- The exponential at an argument of magnitude at most 5. -/
theorem exp_norm_le (u : ℂ) (hu : ‖u‖ ≤ 5) : Real.exp ‖u‖ ≤ 149 := by
  have h1 : Real.exp ‖u‖ ≤ Real.exp 5 := Real.exp_le_exp.mpr hu
  have h2 : Real.exp 5 = Real.exp 1 ^ 5 := by
    rw [← Real.exp_nat_mul]
    norm_num
  have h3 : Real.exp 1 ^ 5 ≤ (2.7182818286 : ℝ) ^ 5 :=
    pow_le_pow_left₀ (Real.exp_pos 1).le Real.exp_one_lt_d9.le 5
  have h4 : (2.7182818286 : ℝ) ^ 5 ≤ 149 := by norm_num
  linarith

/-- A power of `1/4` that lies below the tolerance of the series. -/
theorem quarter_pow_le : ((1 / 4 : ℝ)) ^ 26 ≤ ((EPS : ℚ) : ℝ) := by
  have h : ((1 / 4 : ℚ)) ^ 26 ≤ EPS := by
    unfold EPS
    rw [le_div_iff₀ (by positivity)]
    norm_num
  have h1 : ((((1 / 4 : ℚ)) ^ 26 : ℚ) : ℝ) ≤ ((EPS : ℚ) : ℝ) := Rat.cast_le.mpr h
  push_cast at h1
  exact h1

/-- For a nome of magnitude at most `1/2` and an argument of magnitude at most 5 the term of
index 25 of every theta series has a magnitude not above the tolerance. -/
theorem thetaTerm_small_25 (a : Int) (u q : ℂ) (hq : ‖q‖ ≤ 1 / 2) (hu : ‖u‖ ≤ 5) :
    ‖thetaTerm a u q 25‖ ≤ ((EPS : ℚ) : ℝ) := by
  have hb := thetaTerm_bound a u q (by linarith) 25
  have hE := exp_norm_le u hu
  have hE0 : 0 ≤ Real.exp ‖u‖ := (Real.exp_pos _).le
  have hq0 := norm_nonneg q
  have h1 : ‖q‖ ^ (25 - 1) ≤ (1 / 2 : ℝ) ^ 24 := pow_le_pow_left₀ hq0 hq 24
  have h2 : Real.exp ‖u‖ ^ 3 ≤ (149 : ℝ) ^ 3 := pow_le_pow_left₀ hE0 hE 3
  have h3 : ‖q‖ ^ (25 - 1) * Real.exp ‖u‖ ^ 3 ≤ (1 / 2 : ℝ) ^ 24 * (149 : ℝ) ^ 3 :=
    mul_le_mul h1 h2 (by positivity) (by positivity)
  have h4 : (1 / 2 : ℝ) ^ 24 * (149 : ℝ) ^ 3 ≤ 1 / 4 := by norm_num
  have h5 : (‖q‖ ^ (25 - 1) * Real.exp ‖u‖ ^ 3) ^ (25 + 1) ≤ (1 / 4 : ℝ) ^ 26 :=
    pow_le_pow_left₀ (by positivity) (h3.trans h4) 26
  rw [one_mul] at hb
  exact hb.trans (h5.trans quarter_pow_le)

/-- For a nome of magnitude at most `1/2`, an argument of magnitude at most 5 and the order 1
or 3 the term of index 30 of the series of `EllipticTheta1Prime` has a magnitude not above
the tolerance. -/
theorem theta1PrimeTerm_small_30 (k : Int) (hk : k = 1 ∨ k = 3) (u q : ℂ) (hq : ‖q‖ ≤ 1 / 2)
    (hu : ‖u‖ ≤ 5) : ‖theta1PrimeTerm k u q 30‖ ≤ ((EPS : ℚ) : ℝ) := by
  have hb := theta1PrimeTerm_bound k u q (by linarith) 30
  have hE := exp_norm_le u hu
  have hE0 : 0 ≤ Real.exp ‖u‖ := (Real.exp_pos _).le
  have hq0 := norm_nonneg q
  have hpi : Real.pi ≤ 3.15 := Real.pi_lt_d2.le
  have hpi0 : 0 ≤ Real.pi := Real.pi_pos.le
  have hC : Real.exp ‖(k : ℂ) * (M_PI : ℂ) / 2‖ ≤ 149 := by
    have h5 : ‖(k : ℂ) * (M_PI : ℂ) / 2‖ ≤ 5 := by
      unfold M_PI
      rw [norm_div, norm_mul, Complex.norm_real, Real.norm_of_nonneg hpi0, Complex.norm_ofNat]
      rcases hk with rfl | rfl
      · simp only [Int.cast_one, norm_one]
        linarith
      · simp only [Int.cast_ofNat, Complex.norm_ofNat]
        linarith
    have h6 : Real.exp ‖(k : ℂ) * (M_PI : ℂ) / 2‖ ≤ Real.exp 5 := Real.exp_le_exp.mpr h5
    have h7 := exp_norm_le (5 : ℂ) (by simp)
    simp only [Complex.norm_ofNat] at h7
    linarith
  have hk2 : (2 : ℝ) ^ k.toNat ≤ 8 := by
    have e1 : Int.toNat 1 = 1 := rfl
    have e3 : Int.toNat 3 = 3 := rfl
    rcases hk with rfl | rfl
    · rw [e1]
      norm_num
    · rw [e3]
      norm_num
  have h1 : ‖q‖ ^ (30 - 1) ≤ (1 / 2 : ℝ) ^ 29 := pow_le_pow_left₀ hq0 hq 29
  have h2 : Real.exp ‖u‖ ^ 3 ≤ (149 : ℝ) ^ 3 := pow_le_pow_left₀ hE0 hE 3
  have h3 : ‖q‖ ^ (30 - 1) * (Real.exp ‖u‖ ^ 3 * 2 ^ k.toNat)
      ≤ (1 / 2 : ℝ) ^ 29 * ((149 : ℝ) ^ 3 * 8) :=
    mul_le_mul h1 (mul_le_mul h2 hk2 (by positivity) (by positivity)) (by positivity)
      (by positivity)
  have h4 : (1 / 2 : ℝ) ^ 29 * ((149 : ℝ) ^ 3 * 8) ≤ 1 / 4 := by norm_num
  have h5 : (‖q‖ ^ (30 - 1) * (Real.exp ‖u‖ ^ 3 * 2 ^ k.toNat)) ^ (30 + 1) ≤ (1 / 4 : ℝ) ^ 31 :=
    pow_le_pow_left₀ (by positivity) (h3.trans h4) 31
  have h6 : (149 : ℝ) * (1 / 4 : ℝ) ^ 31 ≤ (1 / 4 : ℝ) ^ 26 := by norm_num
  have h7 : Real.exp ‖(k : ℂ) * (M_PI : ℂ) / 2‖
      * (‖q‖ ^ (30 - 1) * (Real.exp ‖u‖ ^ 3 * 2 ^ k.toNat)) ^ (30 + 1)
      ≤ 149 * (1 / 4 : ℝ) ^ 31 :=
    mul_le_mul hC h5 (by positivity) (by norm_num)
  exact hb.trans (h7.trans (h6.trans quarter_pow_le))

/-- For a nome of magnitude at most `1/2` the power `q^48` has a magnitude below the
tolerance. -/
theorem pow_small_24 (q : ℂ) (hq : ‖q‖ ≤ 1 / 2) : ‖q‖ ^ (2 * 24) < ((EPS : ℚ) : ℝ) := by
  have h1 : ‖q‖ ^ (2 * 24) ≤ (1 / 2 : ℝ) ^ 48 := pow_le_pow_left₀ (norm_nonneg q) hq 48
  have h : ((1 / 2 : ℚ)) ^ 48 < EPS := by
    unfold EPS
    rw [lt_div_iff₀ (by positivity)]
    norm_num
  have h2 : ((((1 / 2 : ℚ)) ^ 48 : ℚ) : ℝ) < ((EPS : ℚ) : ℝ) := Rat.cast_lt.mpr h
  push_cast at h2
  exact lt_of_le_of_lt h1 h2

/-- The series of `EllipticTheta1Prime` has a term of magnitude not above the tolerance when
the nome has a magnitude below 1. -/
theorem theta1PrimeTerm_exists_small (k : Int) (u q : ℂ) (hq : ‖q‖ < 1) :
    ∃ n, ‖theta1PrimeTerm k u q n‖ ≤ ((EPS : ℚ) : ℝ) := by
  obtain ⟨n, _, h⟩ := exists_term_le (theta1PrimeTerm k u q) ‖q‖
    (Real.exp ‖u‖ ^ 3 * 2 ^ k.toNat) (Real.exp ‖(k : ℂ) * (M_PI : ℂ) / 2‖) (norm_nonneg q) hq
    (by positivity) (Real.exp_pos _).le (theta1PrimeTerm_bound k u q hq.le) 0
  exact ⟨n, h⟩

/-- C12, as far as it holds.  For every complex `u` and every nome `q` with `|q| < 1`, in
exact arithmetic each series has a term that ends its loop: a term of magnitude not above
`1e-14` for the four kinds of `EllipticTheta` and for `EllipticTheta1Prime`, a power `q^(2N)`
of magnitude below `1e-14` for `LogEllipticTheta1Prime`.  The loop stops after finitely many
terms whenever such a term stands at an index `N` that the 32-bit `int` arithmetic of the
loop reaches without wrap: `N ≤ 46340` for the kinds 2, 3, 4, `N ≤ 2^31 - 1` for the kind 1
and for `EllipticTheta1Prime`, `N ≤ 2^30 - 1` for `LogEllipticTheta1Prime`.  This is the case
for `|q| ≤ 1/2` and `|u| ≤ 5`, with `k = 1` or `k = 3`: all the loops have stopped after 31
passes. -/
theorem C12_series_terminate (a k : Int) (u q : ℂ) (hq : ‖q‖ < 1) :
    ((∃ N, thetaStart a ≤ N ∧ ‖thetaTerm a u q N‖ ≤ ((EPS : ℚ) : ℝ)) ∧
      ∀ N, thetaStart a ≤ N → N ≤ thetaLast a → ‖thetaTerm a u q N‖ ≤ ((EPS : ℚ) : ℝ) →
        ∀ fuel, N + 1 ≤ fuel → (EllipticTheta fuel a u q).isSome = true) ∧
    ((∃ N, ‖theta1PrimeTerm k u q N‖ ≤ ((EPS : ℚ) : ℝ)) ∧
      ∀ N, N ≤ 2147483647 → ‖theta1PrimeTerm k u q N‖ ≤ ((EPS : ℚ) : ℝ) →
        ∀ fuel, N + 1 ≤ fuel → (EllipticTheta1Prime fuel k u q).isSome = true) ∧
    ((∃ N, 1 ≤ N ∧ ‖q‖ ^ (2 * N) < ((EPS : ℚ) : ℝ)) ∧
      ∀ N, 1 ≤ N → N ≤ 1073741823 → ‖q‖ ^ (2 * N) < ((EPS : ℚ) : ℝ) →
        ∀ fuel, N + 1 ≤ fuel → (LogEllipticTheta1Prime fuel u q).isSome = true) ∧
    (‖q‖ ≤ 1 / 2 → ‖u‖ ≤ 5 → k = 1 ∨ k = 3 → ∀ fuel, 31 ≤ fuel →
      (EllipticTheta fuel a u q).isSome = true ∧
      (EllipticTheta1Prime fuel k u q).isSome = true ∧
      (LogEllipticTheta1Prime fuel u q).isSome = true) := by
  refine ⟨⟨?_, ?_⟩, ⟨?_, ?_⟩, ⟨?_, ?_⟩, ?_⟩
  · exact thetaTerm_exists_small a u q hq _
  · intro N h0 h1 h2 fuel hf
    exact EllipticTheta_stops a u q N h0 h1 h2 fuel hf
  · exact theta1PrimeTerm_exists_small k u q hq
  · intro N h1 h2 fuel hf
    exact EllipticTheta1Prime_stops k u q N h1 h2 fuel hf
  · obtain ⟨m, hm⟩ := exists_pow_lt_of_lt_one EPS_pos hq
    refine ⟨m + 1, by omega, ?_⟩
    exact lt_of_le_of_lt (pow_le_pow_of_le_one (norm_nonneg q) hq.le (by omega)) hm
  · intro N h0 h1 h2 fuel hf
    exact LogEllipticTheta1Prime_stops u q N h0 h1 h2 fuel hf
  · intro hq2 hu hk fuel hf
    refine ⟨?_, ?_, ?_⟩
    · exact EllipticTheta_stops a u q 25 (by unfold thetaStart; split <;> omega)
        (by unfold thetaLast; split <;> omega) (thetaTerm_small_25 a u q hq2 hu) fuel
        (by omega)
    · exact EllipticTheta1Prime_stops k u q 30 (by omega)
        (theta1PrimeTerm_small_30 k hk u q hq2 hu) fuel (by omega)
    · exact LogEllipticTheta1Prime_stops u q 24 (by omega) (by omega) (pow_small_24 q hq2)
        fuel (by omega)

/-- C12 at the kind 1, the order 3, `u = 1 + i` and the nome `i/2`: all the loops have
stopped after 31 passes. -/
theorem C12_series_terminate_witness :
    ‖(Complex.I / 2 : ℂ)‖ < 1 ∧
    ∀ fuel, 31 ≤ fuel →
      (EllipticTheta fuel 1 (1 + Complex.I) (Complex.I / 2)).isSome = true ∧
      (EllipticTheta1Prime fuel 3 (1 + Complex.I) (Complex.I / 2)).isSome = true ∧
      (LogEllipticTheta1Prime fuel (1 + Complex.I) (Complex.I / 2)).isSome = true := by
  have h : ‖(Complex.I / 2 : ℂ)‖ < 1 := by
    rw [norm_div, Complex.norm_I]
    norm_num
  have h2 : ‖(Complex.I / 2 : ℂ)‖ ≤ 1 / 2 := by
    rw [norm_div, Complex.norm_I]
    norm_num
  have hu : ‖(1 + Complex.I : ℂ)‖ ≤ 5 := by
    refine (norm_add_le _ _).trans ?_
    rw [norm_one, Complex.norm_I]
    norm_num
  exact ⟨h, (C12_series_terminate 1 3 (1 + Complex.I) (Complex.I / 2) h).2.2.2 h2 hu
    (Or.inr rfl)⟩

/-- C12 refuted at the nome `1 - 1e-9` and the argument 0: the loops of the kinds 2, 3 and 4
of `EllipticTheta` are still running after any number of passes.  The first term of magnitude
`1e-14` or less would stand beyond the index 46340, from which on the `int` exponents
`n*(n+1)` and `n*n` wrap, and every power of the nome with a wrapped exponent lies above
`1e-14`. -/
theorem C12_counterexample_near_one :
    ‖(((1 - 1 / 10 ^ 9 : ℝ)) : ℂ)‖ < 1 ∧
      (∀ fuel, EllipticTheta fuel 2 0 (((1 - 1 / 10 ^ 9 : ℝ)) : ℂ) = none) ∧
      (∀ fuel, EllipticTheta fuel 3 0 (((1 - 1 / 10 ^ 9 : ℝ)) : ℂ) = none) ∧
      (∀ fuel, EllipticTheta fuel 4 0 (((1 - 1 / 10 ^ 9 : ℝ)) : ℂ) = none) ∧
      ∀ n : Nat, 1 ≤ n → n ≤ 46340 →
        ((EPS : ℚ) : ℝ) < ‖thetaTerm 3 0 (((1 - 1 / 10 ^ 9 : ℝ)) : ℂ) n‖ := by
  refine ⟨?_, fun fuel => EllipticTheta_near_one 2 (Or.inl rfl) fuel,
    fun fuel => EllipticTheta_near_one 3 (Or.inr (Or.inl rfl)) fuel,
    fun fuel => EllipticTheta_near_one 4 (Or.inr (Or.inr rfl)) fuel, ?_⟩
  · rw [Complex.norm_real, Real.norm_of_nonneg (by norm_num)]
    norm_num
  · intro n h1 h2
    have h := EllipticTheta.term_near_one 3 (Or.inr (Or.inl rfl)) n
    rw [EllipticTheta.term_eq 3 0 _ (Or.inr (Or.inr (Or.inl rfl))) (by decide) n
      (by simpa [thetaLast] using h2), Ext.abs_fin, Ext.gt_fin] at h
    exact of_decide_eq_true h

/-- The value `EllipticTheta(3, 0, 1/10)`: the loop adds the terms `n = 1 .. 4`, the last one,
`1/10^16`, being the first of magnitude not above the tolerance. -/
theorem EllipticTheta_3_sample (fuel : Nat) :
    EllipticTheta (fuel + 4) 3 0 (1 / 10)
      = some (some (1 + 2 * (1 / 10 + 1 / 10 ^ 4 + 1 / 10 ^ 9 + 1 / 10 ^ 16))) := by
  have h := EllipticTheta_partial_sum 3 0 (1 / 10) (Or.inr (Or.inr (Or.inl rfl))) (by decide)
    4 (by simp [thetaStart]) (by simp [thetaLast])
    (by norm_num [thetaTerm, EPS])
    (by
      intro n h1 h2
      simp only [thetaStart] at h1
      interval_cases n <;> norm_num [thetaTerm, EPS])
    (fuel + 4) (by simp [thetaStart])
  rw [h]
  norm_num [thetaPrefactor, thetaStart, thetaTerm, Finset.sum_Icc_succ_top]

/-- The value `EllipticTheta(4, 0, 1/10)`: the terms `n = 1 .. 4` with alternating signs. -/
theorem EllipticTheta_4_sample (fuel : Nat) :
    EllipticTheta (fuel + 4) 4 0 (1 / 10)
      = some (some (1 + 2 * (-(1 / 10) + 1 / 10 ^ 4 - 1 / 10 ^ 9 + 1 / 10 ^ 16))) := by
  have h := EllipticTheta_partial_sum 4 0 (1 / 10) (Or.inr (Or.inr (Or.inr rfl))) (by decide)
    4 (by simp [thetaStart]) (by simp [thetaLast])
    (by norm_num [thetaTerm, EPS])
    (by
      intro n h1 h2
      simp only [thetaStart] at h1
      interval_cases n <;> norm_num [thetaTerm, EPS])
    (fuel + 4) (by simp [thetaStart])
  rw [h]
  norm_num [thetaPrefactor, thetaStart, thetaTerm, Finset.sum_Icc_succ_top]

/-- The value `EllipticTheta(4, 0, (1/10)^2)`: the loop adds the terms `n = 1 .. 3`, the last
one, `-1/10^18`, being the first of magnitude not above the tolerance. -/
theorem EllipticTheta_4_sample_sq (fuel : Nat) :
    EllipticTheta (fuel + 4) 4 0 ((1 / 10) ^ 2)
      = some (some (1 + 2 * (-(1 / 10 ^ 2) + 1 / 10 ^ 8 - 1 / 10 ^ 18))) := by
  have h := EllipticTheta_partial_sum 4 0 ((1 / 10) ^ 2) (Or.inr (Or.inr (Or.inr rfl)))
    (by decide) 3 (by simp [thetaStart]) (by simp [thetaLast])
    (by norm_num [thetaTerm, EPS])
    (by
      intro n h1 h2
      simp only [thetaStart] at h1
      interval_cases n <;> norm_num [thetaTerm, EPS])
    (fuel + 4) (by simp [thetaStart])
  rw [h]
  norm_num [thetaPrefactor, thetaStart, thetaTerm, Finset.sum_Icc_succ_top]

/-- C13: at the sample nome `q = 1/10` the three values `EllipticTheta(3,0,q)`,
`EllipticTheta(4,0,q)` and `EllipticTheta(4,0,q^2)` are returned (four passes of the loops
suffice) and satisfy `|theta3 * theta4 - theta4(q^2)^2| < 1e-10`. -/
theorem C13_theta_product_relation (fuel : Nat) :
    ∃ t3 t4 s4 : ℂ, EllipticTheta (fuel + 4) 3 0 (1 / 10) = some (some t3) ∧
      EllipticTheta (fuel + 4) 4 0 (1 / 10) = some (some t4) ∧
      EllipticTheta (fuel + 4) 4 0 ((1 / 10) ^ 2) = some (some s4) ∧
      ‖t3 * t4 - s4 ^ 2‖ < 1 / 10 ^ 10 := by
  refine ⟨_, _, _, EllipticTheta_3_sample fuel, EllipticTheta_4_sample fuel,
    EllipticTheta_4_sample_sq fuel, ?_⟩
  have e : (1 + 2 * (1 / 10 + 1 / 10 ^ 4 + 1 / 10 ^ 9 + 1 / 10 ^ 16) : ℂ)
        * (1 + 2 * (-(1 / 10) + 1 / 10 ^ 4 - 1 / 10 ^ 9 + 1 / 10 ^ 16))
        - (1 + 2 * (-(1 / 10 ^ 2) + 1 / 10 ^ 8 - 1 / 10 ^ 18)) ^ 2
      = (((1 + 2 * (1 / 10 + 1 / 10 ^ 4 + 1 / 10 ^ 9 + 1 / 10 ^ 16) : ℝ)
        * (1 + 2 * (-(1 / 10) + 1 / 10 ^ 4 - 1 / 10 ^ 9 + 1 / 10 ^ 16))
        - (1 + 2 * (-(1 / 10 ^ 2) + 1 / 10 ^ 8 - 1 / 10 ^ 18)) ^ 2 : ℝ) : ℂ) := by
    push_cast
    ring
  rw [e, Complex.norm_real, Real.norm_eq_abs, abs_lt]
  constructor <;> norm_num

/-! ## Theorems: the period of the Weierstrass function -/

/-- C22: `SlottedSphere::Prefix` adds 64 vertices and 40 quads, the capacities `NV = 64` and
`NE = 40` given to the constructor; the array `quad_e` has 54 rows of which 14 are marked
deleted (the 14 marks fall on 14 different rows); every row that is not marked holds four
indices in `[0, 64)`, and so does every added quad. -/
theorem C22_SlottedSphere_emitted_sizes :
    SlottedSphere.Prefix.vertices.length = 64 ∧
      SlottedSphere.Prefix.elements.length = 40 ∧
      SlottedSphere.Prefix.NVert = SlottedSphere.Prefix.vertices.length ∧
      SlottedSphere.Prefix.NElem = SlottedSphere.Prefix.elements.length ∧
      SlottedSphere.quad_e.length = 54 ∧
      (SlottedSphere.quad_e.filter (fun row => decide (row.getD 0 0 < 0))).length = 14 ∧
      (∀ row ∈ SlottedSphere.quad_e, 0 ≤ row.getD 0 0 →
        row.length = 4 ∧ ∀ x ∈ row, 0 ≤ x ∧ x < 64) ∧
      (∀ el ∈ SlottedSphere.Prefix.elements, el.v.length = 4 ∧ ∀ v ∈ el.v, v < 64) := by
  set_option maxRecDepth 100000 in decide

/-- C23: the six quads that `FullPeach::Prefix` lists over its eight vertices are the rows of
`quad_e`; every vertex index is in `[0, 8)`; the quads have 12 edges, and every edge belongs
to exactly two quads, one traversing it in one direction and one in the other. -/
theorem C23_FullPeach_closed_consistently_wound :
    FullPeach.Prefix.vertices.length = 8 ∧
      FullPeach.Prefix.elements.map Element.v = FullPeach.quad_e ∧
      FullPeach.Prefix.elements.length = 6 ∧
      (∀ el ∈ FullPeach.Prefix.elements, ∀ v ∈ el.v, v < 8) ∧
      (edgesOf FullPeach.Prefix.elements).length = 12 ∧
      (∀ e ∈ edgesOf FullPeach.Prefix.elements,
        cellsWithEdge FullPeach.Prefix.elements e = 2 ∧
        cellsTraversing FullPeach.Prefix.elements e = 1 ∧
        cellsTraversing FullPeach.Prefix.elements (e.2, e.1) = 1) := by
  set_option maxRecDepth 100000 in decide

/-! ## Theorems: the early end of a theta series -/

/-- The terms of the series of `theta_3` at `u = π/4`: the terms of odd index vanish and the
term of index `2k` is `(-1)^k q^((2k)^2)`, so the series is `1 - 2 q^4 + 2 q^16 - ...`. -/
theorem thetaTerm_3_quarter_pi (q : ℂ) (k : Nat) :
    thetaTerm 3 ((Real.pi / 4 : ℝ) : ℂ) q (2 * k + 1) = 0 ∧
      thetaTerm 3 ((Real.pi / 4 : ℝ) : ℂ) q (2 * k) = (-1) ^ k * q ^ (2 * k * (2 * k)) := by
  have h1 : Complex.cos (2 * ((2 * k + 1 : ℕ) : ℂ) * ((Real.pi / 4 : ℝ) : ℂ)) = 0 := by
    rw [show 2 * ((2 * k + 1 : ℕ) : ℂ) * ((Real.pi / 4 : ℝ) : ℂ)
      = (((k : ℝ) * Real.pi + Real.pi / 2 : ℝ) : ℂ) by push_cast; ring,
      ← Complex.ofReal_cos, Real.cos_add_pi_div_two, Real.sin_nat_mul_pi]
    simp
  have hk : Real.cos ((k : ℝ) * Real.pi) = (-1) ^ k := by
    have h := Real.cos_add_nat_mul_pi 0 k
    rwa [zero_add, Real.cos_zero, mul_one] at h
  have h2 : Complex.cos (2 * ((2 * k : ℕ) : ℂ) * ((Real.pi / 4 : ℝ) : ℂ)) = (-1) ^ k := by
    rw [show 2 * ((2 * k : ℕ) : ℂ) * ((Real.pi / 4 : ℝ) : ℂ)
      = (((k : ℝ) * Real.pi : ℝ) : ℂ) by push_cast; ring,
      ← Complex.ofReal_cos, hk]
    push_cast
    rfl
  constructor
  · simp only [thetaTerm, show ¬ ((3 : Int) = 1) by decide, show ¬ ((3 : Int) = 2) by decide,
      if_true, if_false, h1, mul_zero]
  · simp only [thetaTerm, show ¬ ((3 : Int) = 1) by decide, show ¬ ((3 : Int) = 2) by decide,
      if_true, if_false, h2]
    ring

/-- C21: when `|q * cos(2u)| ≤ 1e-14` the loop of `EllipticTheta(3, u, q)` ends after its
first term and the function returns `1 + 2 q cos(2u)`, for every `q` and `u` and whatever the
later terms are; at `u = π/4` it returns 1 for every `q`, while the terms of even index of
the series there, `(-1)^k q^((2k)^2)`, are left out. -/
theorem C21_theta3_early_cutoff (fuel : Nat) (u q : ℂ) :
    (‖q * Complex.cos (2 * u)‖ ≤ ((EPS : ℚ) : ℝ) →
        EllipticTheta (fuel + 1) 3 u q = some (some (1 + 2 * (q * Complex.cos (2 * u))))) ∧
      EllipticTheta (fuel + 1) 3 ((Real.pi / 4 : ℝ) : ℂ) q = some (some 1) ∧
      ∀ k : Nat, thetaTerm 3 ((Real.pi / 4 : ℝ) : ℂ) q (2 * k + 1) = 0 ∧
        thetaTerm 3 ((Real.pi / 4 : ℝ) : ℂ) q (2 * k) = (-1) ^ k * q ^ (2 * k * (2 * k)) := by
  have key : ∀ v : ℂ, ‖q * Complex.cos (2 * v)‖ ≤ ((EPS : ℚ) : ℝ) →
      EllipticTheta (fuel + 1) 3 v q = some (some (1 + 2 * (q * Complex.cos (2 * v)))) := by
    intro v h
    have ht : thetaTerm 3 v q 1 = q * Complex.cos (2 * v) := by
      simp [thetaTerm]
    have h1 := EllipticTheta_partial_sum 3 v q (Or.inr (Or.inr (Or.inl rfl)))
      (fun h => absurd h (by decide)) 1 (by simp [thetaStart]) (by simp [thetaLast])
      (by rw [ht]; exact h)
      (by
        intro n h1 h2
        simp only [thetaStart] at h1
        have : ¬ ((3 : Int) = 1 ∨ (3 : Int) = 2) := by decide
        simp only [this, if_false] at h1
        omega)
      (fuel + 1) (by simp [thetaStart])
    rw [h1]
    simp [thetaPrefactor, thetaStart, ht]
  refine ⟨key u, ?_, thetaTerm_3_quarter_pi q⟩
  have hc : Complex.cos (2 * ((Real.pi / 4 : ℝ) : ℂ)) = 0 := by
    rw [show 2 * ((Real.pi / 4 : ℝ) : ℂ) = ((Real.pi / 2 : ℝ) : ℂ) by push_cast; ring,
      ← Complex.ofReal_cos, Real.cos_pi_div_two]
    simp
  have h := key ((Real.pi / 4 : ℝ) : ℂ) (by rw [hc, mul_zero, norm_zero]; exact EPS_pos.le)
  rw [h, hc]
  simp

/-- C21 at `u = π/4` and the nome `1/2`: the hypothesis holds, the first term being zero,
and the value returned after one pass is `1 + 2 * (1/2) * cos(π/2)`. -/
theorem C21_theta3_early_cutoff_witness :
    ‖(1 / 2 : ℂ) * Complex.cos (2 * ((Real.pi / 4 : ℝ) : ℂ))‖ ≤ ((EPS : ℚ) : ℝ) ∧
      EllipticTheta 1 3 ((Real.pi / 4 : ℝ) : ℂ) (1 / 2)
        = some (some (1 + 2 * ((1 / 2 : ℂ) * Complex.cos (2 * ((Real.pi / 4 : ℝ) : ℂ))))) :=
  have h : ‖(1 / 2 : ℂ) * Complex.cos (2 * ((Real.pi / 4 : ℝ) : ℂ))‖ ≤ ((EPS : ℚ) : ℝ) := by
    rw [show 2 * ((Real.pi / 4 : ℝ) : ℂ) = ((Real.pi / 2 : ℝ) : ℂ) by push_cast; ring,
      ← Complex.ofReal_cos, Real.cos_pi_div_two]
    simp only [Complex.ofReal_zero, mul_zero, norm_zero]
    exact EPS_pos.le
  ⟨h, (C21_theta3_early_cutoff 0 ((Real.pi / 4 : ℝ) : ℂ) (1 / 2)).1 h⟩

/-! ## Theorems: the default boundary conditions -/

/-- The fold of `max` over a list is at least its start value and at least every entry. -/
theorem foldl_max_ge (l : List Int) :
    ∀ init : Int, init ≤ l.foldl max init ∧ ∀ a ∈ l, a ≤ l.foldl max init := by
  induction l with
  | nil => intro init; simp
  | cons b t ih =>
    intro init
    obtain ⟨h1, h2⟩ := ih (max init b)
    simp only [List.foldl_cons, List.mem_cons, forall_eq_or_imp]
    exact ⟨le_trans (le_max_left _ _) h1, le_trans (le_max_right _ _) h1, h2⟩

/-- Every entry of an array is at most its `Max()`. -/
theorem Array.le_Max (l : List Int) (a : Int) (h : a ∈ l) : a ≤ Array.Max l :=
  (foldl_max_ge l (l.headD 0)).2 a h

/-- The marker array of `Surface::BC`, all ones up to the largest attribute, marks every
attribute from 1 to the largest. -/
theorem marker_all_ones (M a : Int) (h1 : 1 ≤ a) (h2 : a ≤ M) :
    (List.replicate M.toNat (1 : Int)).getD (a - 1).toNat 0 = 1 := by
  have h : (a - 1).toNat < M.toNat := by omega
  rw [List.getD_eq_getElem?_getD, List.getElem?_replicate, if_pos h]
  rfl

/-- With the marker array of `Surface::BC` and boundary attributes between 1 and the largest
attribute, the essential degrees of freedom are those lying on a boundary element, whatever
the attributes are. -/
theorem GetEssentialTrueDofs_all_ones (ndofs : Nat) (bdrDofs : Nat → List Nat)
    (boundary : List Element) (M : Int)
    (h : ∀ i, i < boundary.length →
      1 ≤ (boundary.getD i { v := [] }).attr ∧ (boundary.getD i { v := [] }).attr ≤ M) :
    GetEssentialTrueDofs ndofs bdrDofs boundary (List.replicate M.toNat 1)
      = (List.range ndofs).filter (fun d =>
          (List.range boundary.length).any (fun i => (bdrDofs i).contains d)) := by
  unfold GetEssentialTrueDofs
  apply List.filter_congr
  intro d _
  rw [Bool.eq_iff_iff]
  simp only [List.any_eq_true, List.mem_range, Bool.and_eq_true, decide_eq_true_eq, bne_iff_ne,
    ne_eq]
  constructor
  · rintro ⟨i, hi, _, hd⟩
    exact ⟨i, hi, hd⟩
  · rintro ⟨i, hi, hd⟩
    obtain ⟨h1, h2⟩ := h i hi
    refine ⟨i, hi, ⟨h1, ?_⟩, hd⟩
    rw [marker_all_ones M _ h1 h2]
    decide

/-- Reading an entry of a list after an entry has been written. -/
theorem getD_set_eq {α : Type} (l : List α) (k i : Nat) (x d : α) :
    (l.set k x).getD i d = if k = i ∧ i < l.length then x else l.getD i d := by
  rw [List.getD_eq_getElem?_getD, List.getElem?_set, List.getD_eq_getElem?_getD]
  by_cases h : k = i
  · subst h
    by_cases hl : k < l.length
    · simp [hl]
    · simp [hl, List.getElem?_eq_none (show l.length ≤ k by omega)]
  · simp [h]

/-- One pass of the loop of `QuarterPeach::Postfix` that does not abort keeps the number of
boundary elements and their vertices, gives the boundary element `i` the attribute 1 or 2
and keeps the attributes of the others. -/
theorem QuarterPeach.Postfix_body (FaceIsTrueInterior : Nat → Bool) (nval : Nat → Nat → ℚ)
    (m m1 : Mesh) (i : Nat) (hi : i < m.boundary.length)
    (h : (let el := m.boundary.getD i { v := [] }
      if FaceIsTrueInterior i then Except.error (Err.verify "")
      else
        let vertices := el.v
        let X : Nat → Nat → ℚ := fun v d => nval d (vertices.getD v 0)
        let R : Nat → ℚ := fun v => X v 0 * X v 0 + X v 1 * X v 1
        -- the literal 0.1 denotes the double 3602879701896397 / 2^55
        if |X 0 1| ≤ EPS ∧ |X 1 1| ≤ EPS
            ∧ (R 0 > 3602879701896397 / 2 ^ 55 ∨ R 1 > 3602879701896397 / 2 ^ 55) then
          Except.ok { m with boundary := m.boundary.set i { el with attr := 1 } }
        else Except.ok { m with boundary := m.boundary.set i { el with attr := 2 } })
      = Except.ok m1) :
    m1.boundary.length = m.boundary.length ∧
      ((m1.boundary.getD i { v := [] }).attr = 1 ∨ (m1.boundary.getD i { v := [] }).attr = 2) ∧
      ∀ j, j ≠ i → m1.boundary.getD j { v := [] } = m.boundary.getD j { v := [] } := by
  simp only at h
  split_ifs at h with h1 h2
  · injection h with h
    subst h
    refine ⟨by simp, Or.inl ?_, ?_⟩
    · simp [getD_set_eq, hi]
    · intro j hj
      simp [getD_set_eq, Ne.symm hj]
  · injection h with h
    subst h
    refine ⟨by simp, Or.inr ?_, ?_⟩
    · simp [getD_set_eq, hi]
    · intro j hj
      simp [getD_set_eq, Ne.symm hj]

/-- A loop over the boundary elements `0 .. k-1` whose passes either abort or give the
element they visit the attribute 1 or 2 and keep the rest: when it does not abort, the
number of boundary elements is kept and the elements `0 .. k-1` have the attribute 1 or 2. -/
theorem foldlM_attributes (f : Mesh → Nat → Except Err Mesh) (n : Nat)
    (hf : ∀ (m m1 : Mesh) (i : Nat), i < m.boundary.length → f m i = Except.ok m1 →
      m1.boundary.length = m.boundary.length ∧
      ((m1.boundary.getD i { v := [] }).attr = 1
        ∨ (m1.boundary.getD i { v := [] }).attr = 2) ∧
      ∀ j, j ≠ i → m1.boundary.getD j { v := [] } = m.boundary.getD j { v := [] }) :
    ∀ k, k ≤ n → ∀ m mk : Mesh, m.boundary.length = n →
      (List.range k).foldlM f m = Except.ok mk →
      mk.boundary.length = n ∧
      ∀ i, i < k → (mk.boundary.getD i { v := [] }).attr = 1
        ∨ (mk.boundary.getD i { v := [] }).attr = 2 := by
  intro k
  induction k with
  | zero =>
    intro _ m mk hm h
    simp only [List.range_zero, List.foldlM_nil] at h
    injection h with h
    subst h
    exact ⟨hm, fun i hi => absurd hi (Nat.not_lt_zero i)⟩
  | succ k ih =>
    intro hk m mk hm h
    rw [List.range_succ, List.foldlM_append] at h
    cases hprev : (List.range k).foldlM f m with
    | error e =>
      rw [hprev] at h
      cases h
    | ok mp =>
      rw [hprev] at h
      obtain ⟨hlen, hattr⟩ := ih (by omega) m mp hm hprev
      have hstep : f mp k = Except.ok mk := by
        simp only [List.foldlM_cons, List.foldlM_nil] at h
        have h1 : (f mp k >>= pure) = Except.ok mk := h
        cases hfk : f mp k with
        | error e =>
          rw [hfk] at h1
          cases h1
        | ok mq =>
          rw [hfk] at h1
          exact h1
      obtain ⟨h1, h2, h3⟩ := hf mp mk k (by omega) hstep
      refine ⟨h1.trans hlen, ?_⟩
      intro i hi
      by_cases hik : i = k
      · subst hik
        exact h2
      · rw [h3 i hik]
        exact hattr i (by omega)

/-- The function `QuarterPeach::Postfix`, when it does not abort, keeps the number of boundary
elements and gives every boundary element the attribute 1 or 2. -/
theorem QuarterPeach.Postfix_attributes (FaceIsTrueInterior : Nat → Bool)
    (nval : Nat → Nat → ℚ) (m m1 : Mesh)
    (h : QuarterPeach.Postfix FaceIsTrueInterior nval m = Except.ok m1) :
    m1.boundary.length = m.boundary.length ∧
      ∀ i, i < m.boundary.length → (m1.boundary.getD i { v := [] }).attr = 1
        ∨ (m1.boundary.getD i { v := [] }).attr = 2 := by
  unfold QuarterPeach.Postfix at h
  exact foldlM_attributes _ m.boundary.length
    (fun a a1 i hi ha => QuarterPeach.Postfix_body FaceIsTrueInterior nval a a1 i hi ha)
    m.boundary.length le_rfl m m1 rfl h

/-- C24: when the mesh has a boundary attribute, `Surface::BC` hands
`GetEssentialTrueDofs` a marker array of length `max(bdr_attributes)` whose entries are all
1 and writes the result to `opt.bc`; every boundary attribute (from 1 on) is marked; with
boundary attributes between 1 and the largest attribute the essential degrees of freedom
are those lying on a boundary element, whatever the attributes are; hence two runs of
`QuarterPeach::Postfix` on one mesh, choosing the attributes 1 and 2 from different node
values, give the same `opt.bc` (the array `bdr_attributes` may be the one of the grid, 1 to
4, or one recomputed after each run, as long as it bounds the attributes in use).  When the
mesh has no boundary attribute, `opt` is left unchanged. -/
theorem C24_default_BC_ignores_attributes (bdr_attributes : List Int) (ndofs : Nat)
    (bdrDofs : Nat → List Nat) (opt : Opt) :
    (bdr_attributes ≠ [] →
      (∀ G : List Int → List Nat,
        (Surface.BC bdr_attributes G opt).bc
          = G (List.replicate (Array.Max bdr_attributes).toNat 1)) ∧
      (List.replicate (Array.Max bdr_attributes).toNat (1 : Int)).length
        = (Array.Max bdr_attributes).toNat ∧
      (∀ x ∈ List.replicate (Array.Max bdr_attributes).toNat (1 : Int), x = 1) ∧
      (∀ a ∈ bdr_attributes, 1 ≤ a →
        (List.replicate (Array.Max bdr_attributes).toNat (1 : Int)).getD (a - 1).toNat 0
          = 1) ∧
      (∀ boundary : List Element,
        (∀ i, i < boundary.length → 1 ≤ (boundary.getD i { v := [] }).attr
          ∧ (boundary.getD i { v := [] }).attr ≤ Array.Max bdr_attributes) →
        (Surface.BC bdr_attributes (GetEssentialTrueDofs ndofs bdrDofs boundary) opt).bc
          = (List.range ndofs).filter (fun d =>
              (List.range boundary.length).any (fun i => (bdrDofs i).contains d))) ∧
      (∀ (bdr_attributes2 : List Int) (FI1 FI2 : Nat → Bool) (nval1 nval2 : Nat → Nat → ℚ)
          (m m1 m2 : Mesh), bdr_attributes2 ≠ [] →
          QuarterPeach.Postfix FI1 nval1 m = Except.ok m1 →
          QuarterPeach.Postfix FI2 nval2 m = Except.ok m2 →
          (∀ i, i < m1.boundary.length →
            (m1.boundary.getD i { v := [] }).attr ≤ Array.Max bdr_attributes) →
          (∀ i, i < m2.boundary.length →
            (m2.boundary.getD i { v := [] }).attr ≤ Array.Max bdr_attributes2) →
          (Surface.BC bdr_attributes (GetEssentialTrueDofs ndofs bdrDofs m1.boundary) opt).bc
            = (Surface.BC bdr_attributes2
                (GetEssentialTrueDofs ndofs bdrDofs m2.boundary) opt).bc)) ∧
      (bdr_attributes = [] →
        ∀ G : List Int → List Nat, Surface.BC bdr_attributes G opt = opt) := by
  constructor
  · intro hne
    have hlen : bdr_attributes.length ≠ 0 := by
      intro h
      exact hne (List.length_eq_zero.mp h)
    have hBC : ∀ G : List Int → List Nat,
        (Surface.BC bdr_attributes G opt).bc
          = G (List.replicate (Array.Max bdr_attributes).toNat 1) := by
      intro G
      unfold Surface.BC
      rw [if_pos hlen]
    have hall : ∀ boundary : List Element,
        (∀ i, i < boundary.length → 1 ≤ (boundary.getD i { v := [] }).attr
          ∧ (boundary.getD i { v := [] }).attr ≤ Array.Max bdr_attributes) →
        (Surface.BC bdr_attributes (GetEssentialTrueDofs ndofs bdrDofs boundary) opt).bc
          = (List.range ndofs).filter (fun d =>
              (List.range boundary.length).any (fun i => (bdrDofs i).contains d)) := by
      intro boundary hb
      rw [hBC, GetEssentialTrueDofs_all_ones ndofs bdrDofs boundary _ hb]
    refine ⟨hBC, List.length_replicate _ _, fun x hx => List.eq_of_mem_replicate hx, ?_,
      hall, ?_⟩
    · intro a ha h1
      exact marker_all_ones _ a h1 (Array.le_Max bdr_attributes a ha)
    · intro A2 FI1 FI2 nval1 nval2 m m1 m2 hne2 e1 e2 b1 b2
      have hlen2 : A2.length ≠ 0 := by
        intro h
        exact hne2 (List.length_eq_zero.mp h)
      have hBC2 : (Surface.BC A2 (GetEssentialTrueDofs ndofs bdrDofs m2.boundary) opt).bc
          = GetEssentialTrueDofs ndofs bdrDofs m2.boundary
              (List.replicate (Array.Max A2).toNat 1) := by
        unfold Surface.BC
        rw [if_pos hlen2]
      obtain ⟨l1, a1⟩ := QuarterPeach.Postfix_attributes FI1 nval1 m m1 e1
      obtain ⟨l2, a2⟩ := QuarterPeach.Postfix_attributes FI2 nval2 m m2 e2
      rw [hall m1.boundary, hBC2, GetEssentialTrueDofs_all_ones ndofs bdrDofs m2.boundary,
        l1, l2]
      · intro i hi
        refine ⟨?_, b2 i hi⟩
        rcases a2 i (l2 ▸ hi) with h | h <;> omega
      · intro i hi
        refine ⟨?_, b1 i hi⟩
        rcases a1 i (l1 ▸ hi) with h | h <;> omega
  · intro he G
    unfold Surface.BC
    rw [he]
    rfl

/-- C24 on a mesh with one boundary segment and the boundary attributes 1 to 4 of a grid:
one run of `QuarterPeach::Postfix` gives the segment the attribute 1, another one the
attribute 2, and `opt.bc` is the same; without boundary attributes `opt` is kept. -/
theorem C24_default_BC_ignores_attributes_witness :
    ([1, 2, 3, 4] : List Int) ≠ [] ∧ 2 ≤ Array.Max [1, 2, 3, 4] ∧
      QuarterPeach.Postfix (fun _ => false) (fun d _ => if d = 0 then 1 else 0)
          { boundary := [{ v := [0, 1], attr := 3 }] }
        = Except.ok { boundary := [{ v := [0, 1], attr := 1 }] } ∧
      QuarterPeach.Postfix (fun _ => false) (fun _ _ => 0)
          { boundary := [{ v := [0, 1], attr := 3 }] }
        = Except.ok { boundary := [{ v := [0, 1], attr := 2 }] } ∧
      (Surface.BC [1, 2, 3, 4]
          (GetEssentialTrueDofs 4 (fun _ => [0, 1]) [{ v := [0, 1], attr := 1 }]) {}).bc
        = (Surface.BC [1, 2, 3, 4]
          (GetEssentialTrueDofs 4 (fun _ => [0, 1]) [{ v := [0, 1], attr := 2 }]) {}).bc ∧
      Surface.BC [] (fun _ => [7]) {} = {} :=
  have hA : QuarterPeach.Postfix (fun _ => false) (fun d _ => if d = 0 then 1 else 0)
      { boundary := [{ v := [0, 1], attr := 3 }] }
      = Except.ok { boundary := [{ v := [0, 1], attr := 1 }] } := by
    norm_num [QuarterPeach.Postfix, EPS, List.range_succ]
  have hB : QuarterPeach.Postfix (fun _ => false) (fun _ _ => 0)
      { boundary := [{ v := [0, 1], attr := 3 }] }
      = Except.ok { boundary := [{ v := [0, 1], attr := 2 }] } := by
    norm_num [QuarterPeach.Postfix, EPS, List.range_succ]
  ⟨by decide, by decide, hA, hB,
    ((C24_default_BC_ignores_attributes [1, 2, 3, 4] 4 (fun _ => [0, 1]) {}).1
      (by decide)).2.2.2.2.2 [1, 2, 3, 4] _ _ _ _ _ _ _ (by decide) hA hB (by decide)
      (by decide),
    (C24_default_BC_ignores_attributes [] 4 (fun _ => [0, 1]) {}).2 rfl (fun _ => [7])⟩

end MinimalSurface
